import Mathlib

/-!
# Verification of `huahuayu/kit`, package `pipeline`

A shallow embedding of `pipeline/pipeline.go` and `pipeline/node.go`.

Stages are Go pointers compared by identity; here a stage is an element of a
type `α` with decidable equality, and the heap of one program run holds
finitely many stages (`Fintype α`).  The successor lists (`Node.next`, read
through `getNext`) are a function `next : α → List α`.  A Go `map[INode]bool`
is a function `α → Bool` (a key that was never written reads `false`).

The recursive traversals carry a recursion-depth budget (`fuel`) and return
`none` when the budget is exhausted; the theorems show that the budget
`Fintype.card α + 1` is never exhausted.

The two recursive methods `dfsHelper` and `hasCycleHelper` also keep a record of
their entries: the list of the stages on which the method has been entered, in order.
The record is no variable of the program and no branch reads it; it is there so that
the number of entries can be stated.
-/

namespace Pipeline

section Graph

variable {α : Type} [DecidableEq α]

/-- The Go statement `m[k] = b` on a `map[INode]bool`. -/
def setKey (m : α → Bool) (k : α) (b : Bool) : α → Bool :=
  fun x => if x = k then b else m x

/-- The Go value `make(map[INode]bool)`: every key reads `false`. -/
def emptyMap : α → Bool := fun _ => false

/-- The loop `for _, next := range node.getNext() { p.dfsHelper(next, visited, fn) }`
of `dfsHelper`, with the recursive call passed as `call`. -/
def dfsLoop {σ : Type} (call : α → (α → Bool) × σ → Option ((α → Bool) × σ)) :
    List α → (α → Bool) × σ → Option ((α → Bool) × σ)
  | [], st => some st
  | nx :: rest, st =>
    match call nx st with
    | none => none
    | some st1 => dfsLoop call rest st1

/-- The method `Pipeline.dfsHelper`.  The state is the `visited` map, the record of the
entries of the method and the state `σ` on which the action `fn` works.  The record is
not a variable of the program: it lists, in order, the stages on which `dfsHelper` has
been entered, and is extended at the entry, before the test of `visited`. -/
def dfsHelper {σ : Type} (next : α → List α) (fn : α → σ → σ) :
    Nat → α → (α → Bool) × List α × σ → Option ((α → Bool) × List α × σ)
  | 0, _, _ => none
  | fuel + 1, node, (visited, entered, s) =>
    if visited node then some (visited, entered ++ [node], s)
    else dfsLoop (dfsHelper next fn fuel) (next node)
      (setKey visited node true, entered ++ [node], fn node s)

/-- The method `Pipeline.getAllNodes` for a non-nil root: `dfsHelper` with the
action `nodes = append(nodes, node)`, started on an empty `visited` map. -/
def getAllNodes (next : α → List α) (fuel : Nat) (root : α) : Option (List α) :=
  match dfsHelper next (fun node nodes => nodes ++ [node]) fuel root (emptyMap, [], []) with
  | none => none
  | some (_, _, nodes) => some nodes

/-- The state of the cycle detection: the maps `visited` and `recStack` of `hasCycle`
and the record of the entries of `hasCycleHelper`.  The record is not a variable of
the program: it lists, in order, the stages on which `hasCycleHelper` has been entered. -/
@[reducible]
def EntryState (α : Type) : Type := (α → Bool) × (α → Bool) × List α

/-- The loop over `node.getNext()` in `hasCycleHelper`, with the recursive call
passed as `call`.  When the list is exhausted the function clears `recStack[node]`
and returns `false`. -/
def hasCycleLoop (call : α → EntryState α → Option (Bool × EntryState α))
    (node : α) : List α → EntryState α → Option (Bool × EntryState α)
  | [], (visited, recStack, entered) =>
    some (false, (visited, setKey recStack node false, entered))
  | nx :: rest, (visited, recStack, entered) =>
    if !visited nx then
      match call nx (visited, recStack, entered) with
      | none => none
      | some (true, st) => some (true, st)
      | some (false, (visited1, recStack1, entered1)) =>
        if recStack1 nx then some (true, (visited1, recStack1, entered1))
        else hasCycleLoop call node rest (visited1, recStack1, entered1)
    else if recStack nx then some (true, (visited, recStack, entered))
    else hasCycleLoop call node rest (visited, recStack, entered)

/-- The method `Pipeline.hasCycleHelper`; its entry is recorded before its first
statement. -/
def hasCycleHelper (next : α → List α) :
    Nat → α → EntryState α → Option (Bool × EntryState α)
  | 0, _, _ => none
  | fuel + 1, node, (visited, recStack, entered) =>
    hasCycleLoop (hasCycleHelper next fuel) node (next node)
      (setKey visited node true, setKey recStack node true, entered ++ [node])

/-- The loop `for _, node := range p.getAllNodes()` of `hasCycle`; the result is the
Boolean that `hasCycle` returns together with the record of the entries of
`hasCycleHelper`. -/
def hasCycleOuter (next : α → List α) (fuel : Nat) :
    List α → EntryState α → Option (Bool × List α)
  | [], (_, _, entered) => some (false, entered)
  | node :: rest, (visited, recStack, entered) =>
    if !visited node then
      match hasCycleHelper next fuel node (visited, recStack, entered) with
      | none => none
      | some (true, (_, _, entered1)) => some (true, entered1)
      | some (false, st) => hasCycleOuter next fuel rest st
    else hasCycleOuter next fuel rest (visited, recStack, entered)

/-- The method `Pipeline.hasCycle`: the Boolean it returns, together with the record of
the stages on which it has entered `hasCycleHelper`, in the order of the entries. -/
def hasCycle (next : α → List α) (fuel : Nat) (root : α) : Option (Bool × List α) :=
  match getAllNodes next fuel root with
  | none => none
  | some nodes => hasCycleOuter next fuel nodes (emptyMap, emptyMap, [])

/-- The struct `Pipeline`: the root stage, whether `once` has fired, and the
number of signals held by the channel `doneCh` (capacity 1). -/
structure PipelineState (α : Type) where
  root : α
  onceDone : Bool
  doneCh : Nat
  deriving DecidableEq

/-- The function `NewPipeline`; `root = none` is the nil interface.  The result is
the Go pair `(*Pipeline, error)`. -/
def NewPipeline (next : α → List α) (fuel : Nat) :
    Option α → Option (Option (PipelineState α) × Option String)
  | none => some (none, some "nil root node")
  | some root =>
    match hasCycle next fuel root with
    | none => none
    | some (true, _) => some (none, some "cycle not allowed in pipeline")
    | some (false, _) => some (some { root := root, onceDone := false, doneCh := 0 }, none)

/-- The budget of nested calls that suffices for a heap of `Fintype.card α` stages. -/
def depthBudget (α : Type) [Fintype α] : Nat := Fintype.card α + 1

/-- The method `Pipeline.dfs`: `dfsHelper` from the root on a fresh `visited` map. -/
def dfs {σ : Type} (next : α → List α) (fn : α → σ → σ) (fuel : Nat) (root : α) (s : σ) :
    Option σ :=
  match dfsHelper next fn fuel root (emptyMap, [], s) with
  | none => none
  | some (_, _, s1) => some s1

/-- The calls that the coordinator makes, in the order in which it makes them:
the send `p.doneCh <- struct{}{}` and the stage methods `start`, `stop`, `wait`. -/
inductive Call (α : Type) where
  | signalDone
  | start (n : α)
  | stop (n : α)
  | wait (n : α)
  deriving DecidableEq

/-- The method `Pipeline.Start`: the calls it appends to the call sequence. -/
def Start (next : α → List α) (fuel : Nat) (p : PipelineState α) (calls : List (Call α)) :
    Option (List (Call α)) :=
  dfs next (fun node cs => cs ++ [Call.start node]) fuel p.root calls

/-- The method `Pipeline.Stop`: the body guarded by `p.once`, which sends on `doneCh`
and then runs `node.stop()` and `node.wait()` on each stage of the traversal. -/
def Stop (next : α → List α) (fuel : Nat) (p : PipelineState α) (calls : List (Call α)) :
    Option (PipelineState α × List (Call α)) :=
  if p.onceDone then some (p, calls)
  else
    match dfs next (fun node cs => cs ++ [Call.stop node, Call.wait node]) fuel p.root
        (calls ++ [Call.signalDone]) with
    | none => none
    | some cs => some ({ p with onceDone := true, doneCh := p.doneCh + 1 }, cs)

/-- The method `Pipeline.Wait`: the calls it appends to the call sequence. -/
def Wait (next : α → List α) (fuel : Nat) (p : PipelineState α) (calls : List (Call α)) :
    Option (List (Call α)) :=
  dfs next (fun node cs => cs ++ [Call.wait node]) fuel p.root calls

/-- In the call sequence `calls`, the call `a` is made before the call `b`. -/
def invokedBefore (calls : List (Call α)) (a b : Call α) : Prop :=
  List.Sublist [a, b] calls

instance invokedBefore.decidable (calls : List (Call α)) (a b : Call α) :
    Decidable (invokedBefore calls a b) := by
  unfold invokedBefore
  infer_instance

/-- The edge relation of the stage graph: `b` is in the successor list of `a`. -/
def Edge (next : α → List α) (a b : α) : Prop := b ∈ next a

/-- Reachability by following successor lists (zero or more edges). -/
def Reach (next : α → List α) : α → α → Prop := Relation.ReflTransGen (Edge next)

/-- The stage `v` lies on a directed cycle: a path of one or more edges leads from `v` to `v`. -/
def OnCycle (next : α → List α) (v : α) : Prop := Relation.TransGen (Edge next) v v

/-- The subgraph reachable from `root` contains a directed cycle. -/
def HasReachableCycle (next : α → List α) (root : α) : Prop :=
  ∃ c, Reach next root c ∧ OnCycle next c

/-- The stages not yet marked in a `visited` map. -/
def unvisited [Fintype α] (V : α → Bool) : Finset α :=
  Finset.univ.filter (fun x => V x = false)

/-- What a traversal started on the stages `starts` with the map `V` has done when
it returns the map `W`, having applied the action to the stages `new` in that order. -/
def DfsPost (next : α → List α) (starts : List α) (V W : α → Bool) (new : List α) : Prop :=
  new.Nodup ∧ (∀ x ∈ new, V x = false ∧ ∃ y ∈ starts, Reach next y x) ∧
  (∀ x, W x = true ↔ (V x = true ∨ x ∈ new)) ∧ (∀ y ∈ starts, W y = true) ∧
  (∀ u ∈ new, ∀ w ∈ next u, W w = true) ∧
  (∀ y, starts.head? = some y → V y = false → new.head? = some y) ∧
  (∀ x ∈ new, x ∈ starts ∨ ∃ u ∈ new, x ∈ next u ∧ List.Sublist [u, x] new)

/-- The invariant of cycle detection on the maps `visited` and `recStack`: the stages
on the recursion stack are visited, and the visited stages off the stack (the fully
processed ones) are closed under successors and lie on no cycle. -/
def CycleInv (next : α → List α) (V S : α → Bool) : Prop :=
  (∀ x, S x = true → V x = true) ∧
  (∀ u, V u = true → S u = false → ∀ w ∈ next u, V w = true ∧ S w = false) ∧
  (∀ u, V u = true → S u = false → ¬ OnCycle next u)

/-- A graph with a cycle that does not pass through the root: 0 → 1 → 2 → 3 → 1. -/
def cycleGraph : Fin 4 → List (Fin 4) := fun i => [[1], [2], [3], [1]].getD i []

/-- An acyclic graph in which stage 1 has two predecessors: 0 → 1, 0 → 2, 2 → 1. -/
def sharedSuccGraph : Fin 3 → List (Fin 3) := fun i => [[1, 2], [], [1]].getD i []

end Graph

section Stage

/-!
## Stages (`node.go`)

The model covers stages that have been started and not stopped: the relay task and
the workers of a stage are running, and `Step` lists the atomic actions they take.
A channel is the list of values sent on it and not yet received, oldest first; the
capacity of `jobCh`, which only decides when a sender has to wait, is left out.
-/

variable {α β : Type} [DecidableEq α]

/-- A Go type, as far as `jobReceiver` looks at it.  `decl` identifies the type (for a
defined type: the import path of its package and its name), so that two types are
identical exactly when they are the same value here; `text` is what the verb `%T`
prints for the type.  Distinct types may print alike: `%T` qualifies a name with the
name of the package and not with its import path, so the types `X` of two packages
that are both named `pipeline` both print as "pipeline.X". -/
structure TypeRep where
  decl : String
  text : String
  deriving DecidableEq

/-- A predeclared type such as `string` or `int`, written by its name, which is also
what `%T` prints for it. -/
instance TypeRep.ofName : Coe String TypeRep :=
  ⟨fun name => { decl := name, text := name }⟩

/-- A non-nil Go interface value (`any`): its dynamic type and its payload. -/
structure Dyn (β : Type) where
  ty : TypeRep
  val : β
  deriving DecidableEq

/-- The type parameter `T` of `Node[T]`: a concrete type, or an interface type given
by the dynamic types that implement it (`any` is implemented by every type). -/
inductive GoType where
  | concrete (t : TypeRep)
  | iface (implementedBy : TypeRep → Bool)

/-- The test `case T` of the type switch in `jobReceiver`, on a non-nil value whose
dynamic type is `ty`: for a concrete `T` the dynamic type has to be identical to `T`,
whatever the two types print as. -/
def GoType.accepts : GoType → TypeRep → Bool
  | GoType.concrete t, ty => decide (ty = t)
  | GoType.iface implementedBy, ty => implementedBy ty

/-- The fields of `Node[T]` that are fixed once the graph is built.  `workFn` returns
the Go pair `(any, error)`: a result that may be nil and an error that may be nil. -/
structure Node (α β : Type) where
  name : String
  T : GoType
  workFn : Dyn β → Option (Dyn β) × Option String
  workerPoolSize : Nat
  next : List α

/-- The fields of `Node[T]` that change while the stage runs; `lastJob = none` is the
zero value the field holds before the first job. -/
structure NodeState (β : Type) where
  ingestCh : List (Dyn β)
  jobCh : List (Dyn β)
  lastJob : Option (Dyn β)
  deriving DecidableEq

/-- The calls made by workers, in the order in which they are made: `workFn n w job
result err` is the call `n.workFn(job)` by worker `w` of stage `n` with what it
returned, and `forward n w target job err` is the call `target.jobReceiver(job)` by
that worker with the error it returned. -/
inductive Ev (α β : Type) where
  | workFn (n : α) (workerId : Nat) (job : Dyn β) (result : Option (Dyn β))
      (err : Option String)
  | forward (n : α) (workerId : Nat) (target : α) (job : Option (Dyn β))
      (err : Option String)
  deriving DecidableEq

/-- The state of a running graph: the state of every stage and the calls made so far. -/
structure Sys (α β : Type) where
  stage : α → NodeState β
  calls : List (Ev α β)

/-- The state in which every channel is empty and no job has been processed. -/
def Sys.init : Sys α β :=
  { stage := fun _ => { ingestCh := [], jobCh := [], lastJob := none }, calls := [] }

/-- Replace the state of stage `a` by `f` of it. -/
def Sys.update (s : Sys α β) (a : α) (f : NodeState β → NodeState β) : Sys α β :=
  { s with stage := fun x => if x = a then f (s.stage x) else s.stage x }

/-- The method `Node.jobReceiver` of stage `a`: the error it returns and the state it
leaves.  The send `n.ingestCh <- job.(T)` appends the job to `ingestCh`. -/
def jobReceiver (nodes : α → Node α β) (a : α) (job : Option (Dyn β)) (s : Sys α β) :
    Option String × Sys α β :=
  match job with
  | none => (none, s)
  | some d =>
    if (nodes a).T.accepts d.ty then
      (none, s.update a (fun ns => { ns with ingestCh := ns.ingestCh ++ [d] }))
    else
      (some ("job type " ++ d.ty.text ++ " is not accept by [" ++ (nodes a).name ++ "]"), s)

/-- The loop `for _, next := range n.next { next.jobReceiver(result) }` of `work`, run
by worker `w` of stage `a`; the error returned by each call is not inspected. -/
def forward (nodes : α → Node α β) (a : α) (w : Nat) (result : Option (Dyn β)) :
    List α → Sys α β → Sys α β
  | [], s => s
  | nx :: rest, s =>
    let r := jobReceiver nodes nx result s
    forward nodes a w result rest { r.2 with calls := r.2.calls ++ [Ev.forward a w nx result r.1] }

/-- The body of the loop `for job := range n.jobCh` of `work`, run by worker `w` of
stage `a` on the job it received: store `lastJob`, call `workFn`, and on a non-nil
error `continue`, otherwise pass the result to the successors. -/
def workJob (nodes : α → Node α β) (a : α) (w : Nat) (job : Dyn β) (s : Sys α β) : Sys α β :=
  let s1 := s.update a (fun ns => { ns with lastJob := some job })
  let r := (nodes a).workFn job
  let s2 : Sys α β := { s1 with calls := s1.calls ++ [Ev.workFn a w job r.1 r.2] }
  match r.2 with
  | some _ => s2
  | none => forward nodes a w r.1 (nodes a).next s2

/-- The atomic actions of a running graph: the relay task of stage `a` moves one job
from `ingestCh` to `jobCh`, or worker `w` of stage `a` runs one iteration of `work`. -/
inductive Step (α : Type) where
  | relay (a : α)
  | work (a : α) (w : Nat)
  deriving DecidableEq

/-- One action.  `relay a` is the branch `case job := <-n.ingestCh: n.jobCh <- job` of
the relay task started by `start`; `work a w` is one iteration of the loop of `work`
in worker `w`, which exists when `w < workerPoolSize`.  An action that has to wait
(empty channel) leaves the state as it is. -/
def step (nodes : α → Node α β) : Step α → Sys α β → Sys α β
  | Step.relay a, s =>
    match (s.stage a).ingestCh with
    | [] => s
    | job :: rest =>
      s.update a (fun ns => { ns with ingestCh := rest, jobCh := ns.jobCh ++ [job] })
  | Step.work a w, s =>
    if w < (nodes a).workerPoolSize then
      match (s.stage a).jobCh with
      | [] => s
      | job :: rest => workJob nodes a w job (s.update a (fun ns => { ns with jobCh := rest }))
    else s

/-- Run the actions of a schedule in order. -/
def run (nodes : α → Node α β) : List (Step α) → Sys α β → Sys α β
  | [], s => s
  | st :: rest, s => run nodes rest (step nodes st s)

/-- The calls `workFn` recorded in a call sequence: stage, job and result, in order. -/
def transformRuns : List (Ev α β) → List (α × Dyn β × Option (Dyn β))
  | [] => []
  | Ev.workFn n _ job result _ :: rest => (n, job, result) :: transformRuns rest
  | Ev.forward _ _ _ _ _ :: rest => transformRuns rest

/-- The calls `jobReceiver` recorded in a call sequence: target stage and job, in order. -/
def forwardCalls : List (Ev α β) → List (α × Option (Dyn β))
  | [] => []
  | Ev.workFn _ _ _ _ _ :: rest => forwardCalls rest
  | Ev.forward _ _ target job _ :: rest => (target, job) :: forwardCalls rest

/-- Every channel of every stage is empty. -/
def Sys.quiescent (s : Sys α β) : Prop :=
  ∀ a, (s.stage a).ingestCh = [] ∧ (s.stage a).jobCh = []

/-- The job that reaches stage `k` of a linear chain of stages 0, 1, 2, ... when `job`
is submitted to stage 0: the transforms of the stages before `k` applied in turn. -/
def chainInput (nodes : Nat → Node Nat β) (job : Dyn β) : Nat → Option (Dyn β)
  | 0 => some job
  | k + 1 =>
    match chainInput nodes job k with
    | none => none
    | some d => ((nodes k).workFn d).1

/-- The transform calls expected of the first `n` stages of a linear chain: stage `k`
once, on `chainInput k`. -/
def chainRuns (nodes : Nat → Node Nat β) (job : Dyn β) (n : Nat) :
    List (Nat × Dyn β × Option (Dyn β)) :=
  (List.range n).filterMap (fun k =>
    match chainInput nodes job k with
    | none => none
    | some d => some (k, d, ((nodes k).workFn d).1))

/-- The stages 0, ..., n-1 form a linear chain on which `job` never fails: stage `k`
has the one successor `k + 1` (the last stage has none), it has a worker, and the job
that reaches it has its type and is transformed without error. -/
def IsChain (nodes : Nat → Node Nat β) (job : Dyn β) (n : Nat) : Prop :=
  ∀ k, k < n → (nodes k).next = (if k + 1 < n then [k + 1] else []) ∧
    0 < (nodes k).workerPoolSize ∧
    ∃ d, chainInput nodes job k = some d ∧ (nodes k).T.accepts d.ty = true ∧
      ((nodes k).workFn d).2 = none

/-- The schedule in which each stage of the chain in turn relays and then works once. -/
def chainSchedule (n : Nat) : List (Step Nat) :=
  (List.range n).flatMap (fun k => [Step.relay k, Step.work k 0])

/-- The names of the stages of the chain A -> B -> C -> D. -/
def abcdName (k : Nat) : String := ["A", "B", "C", "D"].getD k ""

/-- The chain A -> B -> C -> D of string stages; each transform appends a space and
the name of its stage. -/
def abcdChain : Nat → Node Nat String := fun k =>
  { name := abcdName k
    T := GoType.concrete "string"
    workFn := fun d => (some { ty := "string", val := d.val ++ " " ++ abcdName k }, none)
    workerPoolSize := 1
    next := if k + 1 < 4 then [k + 1] else [] }

/-- A fan-out A -> [B, C]: stage 0 is A, stage 1 is B, stage 2 is C.  A and C are
string stages and B has the type `tB`; each transform appends the name of its stage. -/
def fanOut (tB : TypeRep) : Nat → Node Nat String := fun k =>
  { name := abcdName k
    T := GoType.concrete (if k = 1 then tB else "string")
    workFn := fun d => (some { ty := "string", val := d.val ++ " " ++ abcdName k }, none)
    workerPoolSize := 1
    next := if k = 0 then [1, 2] else [] }

/-- The type `X` declared in the package with the import path
"example.com/a/pipeline"; `%T` prints it as "pipeline.X". -/
def typeXa : TypeRep := { decl := "example.com/a/pipeline.X", text := "pipeline.X" }

/-- The type `X` declared in another package of the same name, with the import path
"example.com/b/pipeline": a type distinct from `typeXa` that prints like it. -/
def typeXb : TypeRep := { decl := "example.com/b/pipeline.X", text := "pipeline.X" }

/-- A stage A of the type `typeXa` whose transform returns its job, with no successor. -/
def stageXa : Nat → Node Nat String := fun k =>
  { name := abcdName k
    T := GoType.concrete typeXa
    workFn := fun d => (some d, none)
    workerPoolSize := 1
    next := [] }

/-- A stage A whose transform fails on every job, with the successor B. -/
def failing : Nat → Node Nat String := fun k =>
  { name := abcdName k
    T := GoType.concrete "string"
    workFn := fun d => if k = 0 then (none, some ("cannot process " ++ d.val))
      else (some { ty := "string", val := d.val ++ " " ++ abcdName k }, none)
    workerPoolSize := 1
    next := if k = 0 then [1] else [] }

/-- A state in which the jobs "x" and "y" wait in the channel `jobCh` of stage 0. -/
def twoPending : Sys Nat String :=
  Sys.init.update 0 (fun ns =>
    { ns with jobCh := [{ ty := "string", val := "x" }, { ty := "string", val := "y" }] })

/-- The state of a chain in which the job for stage `k` waits in the `ingestCh` of
stage `k`, every other channel is empty, and the stages before `k` have run. -/
def AtIngest (nodes : Nat → Node Nat β) (job : Dyn β) (k : Nat) (s : Sys Nat β) : Prop :=
  (∀ a, (s.stage a).ingestCh = if a = k then (chainInput nodes job k).toList else []) ∧
  (∀ a, (s.stage a).jobCh = []) ∧ transformRuns s.calls = chainRuns nodes job k

/-- The state of a chain in which the job for stage `k` waits in the `jobCh` of stage
`k`, every other channel is empty, and the stages before `k` have run. -/
def AtJob (nodes : Nat → Node Nat β) (job : Dyn β) (k : Nat) (s : Sys Nat β) : Prop :=
  (∀ a, (s.stage a).ingestCh = []) ∧
  (∀ a, (s.stage a).jobCh = if a = k then (chainInput nodes job k).toList else []) ∧
  transformRuns s.calls = chainRuns nodes job k

/-- The states that a chain of `n` stages can be in after `job` was submitted to
stage 0: the job is on its way to some stage `k < n`, or all `n` stages have run and
every channel is empty. -/
def ChainInv (nodes : Nat → Node Nat β) (job : Dyn β) (n : Nat) (s : Sys Nat β) : Prop :=
  (∃ k, k < n ∧ AtIngest nodes job k s) ∨ (∃ k, k < n ∧ AtJob nodes job k s) ∨
  (s.quiescent ∧ transformRuns s.calls = chainRuns nodes job n)

end Stage

section Coordinator

variable {α : Type} [DecidableEq α]

/-- The loop over the successors in `preorderFrom`, with the recursive call passed as
`call`. -/
def preorderLoop (call : List α → α → Option (List α)) : List α → List α → Option (List α)
  | [], acc => some acc
  | nx :: rest, acc =>
    match call acc nx with
    | none => none
    | some acc1 => preorderLoop call rest acc1

/-- Depth-first pre-order as the specification words it, with no map and no action:
`acc` lists the stages met so far; a stage already listed is skipped, a new stage is
listed and then its successors are traversed in list order. -/
def preorderFrom (next : α → List α) : Nat → List α → α → Option (List α)
  | 0, _, _ => none
  | fuel + 1, acc, node =>
    if node ∈ acc then some acc
    else preorderLoop (preorderFrom next fuel) (next node) (acc ++ [node])

/-- The depth-first pre-order of the stages reachable from `root`, successors taken in
list order. -/
def preorder (next : α → List α) (fuel : Nat) (root : α) : Option (List α) :=
  preorderFrom next fuel [] root

/-- The shutdown sequence of the specification for a traversal order: the signal on the
notification channel, then `stop` and `wait` on each stage in turn. -/
def shutdownSequence (order : List α) : List (Call α) :=
  Call.signalDone :: order.flatMap (fun n => [Call.stop n, Call.wait n])

/-- The method `Pipeline.Stop` called `n` times in a row on the same pipeline. -/
def StopTimes (next : α → List α) (fuel : Nat) :
    Nat → PipelineState α → List (Call α) → Option (PipelineState α × List (Call α))
  | 0, p, calls => some (p, calls)
  | n + 1, p, calls =>
    match Stop next fuel p calls with
    | none => none
    | some (p1, calls1) => StopTimes next fuel n p1 calls1

end Coordinator

section StageMethods

variable {α β : Type} [DecidableEq α]

/-- The method `Node.SetNext` of stage `a` with the argument `s`: `n.next =
append(n.next, node)`; a nil slice and an empty slice are both the empty list. -/
def SetNext (nodes : α → Node α β) (a s : α) : α → Node α β :=
  fun x => if x = a then { nodes x with next := (nodes x).next ++ [s] } else nodes x

/-- The method `Node.getNext`. -/
def getNext (nodes : α → Node α β) (a : α) : List α := (nodes a).next

/-- The method `Node.latestJob` of stage `a`; `none` is the zero value of `T`. -/
def latestJob (s : Sys α β) (a : α) : Option (Dyn β) := (s.stage a).lastJob

/-- The method `Pipeline.LatestJob`. -/
def LatestJob (p : PipelineState α) (s : Sys α β) : Option (Dyn β) := latestJob s p.root

/-- The state of a running graph together with, for each worker, the job it has
received from `jobCh` and not yet passed to `workFn`. -/
structure Pool (α β : Type) where
  sys : Sys α β
  holding : α → Nat → Option (Dyn β)

/-- The actions of a running graph when the receive from `jobCh` and the rest of the
iteration of `work` are separate: between the two, other workers of the stage may act. -/
inductive Action (α : Type) where
  | relay (a : α)
  | receive (a : α) (w : Nat)
  | process (a : α) (w : Nat)
  deriving DecidableEq

/-- One action.  `receive a w`: worker `w` of stage `a`, at the head of the loop
`for job := range n.jobCh`, takes the oldest job of `jobCh`.  `process a w`: the
worker runs the body of the loop on the job it holds and is back at the head. -/
def act (nodes : α → Node α β) : Action α → Pool α β → Pool α β
  | Action.relay a, p => { p with sys := step nodes (Step.relay a) p.sys }
  | Action.receive a w, p =>
    if w < (nodes a).workerPoolSize ∧ (p.holding a w).isNone then
      match (p.sys.stage a).jobCh with
      | [] => p
      | job :: rest =>
        { sys := p.sys.update a (fun ns => { ns with jobCh := rest })
          holding := fun x v => if x = a ∧ v = w then some job else p.holding x v }
    else p
  | Action.process a w, p =>
    match p.holding a w with
    | none => p
    | some job =>
      { sys := workJob nodes a w job p.sys
        holding := fun x v => if x = a ∧ v = w then none else p.holding x v }

/-- Run the actions of a schedule in order. -/
def actAll (nodes : α → Node α β) : List (Action α) → Pool α β → Pool α β
  | [], p => p
  | x :: rest, p => actAll nodes rest (act nodes x p)

/-- The jobs on which the transform of stage `a` was called, in call order. -/
def invokedOn (a : α) : List (Ev α β) → List (Dyn β)
  | [] => []
  | Ev.workFn n _ job _ _ :: rest => if n = a then job :: invokedOn a rest else invokedOn a rest
  | Ev.forward _ _ _ _ _ :: rest => invokedOn a rest

/-- The jobs that the relay task of stage `a` puts into `jobCh` during a schedule, in
the order in which it puts them: the order in which the pending queue accepts them. -/
def acceptedDuring (nodes : α → Node α β) (a : α) : List (Action α) → Pool α β → List (Dyn β)
  | [], _ => []
  | Action.relay b :: rest, p =>
    (if b = a then (p.sys.stage a).ingestCh.head?.toList else [])
      ++ acceptedDuring nodes a rest (act nodes (Action.relay b) p)
  | x :: rest, p => acceptedDuring nodes a rest (act nodes x p)

/-- A pool in which the jobs "x" and "y" wait in `jobCh` of stage 0 and no worker
holds a job. -/
def twoPendingPool : Pool Nat String := { sys := twoPending, holding := fun _ _ => none }

/-- The stage A with a pool of two workers. -/
def twoWorkers : Nat → Node Nat String := fun k =>
  { name := abcdName k
    T := GoType.concrete "string"
    workFn := fun d => (some { ty := "string", val := d.val ++ " " ++ abcdName k }, none)
    workerPoolSize := 2
    next := [] }

/-- A pool in which "x" and then "y" have been submitted to the string stage A of
`abcdChain` and wait in its `ingestCh`, and no worker holds a job. -/
def submittedPool : Pool Nat String :=
  { sys := (jobReceiver abcdChain 0 (some { ty := "string", val := "y" })
      (jobReceiver abcdChain 0 (some { ty := "string", val := "x" }) Sys.init).2).2
    holding := fun _ _ => none }

end StageMethods

section CycleEntries

variable {α : Type} [DecidableEq α]

/-- The relation between the map `visited` and the record of the entries: the record
has no stage twice and lists exactly the stages that `visited` marks. -/
def EntriesMatch (visited : α → Bool) (entered : List α) : Prop :=
  entered.Nodup ∧ ∀ x, visited x = true ↔ x ∈ entered

/-- A graph with the cycle 0 -> 1 -> 0 and the third stage 2 after stage 1. -/
def backEdgeGraph : Fin 3 → List (Fin 3) := fun k =>
  if k = 0 then [1] else if k = 1 then [0, 2] else []

end CycleEntries

section Lifecycle

variable {α β : Type} [DecidableEq α]

/-- The operations that change what the channel `jobCh` of a stage accepts: a send
`n.jobCh <- job` and `close(n.jobCh)`. -/
inductive ChanOp (β : Type) where
  | send (job : Dyn β)
  | close
  deriving DecidableEq

/-- A running graph from `start` on.  `relayExited a`: the relay task that `start`
launched for stage `a` has returned.  `closed a`: the channel `jobCh` of stage `a` has
been closed.  `jobChOps`: the sends and closes on the channels `jobCh`, each with its
stage, in the order in which they happen. -/
structure Life (α β : Type) where
  pool : Pool α β
  relayExited : α → Bool
  closed : α → Bool
  jobChOps : List (α × ChanOp β)

/-- The state right after `start` has been called once on every stage: every relay
task is in its loop, no `jobCh` is closed, and nothing has been sent yet. -/
def Life.started (p : Pool α β) : Life α β :=
  { pool := p, relayExited := fun _ => false, closed := fun _ => false, jobChOps := [] }

/-- The moves of a running graph.  `task x`: an action of the relay task or of a worker.
`done a`: the relay task of stage `a` takes the branch `case <-n.doneCh` of its
`select`, which a call `n.stop()` makes ready.  `submit a job`: a producer calls
`jobReceiver(job)` on stage `a`. -/
inductive Move (α β : Type) where
  | task (x : Action α)
  | done (a : α)
  | submit (a : α) (job : Option (Dyn β))

/-- One move.  The relay task acts only while it has not returned: in the branch
`case job := <-n.ingestCh` it sends the job on `jobCh`; in the branch
`case <-n.doneCh` it runs `close(n.jobCh)` and returns.  The receive and the send of
the first branch are one move: between them the relay task is inside that branch and
can neither take the other branch nor close.  The workers receive from `jobCh` (also
from a closed one that still holds jobs) and run the loop body of `work`;
`jobReceiver` sends on `ingestCh`.  A move that would have to wait leaves the state as
it is. -/
def move (nodes : α → Node α β) : Move α β → Life α β → Life α β
  | Move.task (Action.relay a), s =>
    if s.relayExited a then s
    else
      match (s.pool.sys.stage a).ingestCh with
      | [] => s
      | job :: _ =>
        { s with
          pool := act nodes (Action.relay a) s.pool
          jobChOps := s.jobChOps ++ [(a, ChanOp.send job)] }
  | Move.task (Action.receive a w), s => { s with pool := act nodes (Action.receive a w) s.pool }
  | Move.task (Action.process a w), s => { s with pool := act nodes (Action.process a w) s.pool }
  | Move.done a, s =>
    if s.relayExited a then s
    else
      { s with
        relayExited := setKey s.relayExited a true
        closed := setKey s.closed a true
        jobChOps := s.jobChOps ++ [(a, ChanOp.close)] }
  | Move.submit a job, s =>
    { s with pool := { s.pool with sys := (jobReceiver nodes a job s.pool.sys).2 } }

/-- Run the moves of a schedule in order. -/
def moves (nodes : α → Node α β) : List (Move α β) → Life α β → Life α β
  | [], s => s
  | m :: rest, s => moves nodes rest (move nodes m s)

/-- The operations on the channel `jobCh` of stage `a`, in order. -/
def opsOn (a : α) : List (α × ChanOp β) → List (ChanOp β)
  | [] => []
  | (b, op) :: rest => if b = a then op :: opsOn a rest else opsOn a rest

/-- A sequence of channel operations is a number of sends followed by at most one close,
which is then the last operation: no send and no second close comes after a close. -/
def sendsThenClose : List (ChanOp β) → Bool
  | [] => true
  | ChanOp.send _ :: rest => sendsThenClose rest
  | ChanOp.close :: rest => rest.isEmpty

/-- The invariant of a running graph, for every stage: `jobCh` is closed exactly when
the relay task has returned, which is exactly when a close of `jobCh` has happened, and
the operations on `jobCh` so far are sends followed by at most one final close. -/
def LifeInv (s : Life α β) : Prop :=
  ∀ a, s.closed a = s.relayExited a ∧
    (s.relayExited a = true ↔ ChanOp.close ∈ opsOn a s.jobChOps) ∧
    sendsThenClose (opsOn a s.jobChOps) = true

/-- The number of moves `done a` in a schedule. -/
def doneMoves (a : α) : List (Move α β) → Nat
  | [] => 0
  | Move.done b :: rest => (if b = a then 1 else 0) + doneMoves a rest
  | _ :: rest => doneMoves a rest

/-- A fan-out A -> [B, C] of string stages in which the transform of A returns a nil
result with a nil error, as the transforms `print` of the tests do. -/
def nilResult : Nat → Node Nat String := fun k =>
  { name := abcdName k
    T := GoType.concrete "string"
    workFn := fun d =>
      if k = 0 then (none, none)
      else (some { ty := "string", val := d.val ++ " " ++ abcdName k }, none)
    workerPoolSize := 1
    next := if k = 0 then [1, 2] else [] }

end Lifecycle

end Pipeline

namespace Orderedmap

/-!
## Package `orderedmap`

The key type `K` is any Go `comparable` type.  The map lookup and the loop of `Delete`
compare keys with the operator `==` of the key type, which is the field `eq` of
`Comparable K`: it is symmetric and transitive, and it need not be reflexive (a
float64 NaN is not equal to itself) nor tell apart every two values (the float64 zeros
`+0` and `-0` are equal).

The map `values` of the struct is the function that a lookup computes, to `Option V`
(`none`: the lookup reports that the key is missing).  The struct never ranges over
`values` and never takes its length, so entries that no lookup finds, which a Go map
holds after an assignment under a key that is not equal to itself, are not observed.
The mutex is left out, the methods being taken one call at a time.  The zero value of
`V`, which a Go map lookup returns for a missing key, is `default`.
-/

variable {K V : Type}

/-- The operator `==` of a Go key type. -/
structure Comparable (K : Type) where
  eq : K → K → Bool
  symm : ∀ a b, eq a b = eq b a
  trans : ∀ a b c, eq a b = true → eq b c = true → eq a c = true

/-- A key type on which `==` holds between a value and itself only: strings, integers,
Booleans, pointers. -/
def Comparable.identity (K : Type) [DecidableEq K] : Comparable K :=
  { eq := fun a b => decide (a = b)
    symm := fun a b => by by_cases h : a = b <;> simp [h, eq_comm]
    trans := fun a b c hab hbc => by
      have h1 : a = b := of_decide_eq_true hab
      have h2 : b = c := of_decide_eq_true hbc
      exact decide_eq_true (h1.trans h2) }

/-- Keys of type float64, as far as `==` goes: NaN and the numbers, here the whole
numbers. -/
inductive Float64Key where
  | nan
  | num (n : Int)
  deriving DecidableEq

/-- The operator `==` on float64: NaN is equal to nothing, itself included. -/
def Float64Key.eq : Float64Key → Float64Key → Bool
  | Float64Key.num a, Float64Key.num b => decide (a = b)
  | _, _ => false

/-- The key type float64. -/
def float64 : Comparable Float64Key :=
  { eq := Float64Key.eq
    symm := fun a b => by
      cases a <;> cases b <;> simp [Float64Key.eq, eq_comm]
    trans := fun a b c hab hbc => by
      cases a <;> cases b <;> cases c <;> simp_all [Float64Key.eq] }

/-- The struct `OrderedMap`. -/
structure OrderedMap (K V : Type) where
  keys : List K
  values : K → Option V

/-- The function `New`. -/
def New : OrderedMap K V := { keys := [], values := fun _ => none }

/-- The method `Set`.  After the assignment `o.values[key] = value` a lookup of `k`
finds `value` when `key == k`. -/
def Set (c : Comparable K) (o : OrderedMap K V) (key : K) (value : V) : OrderedMap K V :=
  { keys := if (o.values key).isSome then o.keys else o.keys ++ [key]
    values := fun k => if c.eq key k then some value else o.values k }

/-- The method `Get`: the value and the flag `exists` of the map lookup. -/
def Get [Inhabited V] (o : OrderedMap K V) (key : K) : V × Bool :=
  match o.values key with
  | some v => (v, true)
  | none => (default, false)

/-- The loop of `Delete` over `o.keys`: `append(o.keys[:i], o.keys[i+1:]...)` at the
first index `i` with `k == key`, then `break`. -/
def removeKey (c : Comparable K) (key : K) : List K → List K
  | [] => []
  | k :: rest => if c.eq k key then rest else k :: removeKey c key rest

/-- The method `Delete`.  After `delete(o.values, key)` a lookup of `k` finds nothing
when `key == k`. -/
def Delete (c : Comparable K) (o : OrderedMap K V) (key : K) : OrderedMap K V :=
  if (o.values key).isSome then
    { keys := removeKey c key o.keys
      values := fun k => if c.eq key k then none else o.values k }
  else o

/-- The method `Iterate`. -/
def Iterate (o : OrderedMap K V) : List K := o.keys

/-- A call of `Set` or of `Delete`. -/
inductive Op (K V : Type) where
  | set (key : K) (value : V)
  | delete (key : K)
  deriving DecidableEq

/-- The key on which an operation works. -/
def Op.key : Op K V → K
  | Op.set key _ => key
  | Op.delete key => key

/-- Apply one operation. -/
def applyOp (c : Comparable K) (o : OrderedMap K V) : Op K V → OrderedMap K V
  | Op.set key value => Set c o key value
  | Op.delete key => Delete c o key

/-- Apply a sequence of operations, in order, to a map. -/
def applyOps (c : Comparable K) (o : OrderedMap K V) (ops : List (Op K V)) :
    OrderedMap K V :=
  ops.foldl (applyOp c) o

/-- The position in the sequence of the `Set` with which the key `k` was inserted, when
the operations are numbered from `t` and `cur` is the position known so far: a `Set`
of a key equal to `k` while `k` is absent inserts it, a `Set` while it is present
changes nothing, and a `Delete` of a key equal to `k` makes it absent. -/
def insertedAtFrom (c : Comparable K) (k : K) : List (Op K V) → Nat → Option Nat → Option Nat
  | [], _, cur => cur
  | Op.set key _ :: rest, t, cur =>
    insertedAtFrom c k rest (t + 1)
      (if c.eq key k then (if cur.isSome then cur else some t) else cur)
  | Op.delete key :: rest, t, cur =>
    insertedAtFrom c k rest (t + 1) (if c.eq key k then none else cur)

/-- The position of the `Set` with which `k` was inserted by a sequence of operations on
a new map; `none` when `k` is not present at the end. -/
def insertedAt (c : Comparable K) (ops : List (Op K V)) (k : K) : Option Nat :=
  insertedAtFrom c k ops 0 none

/-- The last operation of a sequence that works on a key equal (`==`) to `k`. -/
def lastOpOn (c : Comparable K) (k : K) (ops : List (Op K V)) : Option (Op K V) :=
  (ops.filter (fun op => c.eq op.key k)).getLast?

/-- The last operation of a sequence that works on the very key `k`. -/
def lastOpOnSame [DecidableEq K] (k : K) (ops : List (Op K V)) : Option (Op K V) :=
  (ops.filter (fun op => decide (op.key = k))).getLast?

/-- The key `a` was inserted before the key `b`. -/
def InsertedBefore (time : K → Option Nat) (a b : K) : Prop :=
  ∃ ta tb, time a = some ta ∧ time b = some tb ∧ ta < tb

/-- The insertion positions after one more operation, numbered `t`. -/
def stamp (c : Comparable K) (time : K → Option Nat) (t : Nat) : Op K V → K → Option Nat
  | Op.set key _, k =>
    if c.eq key k then (if (time k).isSome then time k else some t) else time k
  | Op.delete key, k => if c.eq key k then none else time k

/-- The invariant of an `OrderedMap` reached by operations numbered below `t`: every
key in `keys` is equal to itself, a lookup finds a key exactly when `keys` holds a key
equal to it, these are the keys with an insertion position, `keys` is ordered by
insertion position, the positions are below `t`, and equal keys have the same lookup
result and the same position. -/
def MapInv (c : Comparable K) (o : OrderedMap K V) (time : K → Option Nat) (t : Nat) : Prop :=
  (∀ k ∈ o.keys, c.eq k k = true) ∧
  (∀ k, (∃ k1 ∈ o.keys, c.eq k1 k = true) ↔ (o.values k).isSome = true) ∧
  (∀ k, (time k).isSome = (o.values k).isSome) ∧
  o.keys.Pairwise (InsertedBefore time) ∧
  (∀ k tk, time k = some tk → tk < t) ∧
  (∀ a b, c.eq a b = true → o.values a = o.values b ∧ time a = time b)

end Orderedmap

namespace Config

/-!
## Package `config`

`Load` reads a file into the configuration struct and then overrides fields from the
environment.  The file decoders (`yaml`, `toml`, `json`), `strconv`, `strings` and `os`
are libraries outside the repository: what the decoder left in the struct, the
environment and the library functions are parameters.  A struct value is the list of
its fields (`Fields`), each with what `reflect` reports about it (`FieldInfo`).
-/

/-- What `reflect.Kind` and `reflect.Type` tell `setField` about a type: the kind, the
bit size of a numeric kind, the element type of a slice, the key and element types of
a map.  `other` stands for the kinds `setField` has no case for. -/
inductive Kind where
  | string
  | int (bits : Nat)
  | uint (bits : Nat)
  | bool
  | float (bits : Nat)
  | slice (elem : Kind)
  | map (key : Kind) (val : Kind)
  | struct
  | other
  deriving DecidableEq

/-- What `reflect` reports about a struct field: its name, the result of
`Tag.Lookup("env")`, the result of `CanSet()`, and its type. -/
structure FieldInfo where
  name : String
  envTag : Option String
  canSet : Bool
  kind : Kind
  deriving DecidableEq

/-- A Go value that is not a struct; `φ` is the type of floating-point numbers.  A map
is the list of its `SetMapIndex` calls in order (a later entry for a key replaces an
earlier one), and `other` is any value that is none of the others. -/
inductive Value (φ : Type) where
  | str (s : String)
  | int (i : Int)
  | uint (n : Nat)
  | bool (b : Bool)
  | float (f : φ)
  | slice (items : List (Value φ))
  | map (entries : List (Value φ × Value φ))
  | other (descr : String)

/-- The fields of a struct value in declaration order: a field of struct kind holds the
fields of the inner struct, any other field holds a value. -/
inductive Fields (φ : Type) where
  | nil
  | leaf (info : FieldInfo) (v : Value φ) (rest : Fields φ)
  | nested (info : FieldInfo) (inner : Fields φ) (rest : Fields φ)

/-- The library functions that `setField`, `parseSlice` and `parseMap` call:
`strings.Split`, `strings.SplitN`, `strings.TrimSpace`, `strconv.ParseInt(s, 10, 64)`,
`strconv.ParseUint(s, 10, 64)`, `strconv.ParseBool`, `strconv.ParseFloat(s, 64)`, the
rounding that `SetFloat` applies for a field of the given bit size, and the text that
the verb `%v` prints for a type. -/
structure Lib (φ : Type) where
  split : String → String → List String
  splitN : String → String → Nat → List String
  trimSpace : String → String
  parseInt : String → Except String Int
  parseUint : String → Except String Nat
  parseBool : String → Except String Bool
  parseFloat : String → Except String φ
  roundFloat : Nat → φ → φ
  typeName : Kind → String

variable {φ : Type}

/-- The value that `SetInt` stores in a signed integer field of `bits` bits: the low
`bits` bits of the argument, read as a two's-complement number. -/
def wrapInt (bits : Nat) (i : Int) : Int :=
  (i + 2 ^ (bits - 1)) % 2 ^ bits - 2 ^ (bits - 1)

/-- The value that `SetUint` stores in an unsigned integer field of `bits` bits. -/
def wrapUint (bits : Nat) (n : Nat) : Nat := n % 2 ^ bits

/-- The loop of `parseSlice` over the pieces of the value, for the element type `elem`. -/
def parseSliceLoop (lib : Lib φ) (elem : Kind) : List String → Except String (List (Value φ))
  | [] => Except.ok []
  | v :: rest =>
    match elem with
    | Kind.string =>
      match parseSliceLoop lib elem rest with
      | Except.ok items => Except.ok (Value.str (lib.trimSpace v) :: items)
      | Except.error e => Except.error e
    | Kind.int bits =>
      match lib.parseInt (lib.trimSpace v) with
      | Except.error e => Except.error e
      | Except.ok i =>
        match parseSliceLoop lib elem rest with
        | Except.ok items => Except.ok (Value.int (wrapInt bits i) :: items)
        | Except.error e => Except.error e
    | _ => Except.error ("unsupported slice element type: " ++ lib.typeName elem)

/-- The function `parseSlice`. -/
def parseSlice (lib : Lib φ) (elem : Kind) (value : String) : Except String (Value φ) :=
  match parseSliceLoop lib elem (lib.split value ",") with
  | Except.ok items => Except.ok (Value.slice items)
  | Except.error e => Except.error e

/-- The loop of `parseMap` over the pairs; `setKey` and `setVal` are `setField` on a new
value of the key type and of the element type. -/
def parseMapLoop (lib : Lib φ) (setKey setVal : String → Except String (Value φ)) :
    List String → Except String (List (Value φ × Value φ))
  | [] => Except.ok []
  | pair :: rest =>
    match lib.splitN pair ":" 2 with
    | [k, v] =>
      match setKey k with
      | Except.error e => Except.error e
      | Except.ok key =>
        match setVal v with
        | Except.error e => Except.error e
        | Except.ok val =>
          match parseMapLoop lib setKey setVal rest with
          | Except.ok entries => Except.ok ((key, val) :: entries)
          | Except.error e => Except.error e
    | _ => Except.error "invalid map value"

/-- The function `parseMap`. -/
def parseMap (lib : Lib φ) (setKey setVal : String → Except String (Value φ))
    (value : String) : Except String (Value φ) :=
  match parseMapLoop lib setKey setVal (lib.split value ",") with
  | Except.ok entries => Except.ok (Value.map entries)
  | Except.error e => Except.error e

/-- The function `setField` on a field of the given type: the value it stores, or the
error it returns. -/
def setField (lib : Lib φ) : Kind → String → Except String (Value φ)
  | Kind.string, value => Except.ok (Value.str value)
  | Kind.int bits, value =>
    match lib.parseInt value with
    | Except.error e => Except.error e
    | Except.ok i => Except.ok (Value.int (wrapInt bits i))
  | Kind.uint bits, value =>
    match lib.parseUint value with
    | Except.error e => Except.error e
    | Except.ok n => Except.ok (Value.uint (wrapUint bits n))
  | Kind.bool, value =>
    match lib.parseBool value with
    | Except.error e => Except.error e
    | Except.ok b => Except.ok (Value.bool b)
  | Kind.float bits, value =>
    match lib.parseFloat value with
    | Except.error e => Except.error e
    | Except.ok f => Except.ok (Value.float (lib.roundFloat bits f))
  | Kind.slice elem, value =>
    match parseSlice lib elem value with
    | Except.error e => Except.error ("error parsing slice for field: " ++ e)
    | Except.ok v => Except.ok v
  | Kind.map key val, value =>
    match parseMap lib (setField lib key) (setField lib val) value with
    | Except.error e => Except.error ("error parsing map for field: " ++ e)
    | Except.ok v => Except.ok v
  | Kind.struct, _ => Except.error "unsupported field type"
  | Kind.other, _ => Except.error "unsupported field type"

/-- The function `overrideWithEnvRecursive` on the fields of a struct: the fields as it
leaves them and the error it returns (`none` is nil).  `env` is `os.LookupEnv`. -/
def overrideWithEnvRecursive (lib : Lib φ) (env : String → Option String) :
    Fields φ → Fields φ × Option String
  | Fields.nil => (Fields.nil, none)
  | Fields.nested info inner rest =>
    match overrideWithEnvRecursive lib env inner with
    | (inner1, some e) => (Fields.nested info inner1 rest, some e)
    | (inner1, none) =>
      match overrideWithEnvRecursive lib env rest with
      | (rest1, err) => (Fields.nested info inner1 rest1, err)
  | Fields.leaf info v rest =>
    match info.envTag with
    | none =>
      match overrideWithEnvRecursive lib env rest with
      | (rest1, err) => (Fields.leaf info v rest1, err)
    | some tag =>
      if info.canSet then
        match env tag with
        | none =>
          match overrideWithEnvRecursive lib env rest with
          | (rest1, err) => (Fields.leaf info v rest1, err)
        | some envVal =>
          match setField lib info.kind envVal with
          | Except.error e =>
            (Fields.leaf info v rest,
              some ("error setting field '" ++ info.name ++ "' with env variable '" ++ tag
                ++ "': " ++ e))
          | Except.ok w =>
            match overrideWithEnvRecursive lib env rest with
            | (rest1, err) => (Fields.leaf info w rest1, err)
      else
        match overrideWithEnvRecursive lib env rest with
        | (rest1, err) => (Fields.leaf info v rest1, err)

/-- The function `overrideWithEnv`. -/
def overrideWithEnv (lib : Lib φ) (env : String → Option String) (cfg : Fields φ) :
    Fields φ × Option String :=
  overrideWithEnvRecursive lib env cfg

/-- The method `configLoader.Load`.  `fileCfg` and `fileErr` are what `loadFromFile` left
in `cfg` and returned, and `env` is the environment after it. -/
def Load (lib : Lib φ) (env : String → Option String) (fileCfg : Fields φ)
    (fileErr : Option String) : Fields φ × Option String :=
  match fileErr with
  | some e => (fileCfg, some e)
  | none => overrideWithEnv lib env fileCfg

/-- The field reached by a path of field indices: all indices but the last select
fields of struct kind, the last one selects a field that is not a struct. -/
def Fields.leafAt : Fields φ → List Nat → Option (FieldInfo × Value φ)
  | Fields.nil, _ => none
  | Fields.leaf _ _ _, [] => none
  | Fields.leaf info v _, [0] => some (info, v)
  | Fields.leaf _ _ _, 0 :: _ :: _ => none
  | Fields.leaf _ _ rest, (i + 1) :: p => rest.leafAt (i :: p)
  | Fields.nested _ _ _, [] => none
  | Fields.nested _ inner _, 0 :: p => inner.leafAt p
  | Fields.nested _ _ rest, (i + 1) :: p => rest.leafAt (i :: p)

/-- The pieces of a list of characters between occurrences of `sep`; `cur` holds the
characters of the current piece, last first. -/
def splitChars (sep : Char) : List Char → List Char → List (List Char)
  | [], cur => [cur.reverse]
  | c :: rest, cur =>
    if c = sep then cur.reverse :: splitChars sep rest [] else splitChars sep rest (c :: cur)

/-- The part before and the part after the first occurrence of `sep`, or the whole list
when `sep` does not occur. -/
def splitFirst (sep : Char) : List Char → List Char → List (List Char)
  | [], cur => [cur.reverse]
  | c :: rest, cur => if c = sep then [cur.reverse, rest] else splitFirst sep rest (c :: cur)

/-- The number written by a list of decimal digits, most significant first, after the
digits `acc`. -/
def digitsValue : List Char → Nat → Option Nat
  | [], acc => some acc
  | c :: rest, acc =>
    if c.isDigit then digitsValue rest (acc * 10 + (c.toNat - 48)) else none

/-- An instance of the library functions that agrees with Go on the strings used in the
tests of the package: one-character separators, blanks as white space, unsigned
decimal numbers within range, and the words "true" and "false". -/
def testLib : Lib Unit :=
  { split := fun s sep => (splitChars (sep.data.headD ',') s.data []).map String.mk
    splitN := fun s sep _ => (splitFirst (sep.data.headD ':') s.data []).map String.mk
    trimSpace := fun s =>
      String.mk ((s.data.dropWhile (fun c => c = ' ')).reverse.dropWhile (fun c => c = ' ')).reverse
    parseInt := fun s =>
      match s.data with
      | [] => Except.error "invalid syntax"
      | c :: rest =>
        match digitsValue (c :: rest) 0 with
        | some n => Except.ok (Int.ofNat n)
        | none => Except.error "invalid syntax"
    parseUint := fun s =>
      match s.data with
      | [] => Except.error "invalid syntax"
      | c :: rest =>
        match digitsValue (c :: rest) 0 with
        | some n => Except.ok n
        | none => Except.error "invalid syntax"
    parseBool := fun s =>
      if s = "true" then Except.ok true
      else if s = "false" then Except.ok false
      else Except.error "invalid syntax"
    parseFloat := fun _ => Except.error "invalid syntax"
    roundFloat := fun _ f => f
    typeName := fun _ => "type" }

/-- The environment of `TestLoadYAMLWithEnvOverride`. -/
def testEnv : String → Option String := fun name =>
  if name = "DATABASE_HOST" then some "env_dbserver"
  else if name = "DATABASE_PORT" then some "5433"
  else if name = "DATABASE_USER" then some "env_admin"
  else if name = "LOGGING_LEVEL" then some "info"
  else if name = "FEATUREFLAGS_BETAFEATURES" then some "false"
  else if name = "APIVERSION" then some "v4,v5"
  else if name = "MAPPING" then some "foo:env_bar,baz:env_qux"
  else none

/-- The struct `sampleConfig` of the tests with the given field values. -/
def sampleConfig (host : String) (port : Int) (user level : String) (beta : Bool)
    (api : List String) (mapping : List (String × String)) : Fields Unit :=
  Fields.nested ⟨"Database", none, true, Kind.struct⟩
    (Fields.leaf ⟨"Host", some "DATABASE_HOST", true, Kind.string⟩ (Value.str host)
      (Fields.leaf ⟨"Port", some "DATABASE_PORT", true, Kind.int 64⟩ (Value.int port)
        (Fields.leaf ⟨"User", some "DATABASE_USER", true, Kind.string⟩ (Value.str user)
          Fields.nil)))
    (Fields.nested ⟨"Logging", none, true, Kind.struct⟩
      (Fields.leaf ⟨"Level", some "LOGGING_LEVEL", true, Kind.string⟩ (Value.str level)
        Fields.nil)
      (Fields.nested ⟨"FeatureFlags", none, true, Kind.struct⟩
        (Fields.leaf ⟨"BetaFeatures", some "FEATUREFLAGS_BETAFEATURES", true, Kind.bool⟩
          (Value.bool beta) Fields.nil)
        (Fields.leaf ⟨"ApiVersion", some "APIVERSION", true, Kind.slice Kind.string⟩
          (Value.slice (api.map Value.str))
          (Fields.leaf ⟨"Mapping", some "MAPPING", true, Kind.map Kind.string Kind.string⟩
            (Value.map (mapping.map (fun kv => (Value.str kv.1, Value.str kv.2))))
            Fields.nil))))

/-- What the decoder leaves in `sampleConfig` for the file `testdata/sample.yml` as the
tests describe it. -/
def sampleFile : Fields Unit :=
  sampleConfig "dbserver" 5432 "admin" "debug" true ["v1", "v2", "v3"]
    [("foo", "bar"), ("baz", "qux")]

/-- A struct with one field that is not exported, so that `CanSet()` is false, and that
carries an env tag. -/
def hiddenField : Fields Unit :=
  Fields.leaf ⟨"secret", some "SECRET", false, Kind.string⟩ (Value.str "from file") Fields.nil

/-- An environment in which the variable `SECRET` is set. -/
def secretEnv : String → Option String := fun name =>
  if name = "SECRET" then some "from env" else none

end Config

namespace Pipeline

section GraphProofs

variable {α : Type} [DecidableEq α]

theorem setKey_same (m : α → Bool) (k : α) (b : Bool) : setKey m k b k = b := by
  simp [setKey]

theorem setKey_other (m : α → Bool) (k x : α) (b : Bool) (h : x ≠ k) :
    setKey m k b x = m x := by
  simp [setKey, h]

theorem setKey_true_iff (m : α → Bool) (k x : α) :
    setKey m k true x = true ↔ (x = k ∨ m x = true) := by
  by_cases h : x = k <;> simp [setKey, h]

theorem unvisited_card_mono [Fintype α] (V W : α → Bool)
    (h : ∀ x, V x = true → W x = true) : (unvisited W).card ≤ (unvisited V).card := by
  apply Finset.card_le_card
  intro x hx
  simp only [unvisited, Finset.mem_filter, Finset.mem_univ, true_and] at hx ⊢
  cases hv : V x with
  | false => rfl
  | true => rw [h x hv] at hx; exact absurd hx (by simp)

theorem unvisited_card_setKey_lt [Fintype α] (V : α → Bool) (k : α) (h : V k = false) :
    (unvisited (setKey V k true)).card < (unvisited V).card := by
  apply Finset.card_lt_card
  rw [Finset.ssubset_iff_of_subset]
  · refine ⟨k, ?_, ?_⟩
    · simp [unvisited, h]
    · simp [unvisited, setKey]
  · intro x hx
    simp only [unvisited, Finset.mem_filter, Finset.mem_univ, true_and] at hx ⊢
    by_cases hk : x = k
    · subst hk; exact h
    · rwa [setKey_other _ _ _ _ hk] at hx

theorem dfsLoop_spec [Fintype α] (next : α → List α) (fuel : Nat)
    (IH : ∀ node V, (unvisited V).card < fuel → ∃ (W : α → Bool) (new E : List α),
      (∀ (σ : Type) (fn : α → σ → σ) (s : σ) (L : List α),
        dfsHelper next fn fuel node (V, L, s)
          = some (W, L ++ E, new.foldl (fun t x => fn x t) s)) ∧
      List.Perm E (node :: new.flatMap next) ∧ DfsPost next [node] V W new) :
    ∀ (l : List α) (V : α → Bool), (unvisited V).card < fuel →
      ∃ (W : α → Bool) (new E : List α),
      (∀ (σ : Type) (fn : α → σ → σ) (s : σ) (L : List α),
        dfsLoop (dfsHelper next fn fuel) l (V, L, s)
          = some (W, L ++ E, new.foldl (fun t x => fn x t) s)) ∧
      List.Perm E (l ++ new.flatMap next) ∧ DfsPost next l V W new := by
  intro l
  induction l with
  | nil =>
    intro V _
    refine ⟨V, [], [], fun σ fn s L => by simp [dfsLoop], by simp, List.nodup_nil,
      ?_, ?_, ?_, ?_, ?_, ?_⟩ <;> simp
  | cons y rest ih =>
    intro V hV
    obtain ⟨V1, new1, E1, hrun1, hperm1, hnd1, hnew1, hW1, hst1, hcl1, hhd1, hpar1⟩ := IH y V hV
    have hmono1 : ∀ x, V x = true → V1 x = true := fun x hx => (hW1 x).2 (Or.inl hx)
    have hV1 : (unvisited V1).card < fuel :=
      lt_of_le_of_lt (unvisited_card_mono V V1 hmono1) hV
    obtain ⟨W, new2, E2, hrun2, hperm2, hnd2, hnew2, hW2, hst2, hcl2, _, hpar2⟩ := ih V1 hV1
    have hmono2 : ∀ x, V1 x = true → W x = true := fun x hx => (hW2 x).2 (Or.inl hx)
    refine ⟨W, new1 ++ new2, E1 ++ E2, ?_, ?_, ?_, ?_, ?_, ?_, ?_, ?_, ?_⟩
    · intro σ fn s L
      simp only [dfsLoop, hrun1 σ fn s L, hrun2 σ fn, List.foldl_append, List.append_assoc]
    · refine (List.Perm.append hperm1 hperm2).trans ?_
      rw [List.perm_iff_count]
      intro x
      simp only [List.flatMap_append, List.cons_append, List.count_cons, List.count_append]
      omega
    · rw [List.nodup_append]
      refine ⟨hnd1, hnd2, ?_⟩
      intro x hx1 hx2
      have h1 : V1 x = true := (hW1 x).2 (Or.inr hx1)
      have h2 := (hnew2 x hx2).1
      rw [h1] at h2
      exact absurd h2 (by simp)
    · intro x hx
      rcases List.mem_append.1 hx with hx | hx
      · obtain ⟨hv, z, hz, hr⟩ := hnew1 x hx
        rw [List.mem_singleton] at hz
        subst hz
        exact ⟨hv, z, List.mem_cons_self _ _, hr⟩
      · obtain ⟨hv, z, hz, hr⟩ := hnew2 x hx
        refine ⟨?_, z, List.mem_cons_of_mem _ hz, hr⟩
        cases hvx : V x with
        | false => rfl
        | true => rw [hmono1 x hvx] at hv; exact absurd hv (by simp)
    · intro x
      rw [hW2 x, hW1 x, List.mem_append, or_assoc]
    · intro z hz
      rcases List.mem_cons.1 hz with hz | hz
      · subst hz
        exact hmono2 _ (hst1 _ (List.mem_singleton_self _))
      · exact hst2 z hz
    · intro u hu w hw
      rcases List.mem_append.1 hu with hu | hu
      · exact hmono2 _ (hcl1 u hu w hw)
      · exact hcl2 u hu w hw
    · intro z hz hVz
      simp only [List.head?_cons, Option.some.injEq] at hz
      subst hz
      have h1 := hhd1 y rfl hVz
      cases new1 with
      | nil => simp at h1
      | cons a t => simpa using h1
    · intro x hx
      rcases List.mem_append.1 hx with hx | hx
      · rcases hpar1 x hx with h | ⟨u, hu, hxu, hsub⟩
        · rw [List.mem_singleton] at h
          exact Or.inl (h ▸ List.mem_cons_self _ _)
        · exact Or.inr ⟨u, List.mem_append_left _ hu, hxu,
            hsub.trans (List.sublist_append_left _ _)⟩
      · rcases hpar2 x hx with h | ⟨u, hu, hxu, hsub⟩
        · exact Or.inl (List.mem_cons_of_mem _ h)
        · exact Or.inr ⟨u, List.mem_append_right _ hu, hxu,
            hsub.trans (List.sublist_append_right _ _)⟩

theorem dfsHelper_spec [Fintype α] (next : α → List α) :
    ∀ (fuel : Nat) (node : α) (V : α → Bool), (unvisited V).card < fuel →
      ∃ (W : α → Bool) (new E : List α),
      (∀ (σ : Type) (fn : α → σ → σ) (s : σ) (L : List α),
        dfsHelper next fn fuel node (V, L, s)
          = some (W, L ++ E, new.foldl (fun t x => fn x t) s)) ∧
      List.Perm E (node :: new.flatMap next) ∧ DfsPost next [node] V W new := by
  intro fuel
  induction fuel with
  | zero => intro node V h; exact absurd h (Nat.not_lt_zero _)
  | succ fuel ih =>
    intro node V hV
    cases hvn : V node with
    | true =>
      refine ⟨V, [], [node], ?_, by simp, List.nodup_nil, ?_, ?_, ?_, ?_, ?_, ?_⟩
      · intro σ fn s L
        simp [dfsHelper, hvn]
      · simp
      · simp
      · simpa using hvn
      · simp
      · intro y hy hVy
        simp only [List.head?_cons, Option.some.injEq] at hy
        rw [← hy, hvn] at hVy
        exact absurd hVy (by simp)
      · simp
    | false =>
      have hlt : (unvisited (setKey V node true)).card < fuel :=
        lt_of_lt_of_le (unvisited_card_setKey_lt V node hvn) (Nat.lt_succ_iff.1 hV)
      obtain ⟨W, new2, E2, hrun, hperm, hnd, hnew, hW, hst, hcl, _, hpar⟩ :=
        dfsLoop_spec next fuel ih (next node) (setKey V node true) hlt
      refine ⟨W, node :: new2, node :: E2, ?_, ?_, ?_, ?_, ?_, ?_, ?_, ?_, ?_⟩
      · intro σ fn s L
        simp [dfsHelper, hvn, hrun σ fn]
      · rw [List.flatMap_cons]
        exact List.Perm.cons node hperm
      · rw [List.nodup_cons]
        refine ⟨?_, hnd⟩
        intro hmem
        have := (hnew node hmem).1
        rw [setKey_same] at this
        exact absurd this (by simp)
      · intro x hx
        rcases List.mem_cons.1 hx with hx | hx
        · subst hx
          exact ⟨hvn, x, List.mem_singleton_self _, Relation.ReflTransGen.refl⟩
        · obtain ⟨hv, z, hz, hr⟩ := hnew x hx
          refine ⟨?_, node, List.mem_singleton_self _, Relation.ReflTransGen.head hz hr⟩
          cases hvx : V x with
          | false => rfl
          | true =>
            rw [(setKey_true_iff V node x).2 (Or.inr hvx)] at hv
            exact absurd hv (by simp)
      · intro x
        rw [hW x, setKey_true_iff, List.mem_cons]
        tauto
      · intro z hz
        rw [List.mem_singleton] at hz
        subst hz
        exact (hW z).2 (Or.inl (setKey_same _ _ _))
      · intro u hu w hw
        rcases List.mem_cons.1 hu with hu | hu
        · subst hu
          exact hst w hw
        · exact hcl u hu w hw
      · intro y hy _
        simpa using hy
      · intro x hx
        rcases List.mem_cons.1 hx with hx | hx
        · exact Or.inl (hx ▸ List.mem_singleton_self _)
        · right
          rcases hpar x hx with h | ⟨u, hu, hxu, hsub⟩
          · exact ⟨node, List.mem_cons_self _ _, h,
              List.Sublist.cons₂ _ (List.singleton_sublist.2 hx)⟩
          · exact ⟨u, List.mem_cons_of_mem _ hu, hxu, List.Sublist.cons _ hsub⟩

omit [DecidableEq α] in
theorem cycleInv_reach (next : α → List α) (V S : α → Bool) (h : CycleInv next V S)
    (u w : α) (hr : Reach next u w) (hV : V u = true) (hS : S u = false) :
    V w = true ∧ S w = false := by
  induction hr with
  | refl => exact ⟨hV, hS⟩
  | tail _ hbc ih => exact h.2.1 _ ih.1 ih.2 _ hbc

omit [DecidableEq α] in
theorem onCycle_succ (next : α → List α) (v : α) (h : OnCycle next v) :
    ∃ w ∈ next v, Reach next w v := by
  obtain ⟨w, hvw, hwv⟩ := Relation.TransGen.head'_iff.1 h
  exact ⟨w, hvw, hwv⟩

theorem bool_false_of_imp {a b : Bool} (h : a = true → b = true) (hb : b = false) : a = false := by
  cases a with
  | false => rfl
  | true => rw [h rfl] at hb; exact absurd hb (by simp)

theorem hasCycleLoop_spec [Fintype α] (next : α → List α) (fuel : Nat) (node : α)
    (IH : ∀ nd V S (E : List α), (unvisited V).card < fuel → V nd = false →
      CycleInv next V S → (∀ s, S s = true → Reach next s nd) → ∃ b W R E1,
        hasCycleHelper next fuel nd (V, S, E) = some (b, (W, R, E1)) ∧
        (b = true → ∃ c, OnCycle next c ∧ (Reach next nd c ∨ S c = true)) ∧
        (b = false → CycleInv next W R ∧ (∀ x, V x = true → W x = true) ∧ W nd = true ∧
          ∀ x, R x = S x)) :
    ∀ (l : List α) (V S : α → Bool) (E : List α), (unvisited V).card < fuel →
      CycleInv next V S →
      S node = true → (∀ s, S s = true → Reach next s node) → (∀ w ∈ l, w ∈ next node) →
      (∀ w ∈ next node, w ∈ l ∨ (V w = true ∧ S w = false)) → ∃ b W R E1,
        hasCycleLoop (hasCycleHelper next fuel) node l (V, S, E) = some (b, (W, R, E1)) ∧
        (b = true → ∃ c, OnCycle next c ∧ (Reach next node c ∨ S c = true)) ∧
        (b = false → CycleInv next W R ∧ (∀ x, V x = true → W x = true) ∧
          ∀ x, R x = setKey S node false x) := by
  intro l
  induction l with
  | nil =>
    intro V S E _ hinv hSn hreach _ hsucc
    refine ⟨false, V, setKey S node false, E, rfl, by simp,
      fun _ => ⟨?_, fun x hx => hx, fun x => rfl⟩⟩
    have hsucc1 : ∀ w ∈ next node, V w = true ∧ S w = false := by
      intro w hw
      rcases hsucc w hw with h | h
      · exact absurd h (List.not_mem_nil _)
      · exact h
    refine ⟨?_, ?_, ?_⟩
    · intro x hx
      by_cases hxn : x = node
      · rw [hxn, setKey_same] at hx; exact absurd hx (by simp)
      · rw [setKey_other _ _ _ _ hxn] at hx; exact hinv.1 x hx
    · intro u hVu hSu w hw
      by_cases hun : u = node
      · subst hun
        have hw1 := hsucc1 w hw
        refine ⟨hw1.1, ?_⟩
        have hwn : w ≠ u := by
          intro h; rw [h, hSn] at hw1; exact absurd hw1.2 (by simp)
        rw [setKey_other _ _ _ _ hwn]; exact hw1.2
      · rw [setKey_other _ _ _ _ hun] at hSu
        have hw1 := hinv.2.1 u hVu hSu w hw
        refine ⟨hw1.1, ?_⟩
        have hwn : w ≠ node := by
          intro h; rw [h, hSn] at hw1; exact absurd hw1.2 (by simp)
        rw [setKey_other _ _ _ _ hwn]; exact hw1.2
    · intro u hVu hSu
      by_cases hun : u = node
      · subst hun
        intro hcyc
        obtain ⟨w, hw, hwu⟩ := onCycle_succ next u hcyc
        have hw1 := hsucc1 w hw
        have := (cycleInv_reach next V S hinv w u hwu hw1.1 hw1.2).2
        rw [hSn] at this
        exact absurd this (by simp)
      · rw [setKey_other _ _ _ _ hun] at hSu
        exact hinv.2.2 u hVu hSu
  | cons nx rest ih =>
    intro V S E hcard hinv hSn hreach hl hsucc
    have hnx : nx ∈ next node := hl nx (List.mem_cons_self _ _)
    have hrest : ∀ w ∈ rest, w ∈ next node := fun w hw => hl w (List.mem_cons_of_mem _ hw)
    cases hVnx : V nx with
    | false =>
      have hSnx : S nx = false := bool_false_of_imp (hinv.1 nx) hVnx
      obtain ⟨b, W, R, E1, hrun, htrue, hfalse⟩ := IH nx V S E hcard hVnx hinv
        (fun s hs => Relation.ReflTransGen.tail (hreach s hs) hnx)
      cases b with
      | true =>
        refine ⟨true, W, R, E1, ?_, ?_, by simp⟩
        · simp [hasCycleLoop, hVnx, hrun]
        · intro _
          obtain ⟨c, hc, hcr⟩ := htrue rfl
          refine ⟨c, hc, ?_⟩
          rcases hcr with hcr | hcr
          · exact Or.inl (Relation.ReflTransGen.head hnx hcr)
          · exact Or.inr hcr
      | false =>
        obtain ⟨hinvW, hmono, hWnx, hRS⟩ := hfalse rfl
        have hRnx : R nx = false := by rw [hRS nx]; exact hSnx
        have hcardW : (unvisited W).card < fuel :=
          lt_of_le_of_lt (unvisited_card_mono V W hmono) hcard
        obtain ⟨b2, W2, R2, E2, hrun2, htrue2, hfalse2⟩ := ih W R E1 hcardW hinvW
          (by rw [hRS node]; exact hSn)
          (fun s hs => hreach s (by rw [← hRS s]; exact hs)) hrest
          (by
            intro w hw
            rcases hsucc w hw with h | h
            · rcases List.mem_cons.1 h with h | h
              · subst h; exact Or.inr ⟨hWnx, hRnx⟩
              · exact Or.inl h
            · exact Or.inr ⟨hmono w h.1, by rw [hRS w]; exact h.2⟩)
        refine ⟨b2, W2, R2, E2, ?_, ?_, ?_⟩
        · simp [hasCycleLoop, hVnx, hrun, hRnx, hrun2]
        · intro hb
          obtain ⟨c, hc, hcr⟩ := htrue2 hb
          refine ⟨c, hc, ?_⟩
          rcases hcr with hcr | hcr
          · exact Or.inl hcr
          · exact Or.inr (by rw [← hRS c]; exact hcr)
        · intro hb
          obtain ⟨hinv2, hmono2, hR2⟩ := hfalse2 hb
          refine ⟨hinv2, fun x hx => hmono2 x (hmono x hx), ?_⟩
          intro x
          rw [hR2 x]
          by_cases hxn : x = node
          · rw [hxn, setKey_same, setKey_same]
          · rw [setKey_other _ _ _ _ hxn, setKey_other _ _ _ _ hxn, hRS x]
    | true =>
      cases hSnx : S nx with
      | true =>
        refine ⟨true, V, S, E, ?_, ?_, by simp⟩
        · simp [hasCycleLoop, hVnx, hSnx]
        · intro _
          exact ⟨nx, Relation.TransGen.tail' (hreach nx hSnx) hnx, Or.inr hSnx⟩
      | false =>
        obtain ⟨b2, W2, R2, E2, hrun2, htrue2, hfalse2⟩ := ih V S E hcard hinv hSn hreach hrest
          (by
            intro w hw
            rcases hsucc w hw with h | h
            · rcases List.mem_cons.1 h with h | h
              · subst h; exact Or.inr ⟨hVnx, hSnx⟩
              · exact Or.inl h
            · exact Or.inr h)
        refine ⟨b2, W2, R2, E2, ?_, htrue2, hfalse2⟩
        simp [hasCycleLoop, hVnx, hSnx, hrun2]

theorem hasCycleHelper_spec [Fintype α] (next : α → List α) :
    ∀ (fuel : Nat) (nd : α) (V S : α → Bool) (E : List α), (unvisited V).card < fuel →
      V nd = false → CycleInv next V S → (∀ s, S s = true → Reach next s nd) → ∃ b W R E1,
        hasCycleHelper next fuel nd (V, S, E) = some (b, (W, R, E1)) ∧
        (b = true → ∃ c, OnCycle next c ∧ (Reach next nd c ∨ S c = true)) ∧
        (b = false → CycleInv next W R ∧ (∀ x, V x = true → W x = true) ∧ W nd = true ∧
          ∀ x, R x = S x) := by
  intro fuel
  induction fuel with
  | zero => intro nd V S E h; exact absurd h (Nat.not_lt_zero _)
  | succ fuel ih =>
    intro nd V S E hcard hVn hinv hreach
    have hSn : S nd = false := bool_false_of_imp (hinv.1 nd) hVn
    have hlt : (unvisited (setKey V nd true)).card < fuel :=
      lt_of_lt_of_le (unvisited_card_setKey_lt V nd hVn) (Nat.lt_succ_iff.1 hcard)
    have hinv1 : CycleInv next (setKey V nd true) (setKey S nd true) := by
      refine ⟨?_, ?_, ?_⟩
      · intro x hx
        rw [setKey_true_iff] at hx ⊢
        exact hx.imp id (hinv.1 x)
      · intro u hVu hSu w hw
        have hun : u ≠ nd := by
          intro h; rw [h, setKey_same] at hSu; exact absurd hSu (by simp)
        rw [setKey_other _ _ _ _ hun] at hVu hSu
        have hw1 := hinv.2.1 u hVu hSu w hw
        have hwn : w ≠ nd := by
          intro h; rw [h, hVn] at hw1; exact absurd hw1.1 (by simp)
        rw [setKey_other _ _ _ _ hwn, setKey_other _ _ _ _ hwn]
        exact hw1
      · intro u hVu hSu
        have hun : u ≠ nd := by
          intro h; rw [h, setKey_same] at hSu; exact absurd hSu (by simp)
        rw [setKey_other _ _ _ _ hun] at hVu hSu
        exact hinv.2.2 u hVu hSu
    have hreach1 : ∀ s, setKey S nd true s = true → Reach next s nd := by
      intro s hs
      rcases (setKey_true_iff S nd s).1 hs with h | h
      · rw [h]; exact Relation.ReflTransGen.refl
      · exact hreach s h
    obtain ⟨b, W, R, E1, hrun, htrue, hfalse⟩ :=
      hasCycleLoop_spec next fuel nd ih (next nd) (setKey V nd true) (setKey S nd true)
        (E ++ [nd]) hlt hinv1 (setKey_same _ _ _) hreach1 (fun w hw => hw)
        (fun w hw => Or.inl hw)
    refine ⟨b, W, R, E1, ?_, ?_, ?_⟩
    · simp only [hasCycleHelper, hrun]
    · intro hb
      obtain ⟨c, hc, hcr⟩ := htrue hb
      refine ⟨c, hc, ?_⟩
      rcases hcr with hcr | hcr
      · exact Or.inl hcr
      · rcases (setKey_true_iff S nd c).1 hcr with h | h
        · rw [h]; exact Or.inl Relation.ReflTransGen.refl
        · exact Or.inr h
    · intro hb
      obtain ⟨hinvW, hmono, hR⟩ := hfalse hb
      refine ⟨hinvW, ?_, hmono nd (setKey_same _ _ _), ?_⟩
      · intro x hx
        exact hmono x ((setKey_true_iff V nd x).2 (Or.inr hx))
      · intro x
        rw [hR x]
        by_cases hxn : x = nd
        · rw [hxn, setKey_same, hSn]
        · rw [setKey_other _ _ _ _ hxn, setKey_other _ _ _ _ hxn]

theorem hasCycleOuter_spec [Fintype α] (next : α → List α) (fuel : Nat)
    (hfuel : Fintype.card α < fuel) :
    ∀ (nodes : List α) (V S : α → Bool) (E : List α), CycleInv next V S →
      (∀ x, S x = false) →
      ∃ b E1, hasCycleOuter next fuel nodes (V, S, E) = some (b, E1) ∧
        (b = true → ∃ c, OnCycle next c ∧ ∃ y ∈ nodes, Reach next y c) ∧
        (b = false → ∀ y, (y ∈ nodes ∨ V y = true) → ∀ c, Reach next y c →
          ¬ OnCycle next c) := by
  intro nodes
  induction nodes with
  | nil =>
    intro V S E hinv hS
    refine ⟨false, E, rfl, by simp, ?_⟩
    intro _ y hy c hyc
    rcases hy with hy | hy
    · exact absurd hy (List.not_mem_nil _)
    · have hc := cycleInv_reach next V S hinv y c hyc hy (hS y)
      exact hinv.2.2 c hc.1 hc.2
  | cons nd rest ih =>
    intro V S E hinv hS
    have hcard : (unvisited V).card < fuel :=
      lt_of_le_of_lt (Finset.card_le_univ _) hfuel
    cases hVn : V nd with
    | false =>
      obtain ⟨b, W, R, E1, hrun, htrue, hfalse⟩ := hasCycleHelper_spec next fuel nd V S E
        hcard hVn hinv (fun s hs => by rw [hS s] at hs; exact absurd hs (by simp))
      cases b with
      | true =>
        refine ⟨true, E1, ?_, ?_, by simp⟩
        · simp [hasCycleOuter, hVn, hrun]
        · intro _
          obtain ⟨c, hc, hcr⟩ := htrue rfl
          rcases hcr with hcr | hcr
          · exact ⟨c, hc, nd, List.mem_cons_self _ _, hcr⟩
          · rw [hS c] at hcr; exact absurd hcr (by simp)
      | false =>
        obtain ⟨hinvW, hmono, hWn, hRS⟩ := hfalse rfl
        obtain ⟨b2, E2, hrun2, htrue2, hfalse2⟩ :=
          ih W R E1 hinvW (fun x => by rw [hRS x, hS x])
        refine ⟨b2, E2, ?_, ?_, ?_⟩
        · simp [hasCycleOuter, hVn, hrun, hrun2]
        · intro hb
          obtain ⟨c, hc, y, hy, hyc⟩ := htrue2 hb
          exact ⟨c, hc, y, List.mem_cons_of_mem _ hy, hyc⟩
        · intro hb y hy
          apply hfalse2 hb y
          rcases hy with hy | hy
          · rcases List.mem_cons.1 hy with hy | hy
            · rw [hy]; exact Or.inr hWn
            · exact Or.inl hy
          · exact Or.inr (hmono y hy)
    | true =>
      obtain ⟨b2, E2, hrun2, htrue2, hfalse2⟩ := ih V S E hinv hS
      refine ⟨b2, E2, ?_, ?_, ?_⟩
      · simp [hasCycleOuter, hVn, hrun2]
      · intro hb
        obtain ⟨c, hc, y, hy, hyc⟩ := htrue2 hb
        exact ⟨c, hc, y, List.mem_cons_of_mem _ hy, hyc⟩
      · intro hb y hy
        apply hfalse2 hb y
        rcases hy with hy | hy
        · rcases List.mem_cons.1 hy with hy | hy
          · rw [hy]; exact Or.inr hVn
          · exact Or.inl hy
        · exact Or.inr hy

omit [DecidableEq α] in
theorem unvisited_emptyMap_card [Fintype α] :
    (unvisited (emptyMap : α → Bool)).card = Fintype.card α := by
  simp [unvisited, emptyMap, Finset.card_univ]

/-- The traversal from `root` on an empty `visited` map applies any action, in one
fixed order, to a duplicate-free list of exactly the stages reachable from `root`,
beginning with `root`. -/
theorem dfs_order [Fintype α] (next : α → List α) (fuel : Nat)
    (hfuel : Fintype.card α < fuel) (root : α) :
    ∃ (W : α → Bool) (order entries : List α),
      (∀ (σ : Type) (fn : α → σ → σ) (s : σ), dfsHelper next fn fuel root (emptyMap, [], s)
        = some (W, entries, order.foldl (fun t x => fn x t) s)) ∧
      order.Nodup ∧ (∀ x, x ∈ order ↔ Reach next root x) ∧ order.head? = some root ∧
      (∀ x ∈ order, x = root ∨ ∃ u ∈ order, x ∈ next u ∧ List.Sublist [u, x] order) ∧
      List.Perm entries (root :: order.flatMap next) := by
  obtain ⟨W, order, entries, hrun, hperm, hnd, hnew, hW, hst, hcl, hhd, hpar⟩ :=
    dfsHelper_spec next fuel root emptyMap (by rw [unvisited_emptyMap_card]; exact hfuel)
  refine ⟨W, order, entries, fun σ fn s => by simpa using hrun σ fn s [], hnd, ?_,
    hhd root rfl rfl, ?_, hperm⟩
  swap
  · intro x hx
    rcases hpar x hx with h | h
    · exact Or.inl (List.mem_singleton.1 h)
    · exact Or.inr h
  have hWo : ∀ x, W x = true → x ∈ order := by
    intro x hx
    rcases (hW x).1 hx with h | h
    · simp [emptyMap] at h
    · exact h
  intro x
  constructor
  · intro hx
    obtain ⟨_, y, hy, hr⟩ := hnew x hx
    rw [List.mem_singleton] at hy
    rw [← hy]; exact hr
  · intro hr
    apply hWo
    induction hr with
    | refl => exact hst root (List.mem_singleton_self _)
    | tail _ hbc ih => exact hcl _ (hWo _ ih) _ hbc

theorem getAllNodes_spec [Fintype α] (next : α → List α) (fuel : Nat)
    (hfuel : Fintype.card α < fuel) (root : α) : ∃ nodes : List α,
      getAllNodes next fuel root = some nodes ∧ nodes.Nodup ∧
      (∀ x, x ∈ nodes ↔ Reach next root x) := by
  obtain ⟨W, order, entries, hrun, hnd, hmem, _, _, _⟩ := dfs_order next fuel hfuel root
  have hfold : ∀ (l acc : List α), l.foldl (fun t x => t ++ [x]) acc = acc ++ l := by
    intro l
    induction l with
    | nil => intro acc; simp
    | cons a t ih => intro acc; simp [ih]
  refine ⟨order, ?_, hnd, hmem⟩
  simp only [getAllNodes, hrun, hfold, List.nil_append]

theorem entriesMatch_enter (V : α → Bool) (E : List α) (nd : α) (h : EntriesMatch V E)
    (hv : V nd = false) : EntriesMatch (setKey V nd true) (E ++ [nd]) := by
  obtain ⟨hnd, hiff⟩ := h
  have hnot : nd ∉ E := by
    intro hm
    have := (hiff nd).2 hm
    rw [hv] at this
    cases this
  refine ⟨?_, ?_⟩
  · rw [List.nodup_append]
    refine ⟨hnd, List.nodup_singleton _, ?_⟩
    intro x hx hx2
    rw [List.mem_singleton] at hx2
    rw [hx2] at hx
    exact hnot hx
  · intro x
    rw [setKey_true_iff, List.mem_append, List.mem_singleton, hiff]
    constructor
    · rintro (h | h)
      · exact Or.inr h
      · exact Or.inl h
    · rintro (h | h)
      · exact Or.inr h
      · exact Or.inl h

/-- The loop of `hasCycleHelper` keeps the record of the entries in step with
`visited`, inside the stages reachable from `root`, and keeps what was visited. -/
theorem hasCycleLoop_record (next : α → List α) (root : α)
    (call : α → EntryState α → Option (Bool × EntryState α))
    (hcall : ∀ nd V R E b W R1 E1, call nd (V, R, E) = some (b, (W, R1, E1)) →
      V nd = false → EntriesMatch V E → (∀ x ∈ E, Reach next root x) → Reach next root nd →
      EntriesMatch W E1 ∧ (∀ x ∈ E1, Reach next root x) ∧ (∀ x, V x = true → W x = true))
    (node : α) :
    ∀ (l : List α) (V R : α → Bool) (E : List α) (b : Bool) (W R1 : α → Bool) (E1 : List α),
      hasCycleLoop call node l (V, R, E) = some (b, (W, R1, E1)) →
      EntriesMatch V E → (∀ x ∈ E, Reach next root x) → (∀ w ∈ l, Reach next root w) →
      EntriesMatch W E1 ∧ (∀ x ∈ E1, Reach next root x) ∧ (∀ x, V x = true → W x = true) := by
  intro l
  induction l with
  | nil =>
    intro V R E b W R1 E1 h hm hr _
    simp only [hasCycleLoop, Option.some.injEq, Prod.mk.injEq] at h
    obtain ⟨_, hW, _, hE⟩ := h
    subst hW; subst hE
    exact ⟨hm, hr, fun _ hx => hx⟩
  | cons nx rest ih =>
    intro V R E b W R1 E1 h hm hr hl
    have hrest : ∀ w ∈ rest, Reach next root w := fun w hw => hl w (List.mem_cons_of_mem _ hw)
    simp only [hasCycleLoop] at h
    cases hv : V nx with
    | true =>
      simp only [hv, Bool.not_true, Bool.false_eq_true, if_false] at h
      cases hrs : R nx with
      | true =>
        simp only [hrs, if_true, Option.some.injEq, Prod.mk.injEq] at h
        obtain ⟨_, hW, _, hE⟩ := h
        subst hW; subst hE
        exact ⟨hm, hr, fun _ hx => hx⟩
      | false =>
        simp only [hrs, Bool.false_eq_true, if_false] at h
        exact ih V R E b W R1 E1 h hm hr hrest
    | false =>
      simp only [hv, Bool.not_false, if_true] at h
      cases hce : call nx (V, R, E) with
      | none => simp [hce] at h
      | some r =>
        obtain ⟨b2, W2, R2, E2⟩ := r
        obtain ⟨hm2, hr2, hmono2⟩ :=
          hcall nx V R E b2 W2 R2 E2 hce hv hm hr (hl nx (List.mem_cons_self _ _))
        rw [hce] at h
        cases b2 with
        | true =>
          simp only [Option.some.injEq, Prod.mk.injEq] at h
          obtain ⟨_, hW, _, hE⟩ := h
          subst hW; subst hE
          exact ⟨hm2, hr2, hmono2⟩
        | false =>
          simp only at h
          cases hrs : R2 nx with
          | true =>
            simp only [hrs, if_true, Option.some.injEq, Prod.mk.injEq] at h
            obtain ⟨_, hW, _, hE⟩ := h
            subst hW; subst hE
            exact ⟨hm2, hr2, hmono2⟩
          | false =>
            simp only [hrs, Bool.false_eq_true, if_false] at h
            obtain ⟨hm3, hr3, hmono3⟩ := ih W2 R2 E2 b W R1 E1 h hm2 hr2 hrest
            exact ⟨hm3, hr3, fun x hx => hmono3 x (hmono2 x hx)⟩

/-- An entry of `hasCycleHelper` on a stage not yet visited keeps the record of the
entries in step with `visited`: every stage is recorded at most once. -/
theorem hasCycleHelper_record (next : α → List α) (root : α) :
    ∀ (fuel : Nat) (nd : α) (V R : α → Bool) (E : List α) (b : Bool) (W R1 : α → Bool)
      (E1 : List α),
      hasCycleHelper next fuel nd (V, R, E) = some (b, (W, R1, E1)) →
      V nd = false → EntriesMatch V E → (∀ x ∈ E, Reach next root x) → Reach next root nd →
      EntriesMatch W E1 ∧ (∀ x ∈ E1, Reach next root x) ∧ (∀ x, V x = true → W x = true) ∧
      W nd = true := by
  intro fuel
  induction fuel with
  | zero => intro nd V R E b W R1 E1 h; simp [hasCycleHelper] at h
  | succ fuel ih =>
    intro nd V R E b W R1 E1 h hv hm hr hnd
    simp only [hasCycleHelper] at h
    have hE : ∀ x ∈ E ++ [nd], Reach next root x := by
      intro x hx
      rcases List.mem_append.1 hx with hx | hx
      · exact hr x hx
      · rw [List.mem_singleton] at hx; rw [hx]; exact hnd
    obtain ⟨hm1, hr1, hmono1⟩ :=
      hasCycleLoop_record next root _
        (fun x V0 R0 E0 b0 W0 R2 E2 h0 hv0 hm0 hr0 hx0 =>
          ⟨(ih x V0 R0 E0 b0 W0 R2 E2 h0 hv0 hm0 hr0 hx0).1,
            (ih x V0 R0 E0 b0 W0 R2 E2 h0 hv0 hm0 hr0 hx0).2.1,
            (ih x V0 R0 E0 b0 W0 R2 E2 h0 hv0 hm0 hr0 hx0).2.2.1⟩)
        nd (next nd) _ _ _ b W R1 E1 h (entriesMatch_enter V E nd hm hv) hE
        (fun w hw => Relation.ReflTransGen.tail hnd hw)
    exact ⟨hm1, hr1, fun x hx => hmono1 x ((setKey_true_iff V nd x).2 (Or.inr hx)),
      hmono1 nd ((setKey_true_iff V nd nd).2 (Or.inl rfl))⟩

theorem hasCycleOuter_record (next : α → List α) (root : α) (fuel : Nat) :
    ∀ (l : List α) (V R : α → Bool) (E : List α) (b : Bool) (E1 : List α),
      hasCycleOuter next fuel l (V, R, E) = some (b, E1) →
      EntriesMatch V E → (∀ x ∈ E, Reach next root x) → (∀ w ∈ l, Reach next root w) →
      E1.Nodup ∧ (∀ x ∈ E1, Reach next root x) ∧ (∀ x ∈ E, x ∈ E1) ∧
      (b = false → ∀ y ∈ l, y ∈ E1) := by
  intro l
  induction l with
  | nil =>
    intro V R E b E1 h hm hr _
    simp only [hasCycleOuter, Option.some.injEq, Prod.mk.injEq] at h
    obtain ⟨_, hE⟩ := h
    subst hE
    exact ⟨hm.1, hr, fun _ hx => hx, fun _ y hy => absurd hy (List.not_mem_nil _)⟩
  | cons nd rest ih =>
    intro V R E b E1 h hm hr hl
    have hrest : ∀ w ∈ rest, Reach next root w := fun w hw => hl w (List.mem_cons_of_mem _ hw)
    simp only [hasCycleOuter] at h
    cases hv : V nd with
    | true =>
      simp only [hv, Bool.not_true, Bool.false_eq_true, if_false] at h
      obtain ⟨h1, h2, h3, h4⟩ := ih V R E b E1 h hm hr hrest
      refine ⟨h1, h2, h3, ?_⟩
      intro hb y hy
      rcases List.mem_cons.1 hy with hy | hy
      · rw [hy]; exact h3 nd ((hm.2 nd).1 hv)
      · exact h4 hb y hy
    | false =>
      simp only [hv, Bool.not_false, if_true] at h
      cases hce : hasCycleHelper next fuel nd (V, R, E) with
      | none => simp [hce] at h
      | some r =>
        obtain ⟨b2, W2, R2, E2⟩ := r
        obtain ⟨hm2, hr2, hmono2, hnd2⟩ :=
          hasCycleHelper_record next root fuel nd V R E b2 W2 R2 E2 hce hv hm hr
            (hl nd (List.mem_cons_self _ _))
        have hsub : ∀ x ∈ E, x ∈ E2 :=
          fun x hx => (hm2.2 x).1 (hmono2 x ((hm.2 x).2 hx))
        rw [hce] at h
        cases b2 with
        | true =>
          simp only [Option.some.injEq, Prod.mk.injEq] at h
          obtain ⟨hb, hE⟩ := h
          subst hE
          refine ⟨hm2.1, hr2, hsub, ?_⟩
          intro hb2
          rw [hb2] at hb
          cases hb
        | false =>
          simp only at h
          obtain ⟨h1, h2, h3, h4⟩ := ih W2 R2 E2 b E1 h hm2 hr2 hrest
          refine ⟨h1, h2, fun x hx => h3 x (hsub x hx), ?_⟩
          intro hb y hy
          rcases List.mem_cons.1 hy with hy | hy
          · rw [hy]; exact h3 nd ((hm2.2 nd).1 hnd2)
          · exact h4 hb y hy

/-- The method `hasCycle` returns, its Boolean says whether a cycle is reachable from
`root`, and its record of the entries of `hasCycleHelper` has no stage twice, holds
reachable stages only and, when the result is `false`, every reachable stage. -/
theorem hasCycle_spec [Fintype α] (next : α → List α) (fuel : Nat)
    (hfuel : Fintype.card α < fuel) (root : α) : ∃ (b : Bool) (entered : List α),
      hasCycle next fuel root = some (b, entered) ∧
      (b = true ↔ HasReachableCycle next root) ∧
      entered.Nodup ∧ (∀ x ∈ entered, Reach next root x) ∧
      (b = false → ∀ x, Reach next root x → x ∈ entered) := by
  obtain ⟨nodes, hnodes, _, hmem⟩ := getAllNodes_spec next fuel hfuel root
  have hinv0 : CycleInv next (emptyMap : α → Bool) emptyMap := by
    refine ⟨fun x hx => hx, ?_, ?_⟩ <;> intro u hu <;> simp [emptyMap] at hu
  obtain ⟨b, entered, hrun, htrue, hfalse⟩ :=
    hasCycleOuter_spec next fuel hfuel nodes emptyMap emptyMap [] hinv0 (fun _ => rfl)
  have hm0 : EntriesMatch (emptyMap : α → Bool) [] :=
    ⟨List.nodup_nil, fun x => by simp [emptyMap]⟩
  obtain ⟨h1, h2, _, h4⟩ :=
    hasCycleOuter_record next root fuel nodes emptyMap emptyMap [] b entered hrun hm0
      (fun x hx => absurd hx (List.not_mem_nil _)) (fun w hw => (hmem w).1 hw)
  refine ⟨b, entered, by simp only [hasCycle, hnodes, hrun], ⟨?_, ?_⟩, h1, h2,
    fun hb x hx => h4 hb x ((hmem x).2 hx)⟩
  · intro hb
    obtain ⟨c, hc, y, hy, hyc⟩ := htrue hb
    exact ⟨c, Relation.ReflTransGen.trans ((hmem y).1 hy) hyc, hc⟩
  · rintro ⟨c, hrc, hc⟩
    cases b with
    | true => rfl
    | false =>
      exact absurd hc (hfalse rfl root (Or.inl ((hmem root).2 Relation.ReflTransGen.refl)) c hrc)

theorem not_hasReachableCycle_of_hasCycle [Fintype α] (next : α → List α) (fuel : Nat)
    (hfuel : Fintype.card α < fuel) (root : α)
    (h : (hasCycle next fuel root).map Prod.fst = some false) :
    ¬ HasReachableCycle next root := by
  obtain ⟨b, entered, hrun, hb, _⟩ := hasCycle_spec next fuel hfuel root
  rw [hrun] at h
  simp only [Option.map, Option.some.injEq] at h
  intro hc
  have := hb.2 hc
  rw [h] at this
  exact absurd this (by simp)

theorem hasReachableCycle_of_hasCycle [Fintype α] (next : α → List α) (fuel : Nat)
    (hfuel : Fintype.card α < fuel) (root : α)
    (h : (hasCycle next fuel root).map Prod.fst = some true) :
    HasReachableCycle next root := by
  obtain ⟨b, entered, hrun, hb, _⟩ := hasCycle_spec next fuel hfuel root
  rw [hrun] at h
  simp only [Option.map, Option.some.injEq] at h
  exact hb.1 h

theorem foldl_append_flatMap {γ δ : Type} (g : γ → List δ) (l : List γ) (acc : List δ) :
    l.foldl (fun t x => t ++ g x) acc = acc ++ l.flatMap g := by
  induction l generalizing acc with
  | nil => simp
  | cons a t ih => simp [ih]

theorem sublist_flatMap_of_sublist {γ δ : Type} (g : γ → List δ) {l1 l2 : List γ}
    (h : List.Sublist l1 l2) : List.Sublist (l1.flatMap g) (l2.flatMap g) := by
  induction h with
  | slnil => simp
  | cons a _ ih =>
    rw [List.flatMap_cons]
    exact ih.trans (List.sublist_append_right _ _)
  | cons₂ a _ ih =>
    rw [List.flatMap_cons, List.flatMap_cons]
    exact List.Sublist.append (List.Sublist.refl _) ih

theorem sublist_pair_or {γ : Type} (u v : γ) (l : List γ) (hu : u ∈ l) (hv : v ∈ l)
    (hne : u ≠ v) : List.Sublist [u, v] l ∨ List.Sublist [v, u] l := by
  induction l with
  | nil => exact absurd hu (List.not_mem_nil _)
  | cons a t ih =>
    rcases List.mem_cons.1 hu with hu | hu
    · rcases List.mem_cons.1 hv with hv | hv
      · exact absurd (hu.trans hv.symm) hne
      · left
        rw [hu]
        exact List.Sublist.cons₂ _ (List.singleton_sublist.2 hv)
    · rcases List.mem_cons.1 hv with hv | hv
      · right
        rw [hv]
        exact List.Sublist.cons₂ _ (List.singleton_sublist.2 hu)
      · exact (ih hu hv).imp (List.Sublist.cons _) (List.Sublist.cons _)

/-- The calls of `Stop` for a traversal order: one signal on `doneCh`, then `stop`
and `wait` on each stage of the order in turn. -/
theorem stop_calls_sublist (order : List α) (u v : α) (h : List.Sublist [u, v] order) :
    List.Sublist [Call.stop u, Call.wait u, Call.stop v]
      (Call.signalDone :: order.flatMap (fun n => [Call.stop n, Call.wait n])) := by
  have h1 := sublist_flatMap_of_sublist (fun n => [Call.stop n, Call.wait n]) h
  have h2 : List.Sublist [Call.stop u, Call.wait u, Call.stop v]
      ([u, v].flatMap (fun n => [Call.stop n, Call.wait n])) := by
    simp
  exact (h2.trans h1).trans (List.sublist_cons_self _ _)

theorem stop_run [Fintype α] (next : α → List α) (root : α) (W : α → Bool)
    (order entries : List α)
    (hrun : ∀ (σ : Type) (fn : α → σ → σ) (s : σ),
      dfsHelper next fn (depthBudget α) root (emptyMap, [], s)
        = some (W, entries, order.foldl (fun t x => fn x t) s))
    (d : Nat) (calls : List (Call α)) :
    Stop next (depthBudget α) { root := root, onceDone := false, doneCh := d } calls
      = some ({ root := root, onceDone := true, doneCh := d + 1 },
          calls ++ Call.signalDone :: order.flatMap (fun n => [Call.stop n, Call.wait n])) := by
  simp [Stop, dfs, hrun, foldl_append_flatMap]

/-- C1. `NewPipeline` on a non-nil root returns the error "cycle not allowed in pipeline"
(and no pipeline) exactly when the subgraph reachable from the root contains a directed
cycle, and returns the pipeline for that root with a nil error exactly when it does not. -/
theorem newPipeline_cycle_iff [Fintype α] (next : α → List α) (root : α) :
    (NewPipeline next (depthBudget α) (some root)
        = some (none, some "cycle not allowed in pipeline") ↔ HasReachableCycle next root) ∧
    (NewPipeline next (depthBudget α) (some root)
        = some (some { root := root, onceDone := false, doneCh := 0 }, none)
      ↔ ¬ HasReachableCycle next root) := by
  obtain ⟨b, entered, hrun, hb, _⟩ :=
    hasCycle_spec next (depthBudget α) (Nat.lt_succ_self _) root
  cases b with
  | true =>
    have hc : HasReachableCycle next root := hb.1 rfl
    refine ⟨⟨fun _ => hc, fun _ => ?_⟩, ⟨fun h => ?_, fun h => absurd hc h⟩⟩
    · simp only [NewPipeline, hrun]
    · simp [NewPipeline, hrun] at h
  | false =>
    have hc : ¬ HasReachableCycle next root := fun h => by simpa using hb.2 h
    refine ⟨⟨fun h => ?_, fun h => absurd h hc⟩, ⟨fun _ => hc, fun _ => ?_⟩⟩
    · simp [NewPipeline, hrun] at h
    · simp only [NewPipeline, hrun]

/-- C2 (counterexample). In the acyclic graph 0 → 1, 0 → 2, 2 → 1 the reachable stage 2
has the successor 1, yet `Stop` invokes `stop` on 1 before it invokes `stop` on 2. -/
theorem stop_successor_order_counterexample :
    ¬ HasReachableCycle sharedSuccGraph 0 ∧ Reach sharedSuccGraph 0 2 ∧
    (1 : Fin 3) ∈ sharedSuccGraph 2 ∧
    Stop sharedSuccGraph (depthBudget (Fin 3)) { root := 0, onceDone := false, doneCh := 0 } []
      = some ({ root := 0, onceDone := true, doneCh := 1 },
          [Call.signalDone, Call.stop 0, Call.wait 0, Call.stop 1, Call.wait 1,
            Call.stop 2, Call.wait 2]) ∧
    invokedBefore [Call.signalDone, Call.stop (0 : Fin 3), Call.wait 0, Call.stop 1,
      Call.wait 1, Call.stop 2, Call.wait 2] (Call.stop 1) (Call.stop 2) ∧
    ¬ invokedBefore [Call.signalDone, Call.stop (0 : Fin 3), Call.wait 0, Call.stop 1,
      Call.wait 1, Call.stop 2, Call.wait 2] (Call.stop 2) (Call.stop 1) := by
  refine ⟨?_, ?_, by decide, by decide, by decide, by decide⟩
  · exact not_hasReachableCycle_of_hasCycle sharedSuccGraph 4 (by simp) 0 (by decide)
  · exact Relation.ReflTransGen.single (show (2 : Fin 3) ∈ sharedSuccGraph 0 by decide)

/-- C2 (amended). On an acyclic graph `Stop` makes its calls in one sequence in which,
for every reachable stage `u` and every successor `v` of `u` that was not stopped before
`u`, the `stop` and the `wait` of `u` come before the `stop` of `v`; and every reachable
stage other than the root has a reachable predecessor whose `stop` and `wait` come
before its own `stop`. -/
theorem stop_drains_before_later_successor [Fintype α] (next : α → List α) (root : α)
    (hacyc : ¬ HasReachableCycle next root) : ∃ calls : List (Call α),
      (∀ d, Stop next (depthBudget α) { root := root, onceDone := false, doneCh := d } []
        = some ({ root := root, onceDone := true, doneCh := d + 1 }, calls)) ∧
      (∀ u v, Reach next root u → v ∈ next u →
        ¬ invokedBefore calls (Call.stop v) (Call.stop u) →
        invokedBefore calls (Call.stop u) (Call.stop v) ∧
        invokedBefore calls (Call.wait u) (Call.stop v)) ∧
      (∀ v, Reach next root v → v ≠ root → ∃ u, Reach next root u ∧ v ∈ next u ∧
        invokedBefore calls (Call.stop u) (Call.stop v) ∧
        invokedBefore calls (Call.wait u) (Call.stop v)) := by
  obtain ⟨W, order, entries, hrun, hnd, hmem, _, hpar, _⟩ :=
    dfs_order next (depthBudget α) (Nat.lt_succ_self _) root
  have hthree : ∀ a b c : Call α, ∀ l, List.Sublist [a, b, c] l →
      List.Sublist [a, c] l ∧ List.Sublist [b, c] l := by
    intro a b c l h
    refine ⟨List.Sublist.trans ?_ h, List.Sublist.trans ?_ h⟩
    · exact List.Sublist.cons₂ _ (List.sublist_cons_self _ _)
    · exact List.sublist_cons_self _ _
  refine ⟨Call.signalDone :: order.flatMap (fun n => [Call.stop n, Call.wait n]), ?_, ?_, ?_⟩
  · intro d
    simpa using stop_run next root W order entries hrun d []
  · intro u v hu huv hnot
    have hv : Reach next root v := Relation.ReflTransGen.tail hu huv
    have hne : u ≠ v := by
      intro h
      subst h
      exact hacyc ⟨u, hu, Relation.TransGen.single huv⟩
    rcases sublist_pair_or u v order ((hmem u).2 hu) ((hmem v).2 hv) hne with h | h
    · exact hthree _ _ _ _ (stop_calls_sublist order u v h)
    · exact absurd (hthree _ _ _ _ (stop_calls_sublist order v u h)).1 hnot
  · intro v hv hne
    rcases hpar v ((hmem v).2 hv) with h | ⟨u, hu, huv, hsub⟩
    · exact absurd h hne
    · exact ⟨u, (hmem u).1 hu, huv, hthree _ _ _ _ (stop_calls_sublist order u v hsub)⟩

/-- C2 (witness). The amended ordering holds on the graph 0 → 1, 0 → 2, 2 → 1. -/
theorem stop_drains_before_later_successor_witness :
    ¬ HasReachableCycle sharedSuccGraph 0 ∧ ∃ calls : List (Call (Fin 3)),
      (∀ d, Stop sharedSuccGraph (depthBudget (Fin 3))
          { root := 0, onceDone := false, doneCh := d } []
        = some ({ root := 0, onceDone := true, doneCh := d + 1 }, calls)) ∧
      (∀ u v, Reach sharedSuccGraph 0 u → v ∈ sharedSuccGraph u →
        ¬ invokedBefore calls (Call.stop v) (Call.stop u) →
        invokedBefore calls (Call.stop u) (Call.stop v) ∧
        invokedBefore calls (Call.wait u) (Call.stop v)) ∧
      (∀ v, Reach sharedSuccGraph 0 v → v ≠ 0 → ∃ u, Reach sharedSuccGraph 0 u ∧
        v ∈ sharedSuccGraph u ∧ invokedBefore calls (Call.stop u) (Call.stop v) ∧
        invokedBefore calls (Call.wait u) (Call.stop v)) :=
  ⟨not_hasReachableCycle_of_hasCycle sharedSuccGraph 4 (by simp) 0 (by decide),
    stop_drains_before_later_successor sharedSuccGraph 0
      (not_hasReachableCycle_of_hasCycle sharedSuccGraph 4 (by simp) 0 (by decide))⟩

/-- C3. On every stage graph the traversal `dfs` applies its action, in one fixed order,
to a duplicate-free list holding exactly the stages reachable from the root; `Start`,
`Wait` and the guarded body of `Stop` make their stage calls on exactly that list. -/
theorem dfs_applies_once_to_reachable [Fintype α] (next : α → List α) (root : α) :
    ∃ order : List α, order.Nodup ∧ (∀ x, x ∈ order ↔ Reach next root x) ∧
      (∀ (σ : Type) (fn : α → σ → σ) (s : σ),
        dfs next fn (depthBudget α) root s = some (order.foldl (fun t x => fn x t) s)) ∧
      (∀ o d calls, Start next (depthBudget α) { root := root, onceDone := o, doneCh := d }
        calls = some (calls ++ order.map Call.start)) ∧
      (∀ o d calls, Wait next (depthBudget α) { root := root, onceDone := o, doneCh := d }
        calls = some (calls ++ order.map Call.wait)) ∧
      (∀ d calls, Stop next (depthBudget α) { root := root, onceDone := false, doneCh := d }
        calls = some ({ root := root, onceDone := true, doneCh := d + 1 },
          calls ++ Call.signalDone :: order.flatMap (fun n => [Call.stop n, Call.wait n]))) := by
  obtain ⟨W, order, entries, hrun, hnd, hmem, _, _, _⟩ :=
    dfs_order next (depthBudget α) (Nat.lt_succ_self _) root
  have hmap : ∀ (c : α → Call α) (l : List α), l.flatMap (fun n => [c n]) = l.map c := by
    intro c l
    induction l with
    | nil => rfl
    | cons a t ih => simp [List.flatMap_cons, ih]
  refine ⟨order, hnd, hmem, ?_, ?_, ?_, ?_⟩
  · intro σ fn s
    simp only [dfs, hrun]
  · intro o d calls
    simp only [Start, dfs, hrun, foldl_append_flatMap, hmap]
  · intro o d calls
    simp only [Wait, dfs, hrun, foldl_append_flatMap, hmap]
  · intro d calls
    exact stop_run next root W order entries hrun d calls

/-- The two graphs of `TestPipelineCycleCheck`, and a self-loop: construction fails on
node1 -> node2 -> node2_1 -> node3 -> node2 and on a stage that is its own successor,
and succeeds on the graph with a shared successor. -/
theorem newPipeline_examples :
    NewPipeline cycleGraph (depthBudget (Fin 4)) (some 0)
      = some (none, some "cycle not allowed in pipeline") ∧
    NewPipeline (fun _ : Fin 1 => [0]) (depthBudget (Fin 1)) (some 0)
      = some (none, some "cycle not allowed in pipeline") ∧
    NewPipeline sharedSuccGraph (depthBudget (Fin 3)) (some 0)
      = some (some { root := 0, onceDone := false, doneCh := 0 }, none) ∧
    NewPipeline sharedSuccGraph (depthBudget (Fin 3)) none = some (none, some "nil root node") := by
  refine ⟨by decide, by decide, by decide, by decide⟩

end GraphProofs

section StageProofs

variable {α β : Type} [DecidableEq α]

theorem update_stage_same (s : Sys α β) (a : α) (f : NodeState β → NodeState β) :
    ((s.update a f).stage a) = f (s.stage a) := by
  simp [Sys.update]

theorem update_stage_other (s : Sys α β) (a x : α) (f : NodeState β → NodeState β)
    (h : x ≠ a) : ((s.update a f).stage x) = s.stage x := by
  simp [Sys.update, h]

omit [DecidableEq α] in
theorem forwardCalls_append (l1 l2 : List (Ev α β)) :
    forwardCalls (l1 ++ l2) = forwardCalls l1 ++ forwardCalls l2 := by
  induction l1 with
  | nil => rfl
  | cons e t ih => cases e <;> simp [forwardCalls, ih]

omit [DecidableEq α] in
theorem transformRuns_append (l1 l2 : List (Ev α β)) :
    transformRuns (l1 ++ l2) = transformRuns l1 ++ transformRuns l2 := by
  induction l1 with
  | nil => rfl
  | cons e t ih => cases e <;> simp [transformRuns, ih]

omit [DecidableEq α] in
theorem forwardCalls_map_forward (a : α) (w : Nat) (r : Option (Dyn β))
    (err : α → Option String) (l : List α) :
    forwardCalls (l.map (fun nx => Ev.forward a w nx r (err nx))) = l.map (fun nx => (nx, r)) := by
  induction l with
  | nil => rfl
  | cons x t ih => simp [forwardCalls, ih]

omit [DecidableEq α] in
theorem transformRuns_map_forward (a : α) (w : Nat) (r : Option (Dyn β))
    (err : α → Option String) (l : List α) :
    transformRuns (l.map (fun nx => Ev.forward a w nx r (err nx))) = [] := by
  induction l with
  | nil => rfl
  | cons x t ih => simp [transformRuns, ih]

/-- The error returned by `jobReceiver` depends on the stage and the job only. -/
theorem jobReceiver_err_state (nodes : α → Node α β) (a : α) (job : Option (Dyn β))
    (s t : Sys α β) : (jobReceiver nodes a job s).1 = (jobReceiver nodes a job t).1 := by
  cases job with
  | none => rfl
  | some d =>
    simp only [jobReceiver]
    split <;> rfl

theorem jobReceiver_calls (nodes : α → Node α β) (a : α) (job : Option (Dyn β))
    (s : Sys α β) : (jobReceiver nodes a job s).2.calls = s.calls := by
  cases job with
  | none => rfl
  | some d =>
    simp only [jobReceiver]
    split <;> rfl

theorem jobReceiver_jobCh (nodes : α → Node α β) (a : α) (job : Option (Dyn β))
    (s : Sys α β) (x : α) :
    ((jobReceiver nodes a job s).2.stage x).jobCh = (s.stage x).jobCh := by
  cases job with
  | none => rfl
  | some d =>
    simp only [jobReceiver]
    split
    · by_cases hx : x = a
      · subst hx; rw [update_stage_same]
      · rw [update_stage_other _ _ _ _ hx]
    · rfl

/-- What `jobReceiver` does to the channel `ingestCh` of each stage. -/
theorem jobReceiver_ingestCh (nodes : α → Node α β) (a : α) (job : Option (Dyn β))
    (s : Sys α β) (x : α) :
    ((jobReceiver nodes a job s).2.stage x).ingestCh = (s.stage x).ingestCh ++
      (match job with
        | none => []
        | some d => if x = a ∧ (nodes a).T.accepts d.ty = true then [d] else []) := by
  cases job with
  | none => simp [jobReceiver]
  | some d =>
    simp only [jobReceiver]
    split
    · rename_i hacc
      by_cases hx : x = a
      · subst hx; rw [update_stage_same]; simp [hacc]
      · rw [update_stage_other _ _ _ _ hx]; simp [hx]
    · rename_i hacc
      simp [hacc]

theorem forward_calls (nodes : α → Node α β) (a : α) (w : Nat) (r : Option (Dyn β))
    (l : List α) (s : Sys α β) :
    (forward nodes a w r l s).calls
      = s.calls ++ l.map (fun nx => Ev.forward a w nx r (jobReceiver nodes nx r s).1) := by
  induction l generalizing s with
  | nil => simp [forward]
  | cons x t ih =>
    simp only [forward, ih, jobReceiver_calls, List.map_cons, List.append_assoc,
      List.singleton_append]
    congr 2
    apply List.map_congr_left
    intro nx _
    rw [jobReceiver_err_state nodes nx r _ s]

theorem forward_jobCh (nodes : α → Node α β) (a : α) (w : Nat) (r : Option (Dyn β))
    (l : List α) (s : Sys α β) (x : α) :
    ((forward nodes a w r l s).stage x).jobCh = (s.stage x).jobCh := by
  induction l generalizing s with
  | nil => rfl
  | cons y t ih =>
    simp only [forward, ih]
    exact jobReceiver_jobCh nodes y r s x

/-- The calls made by one iteration of `work`: the transform, followed, when it
returned a nil error, by one `jobReceiver` call per entry of the successor list. -/
theorem workJob_calls (nodes : α → Node α β) (a : α) (w : Nat) (job : Dyn β)
    (s : Sys α β) :
    (workJob nodes a w job s).calls
      = s.calls ++ Ev.workFn a w job ((nodes a).workFn job).1 ((nodes a).workFn job).2 ::
        (match ((nodes a).workFn job).2 with
          | some _ => []
          | none => (nodes a).next.map (fun nx =>
              Ev.forward a w nx ((nodes a).workFn job).1
                (jobReceiver nodes nx ((nodes a).workFn job).1 s).1)) := by
  simp only [workJob]
  cases h : ((nodes a).workFn job).2 with
  | some e => simp [Sys.update]
  | none =>
    simp only [forward_calls, Sys.update, List.append_assoc, List.singleton_append]
    congr 2
    apply List.map_congr_left
    intro nx _
    rw [jobReceiver_err_state nodes nx _ _ s]

theorem workJob_jobCh (nodes : α → Node α β) (a : α) (w : Nat) (job : Dyn β)
    (s : Sys α β) (x : α) :
    ((workJob nodes a w job s).stage x).jobCh = (s.stage x).jobCh := by
  simp only [workJob]
  have hupd : ∀ x, ((s.update a (fun ns => { ns with lastJob := some job })).stage x).jobCh
      = (s.stage x).jobCh := by
    intro x
    by_cases hx : x = a
    · subst hx; rw [update_stage_same]
    · rw [update_stage_other _ _ _ _ hx]
  cases h : ((nodes a).workFn job).2 with
  | some e => exact hupd x
  | none => simp only [forward_jobCh]; exact hupd x

/-- A worker step on a non-empty `jobCh` is one iteration of `work` on its head. -/
theorem step_work_cons (nodes : α → Node α β) (a : α) (w : Nat) (job : Dyn β)
    (rest : List (Dyn β)) (s : Sys α β) (hq : (s.stage a).jobCh = job :: rest)
    (hw : w < (nodes a).workerPoolSize) :
    step nodes (Step.work a w) s
      = workJob nodes a w job (s.update a (fun ns => { ns with jobCh := rest })) := by
  simp only [step, hw, if_true, hq]

theorem step_work_jobCh (nodes : α → Node α β) (a : α) (w : Nat) (job : Dyn β)
    (rest : List (Dyn β)) (s : Sys α β) (hq : (s.stage a).jobCh = job :: rest)
    (hw : w < (nodes a).workerPoolSize) (x : α) :
    ((step nodes (Step.work a w) s).stage x).jobCh
      = if x = a then rest else (s.stage x).jobCh := by
  rw [step_work_cons nodes a w job rest s hq hw, workJob_jobCh]
  by_cases hx : x = a
  · subst hx; rw [update_stage_same]; simp
  · rw [update_stage_other _ _ _ _ hx]; simp [hx]

theorem step_work_calls (nodes : α → Node α β) (a : α) (w : Nat) (job : Dyn β)
    (rest : List (Dyn β)) (s : Sys α β) (hq : (s.stage a).jobCh = job :: rest)
    (hw : w < (nodes a).workerPoolSize) :
    (step nodes (Step.work a w) s).calls
      = s.calls ++ Ev.workFn a w job ((nodes a).workFn job).1 ((nodes a).workFn job).2 ::
        (match ((nodes a).workFn job).2 with
          | some _ => []
          | none => (nodes a).next.map (fun nx =>
              Ev.forward a w nx ((nodes a).workFn job).1
                (jobReceiver nodes nx ((nodes a).workFn job).1 s).1)) := by
  rw [step_work_cons nodes a w job rest s hq hw, workJob_calls]
  simp only [Sys.update]
  congr 2
  cases ((nodes a).workFn job).2 with
  | some e => rfl
  | none =>
    apply List.map_congr_left
    intro nx _
    rw [jobReceiver_err_state nodes nx _ _ s]

/-- C4. `jobReceiver` returns a non-nil error exactly for a non-nil job whose dynamic
type does not match the type `T` of the stage; a nil job returns a nil error and
leaves the state as it is, and a non-nil job returns a nil error exactly when its
type matches.  For a concrete `T` the job matches exactly when its dynamic type is
identical to `T`, so a job of another type that prints like `T` gets the error; for an
interface `T` it matches exactly when its dynamic type implements `T`. -/
theorem jobReceiver_error_iff (nodes : α → Node α β) (a : α) (s : Sys α β) :
    (∀ job, (jobReceiver nodes a job s).1 ≠ none ↔
      ∃ d, job = some d ∧ (nodes a).T.accepts d.ty = false) ∧
    jobReceiver nodes a none s = (none, s) ∧
    (∀ d, (jobReceiver nodes a (some d) s).1 = none ↔ (nodes a).T.accepts d.ty = true) ∧
    (∀ t d, (nodes a).T = GoType.concrete t →
      ((jobReceiver nodes a (some d) s).1 ≠ none ↔ d.ty ≠ t)) ∧
    (∀ t d, (nodes a).T = GoType.concrete t → d.ty ≠ t → d.ty.text = t.text →
      (jobReceiver nodes a (some d) s).1 ≠ none) ∧
    (∀ f d, (nodes a).T = GoType.iface f →
      ((jobReceiver nodes a (some d) s).1 ≠ none ↔ f d.ty = false)) := by
  have hmain : ∀ d, (jobReceiver nodes a (some d) s).1 ≠ none ↔
      (nodes a).T.accepts d.ty = false := by
    intro d
    cases h : (nodes a).T.accepts d.ty <;> simp [jobReceiver, h]
  refine ⟨?_, rfl, ?_, ?_, ?_, ?_⟩
  · intro job
    cases job with
    | none => simp [jobReceiver]
    | some d =>
      cases h : (nodes a).T.accepts d.ty <;> simp [jobReceiver, h]
  · intro d
    cases h : (nodes a).T.accepts d.ty <;> simp [jobReceiver, h]
  · intro t d hT
    rw [hmain, hT]
    simp [GoType.accepts]
  · intro t d hT hne _
    rw [hmain, hT]
    simpa [GoType.accepts] using hne
  · intro f d hT
    rw [hmain, hT]
    simp [GoType.accepts]

/-- C5. On a non-nil job whose dynamic type does not match the type of the stage (for
a concrete type: is not identical to it), `jobReceiver` returns the error "job type
<what `%T` prints for the type of the job> is not accept by [<name>]" and leaves the
whole state as it is: nothing is sent on `ingestCh`, and `jobCh` of every stage keeps
its contents. -/
theorem jobReceiver_mismatch (nodes : α → Node α β) (a : α) (d : Dyn β) (s : Sys α β)
    (h : (nodes a).T.accepts d.ty = false) :
    jobReceiver nodes a (some d) s
      = (some ("job type " ++ d.ty.text ++ " is not accept by [" ++ (nodes a).name ++ "]"), s) ∧
    (∀ x, ((jobReceiver nodes a (some d) s).2.stage x).ingestCh = (s.stage x).ingestCh) ∧
    (∀ x, ((jobReceiver nodes a (some d) s).2.stage x).jobCh = (s.stage x).jobCh) ∧
    (∀ sch x, ((run nodes sch (jobReceiver nodes a (some d) s).2).stage x).jobCh
      = ((run nodes sch s).stage x).jobCh) := by
  have hrun : jobReceiver nodes a (some d) s
      = (some ("job type " ++ d.ty.text ++ " is not accept by [" ++ (nodes a).name ++ "]"), s) := by
    simp [jobReceiver, h]
  refine ⟨hrun, ?_, ?_, ?_⟩ <;> intros <;> rw [hrun]

/-- C5 (witness). The string stage A rejects a job of type `int` with the error
"job type int is not accept by [A]" and an unchanged state; the stage A of the type
`X` of one package rejects a job of the type `X` of another package of the same name
with the error "job type pipeline.X is not accept by [A]". -/
theorem jobReceiver_mismatch_witness :
    ((stageXa 0).T.accepts typeXb = false ∧
      jobReceiver stageXa 0 (some { ty := typeXb, val := "5" }) twoPending
        = (some "job type pipeline.X is not accept by [A]", twoPending)) ∧
    (abcdChain 0).T.accepts "int" = false ∧
    (jobReceiver abcdChain 0 (some { ty := "int", val := "5" }) twoPending
      = (some "job type int is not accept by [A]", twoPending) ∧
    (∀ x, ((jobReceiver abcdChain 0 (some { ty := "int", val := "5" }) twoPending).2.stage
      x).ingestCh = (twoPending.stage x).ingestCh) ∧
    (∀ x, ((jobReceiver abcdChain 0 (some { ty := "int", val := "5" }) twoPending).2.stage
      x).jobCh = (twoPending.stage x).jobCh) ∧
    (∀ sch x, ((run abcdChain sch
        (jobReceiver abcdChain 0 (some { ty := "int", val := "5" }) twoPending).2).stage x).jobCh
      = ((run abcdChain sch twoPending).stage x).jobCh)) :=
  ⟨⟨by decide,
      (jobReceiver_mismatch stageXa 0 { ty := typeXb, val := "5" } twoPending (by decide)).1⟩,
    by decide, jobReceiver_mismatch abcdChain 0 { ty := "int", val := "5" } twoPending
      (by decide)⟩

/-- The `ingestCh` of a stage after `forward` to the two successors `b` and `c`. -/
theorem forward_pair_ingestCh (nodes : α → Node α β) (a : α) (w : Nat) (d : Dyn β)
    (b c : α) (s : Sys α β) (hbc : b ≠ c) (hb : (nodes b).T.accepts d.ty = true)
    (hc : (nodes c).T.accepts d.ty = true) :
    ((forward nodes a w (some d) [b, c] s).stage b).ingestCh = (s.stage b).ingestCh ++ [d] ∧
    ((forward nodes a w (some d) [b, c] s).stage c).ingestCh = (s.stage c).ingestCh ++ [d] := by
  simp only [forward]
  constructor
  · rw [jobReceiver_ingestCh]
    simp only [hbc, false_and, if_false, List.append_nil]
    rw [jobReceiver_ingestCh]
    simp [hb]
  · rw [jobReceiver_ingestCh]
    simp only [hc, and_self, if_true]
    rw [jobReceiver_ingestCh]
    simp [Ne.symm hbc]

theorem workJob_ingestCh_of_ok (nodes : α → Node α β) (a : α) (w : Nat) (job : Dyn β)
    (s : Sys α β) (r : Option (Dyn β)) (hok : (nodes a).workFn job = (r, none)) (x : α) :
    ((workJob nodes a w job s).stage x).ingestCh
      = ((forward nodes a w r (nodes a).next
          { stage := s.stage, calls := s.calls ++ [Ev.workFn a w job r none] }).stage x).ingestCh := by
  have hing : ∀ (l : List α) (s1 s2 : Sys α β),
      (∀ y, (s1.stage y).ingestCh = (s2.stage y).ingestCh) →
      ∀ y, ((forward nodes a w r l s1).stage y).ingestCh
        = ((forward nodes a w r l s2).stage y).ingestCh := by
    intro l
    induction l with
    | nil => intro s1 s2 h y; exact h y
    | cons z t ih =>
      intro s1 s2 h y
      simp only [forward]
      apply ih
      intro y1
      show ((jobReceiver nodes z r s1).2.stage y1).ingestCh
        = ((jobReceiver nodes z r s2).2.stage y1).ingestCh
      rw [jobReceiver_ingestCh, jobReceiver_ingestCh, h y1]
  simp only [workJob, hok]
  apply hing
  intro y
  by_cases hy : y = a
  · subst hy; simp [Sys.update]
  · simp [Sys.update, hy]

/-- C7. When the transform returns a result `r` and a nil error, the iteration of
`work` calls `jobReceiver(r)` once on each entry of the successor list, in list order,
right after the transform; with the two distinct successors `b` and `c` whose types
both match `r`, each of them has `r` appended once to its `ingestCh`. -/
theorem work_forwards_to_each_successor (nodes : α → Node α β) (a : α) (w : Nat)
    (job : Dyn β) (rest : List (Dyn β)) (s : Sys α β) (r : Option (Dyn β))
    (hq : (s.stage a).jobCh = job :: rest) (hw : w < (nodes a).workerPoolSize)
    (hok : (nodes a).workFn job = (r, none)) :
    (step nodes (Step.work a w) s).calls
      = s.calls ++ Ev.workFn a w job r none ::
        (nodes a).next.map (fun nx => Ev.forward a w nx r (jobReceiver nodes nx r s).1) ∧
    forwardCalls (step nodes (Step.work a w) s).calls
      = forwardCalls s.calls ++ (nodes a).next.map (fun nx => (nx, r)) ∧
    (∀ b c d, (nodes a).next = [b, c] → b ≠ c → r = some d →
      (nodes b).T.accepts d.ty = true → (nodes c).T.accepts d.ty = true →
      ((step nodes (Step.work a w) s).stage b).ingestCh = (s.stage b).ingestCh ++ [d] ∧
      ((step nodes (Step.work a w) s).stage c).ingestCh = (s.stage c).ingestCh ++ [d]) := by
  have hcalls := step_work_calls nodes a w job rest s hq hw
  rw [hok] at hcalls
  simp only at hcalls
  refine ⟨hcalls, ?_, ?_⟩
  · rw [hcalls, forwardCalls_append]
    simp only [forwardCalls]
    rw [forwardCalls_map_forward a w r (fun nx => (jobReceiver nodes nx r s).1)]
  · intro b c d hnext hbc hr hb hc
    rw [step_work_cons nodes a w job rest s hq hw]
    rw [workJob_ingestCh_of_ok nodes a w job _ r hok b,
      workJob_ingestCh_of_ok nodes a w job _ r hok c, hnext, hr]
    have h := forward_pair_ingestCh nodes a w d b c
      { stage := (s.update a (fun ns => { ns with jobCh := rest })).stage,
        calls := (s.update a (fun ns => { ns with jobCh := rest })).calls
          ++ [Ev.workFn a w job (some d) none] } hbc hb hc
    have hupd : ∀ x, ((s.update a (fun ns => { ns with jobCh := rest })).stage x).ingestCh
        = (s.stage x).ingestCh := by
      intro x
      by_cases hx : x = a
      · subst hx; rw [update_stage_same]
      · rw [update_stage_other _ _ _ _ hx]
    simp only [hupd] at h
    exact h

/-- C7 (witness). In the fan-out A -> [B, C] of string stages, the worker of A that
takes "x" calls `jobReceiver` on B and then on C with "x A", and B and C each receive
that job once. -/
theorem work_forwards_to_each_successor_witness :
    ((twoPending.stage 0).jobCh
        = { ty := "string", val := "x" } :: [{ ty := "string", val := "y" }] ∧
      0 < (fanOut "string" 0).workerPoolSize ∧
      (fanOut "string" 0).workFn { ty := "string", val := "x" }
        = (some { ty := "string", val := "x A" }, none)) ∧
    forwardCalls (step (fanOut "string") (Step.work 0 0) twoPending).calls
      = [(1, some { ty := "string", val := "x A" }), (2, some { ty := "string", val := "x A" })] ∧
    ((step (fanOut "string") (Step.work 0 0) twoPending).stage 1).ingestCh
      = [{ ty := "string", val := "x A" }] ∧
    ((step (fanOut "string") (Step.work 0 0) twoPending).stage 2).ingestCh
      = [{ ty := "string", val := "x A" }] :=
  have h := work_forwards_to_each_successor (fanOut "string") 0 0 { ty := "string", val := "x" }
    [{ ty := "string", val := "y" }] twoPending (some { ty := "string", val := "x A" })
    (by decide) (by decide) (by decide)
  ⟨⟨by decide, by decide, by decide⟩, h.2.1,
    (h.2.2 1 2 { ty := "string", val := "x A" } (by decide) (by decide) rfl (by decide)
      (by decide)).1,
    (h.2.2 1 2 { ty := "string", val := "x A" } (by decide) (by decide) rfl (by decide)
      (by decide)).2⟩

theorem step_work_ingestCh_of_err (nodes : α → Node α β) (a : α) (w : Nat) (job : Dyn β)
    (rest : List (Dyn β)) (s : Sys α β) (r : Option (Dyn β)) (e : String)
    (hq : (s.stage a).jobCh = job :: rest) (hw : w < (nodes a).workerPoolSize)
    (herr : (nodes a).workFn job = (r, some e)) (x : α) :
    ((step nodes (Step.work a w) s).stage x).ingestCh = (s.stage x).ingestCh := by
  rw [step_work_cons nodes a w job rest s hq hw]
  simp only [workJob, herr]
  by_cases hx : x = a
  · subst hx; simp [Sys.update]
  · simp [Sys.update, hx]

theorem step_work_lastJob (nodes : α → Node α β) (a : α) (w : Nat) (job : Dyn β)
    (rest : List (Dyn β)) (s : Sys α β) (hq : (s.stage a).jobCh = job :: rest)
    (hw : w < (nodes a).workerPoolSize) (herr : ((nodes a).workFn job).2 ≠ none) :
    ((step nodes (Step.work a w) s).stage a).lastJob = some job := by
  rw [step_work_cons nodes a w job rest s hq hw]
  simp only [workJob]
  cases h : ((nodes a).workFn job).2 with
  | none => exact absurd h herr
  | some e => simp [Sys.update]

/-- The next worker step on a non-empty `jobCh` begins with the transform of its head. -/
theorem step_work_begins (nodes : α → Node α β) (a : α) (w : Nat) (job : Dyn β)
    (rest : List (Dyn β)) (s : Sys α β) (hq : (s.stage a).jobCh = job :: rest)
    (hw : w < (nodes a).workerPoolSize) : ∃ tail,
    (step nodes (Step.work a w) s).calls
      = s.calls ++ Ev.workFn a w job ((nodes a).workFn job).1 ((nodes a).workFn job).2 :: tail :=
  ⟨_, step_work_calls nodes a w job rest s hq hw⟩

/-- C8. When the transform returns a non-nil error, the iteration of `work` makes the
transform call and no `jobReceiver` call, takes the job out of `jobCh` without putting
it back into any channel, and the next iteration of the worker begins with the
transform of the next job of `jobCh`. -/
theorem work_drops_failed_job (nodes : α → Node α β) (a : α) (w : Nat) (job : Dyn β)
    (rest : List (Dyn β)) (s : Sys α β) (r : Option (Dyn β)) (e : String)
    (hq : (s.stage a).jobCh = job :: rest) (hw : w < (nodes a).workerPoolSize)
    (herr : (nodes a).workFn job = (r, some e)) :
    (step nodes (Step.work a w) s).calls = s.calls ++ [Ev.workFn a w job r (some e)] ∧
    forwardCalls (step nodes (Step.work a w) s).calls = forwardCalls s.calls ∧
    ((step nodes (Step.work a w) s).stage a).jobCh = rest ∧
    (∀ x, x ≠ a → ((step nodes (Step.work a w) s).stage x).jobCh = (s.stage x).jobCh) ∧
    (∀ x, ((step nodes (Step.work a w) s).stage x).ingestCh = (s.stage x).ingestCh) ∧
    (∀ job2 rest2, rest = job2 :: rest2 → ∃ tail,
      (step nodes (Step.work a w) (step nodes (Step.work a w) s)).calls
        = s.calls ++ Ev.workFn a w job r (some e) ::
          Ev.workFn a w job2 ((nodes a).workFn job2).1 ((nodes a).workFn job2).2 :: tail) := by
  have hcalls := step_work_calls nodes a w job rest s hq hw
  rw [herr] at hcalls
  simp only at hcalls
  have hjob := step_work_jobCh nodes a w job rest s hq hw
  refine ⟨hcalls, ?_, ?_, ?_, ?_, ?_⟩
  · rw [hcalls, forwardCalls_append]
    simp [forwardCalls]
  · simpa using hjob a
  · intro x hx
    simpa [hx] using hjob x
  · exact step_work_ingestCh_of_err nodes a w job rest s r e hq hw herr
  · intro job2 rest2 hrest
    have hq2 : ((step nodes (Step.work a w) s).stage a).jobCh = job2 :: rest2 := by
      rw [hjob a, if_pos rfl, hrest]
    obtain ⟨tail, htail⟩ := step_work_begins nodes a w job2 rest2 _ hq2 hw
    exact ⟨tail, by rw [htail, hcalls]; simp⟩

/-- C8 (witness). Stage A of `failing` fails on "x": its worker calls no `jobReceiver`,
leaves "y" in `jobCh`, and its next iteration calls the transform on "y". -/
theorem work_drops_failed_job_witness :
    ((twoPending.stage 0).jobCh
        = { ty := "string", val := "x" } :: [{ ty := "string", val := "y" }] ∧
      0 < (failing 0).workerPoolSize ∧
      (failing 0).workFn { ty := "string", val := "x" } = (none, some "cannot process x")) ∧
    (step failing (Step.work 0 0) twoPending).calls
      = [Ev.workFn 0 0 { ty := "string", val := "x" } none (some "cannot process x")] ∧
    forwardCalls (step failing (Step.work 0 0) twoPending).calls = [] ∧
    ((step failing (Step.work 0 0) twoPending).stage 0).jobCh = [{ ty := "string", val := "y" }] ∧
    (step failing (Step.work 0 0) (step failing (Step.work 0 0) twoPending)).calls
      = [Ev.workFn 0 0 { ty := "string", val := "x" } none (some "cannot process x"),
          Ev.workFn 0 0 { ty := "string", val := "y" } none (some "cannot process y")] :=
  have h := work_drops_failed_job failing 0 0 { ty := "string", val := "x" }
    [{ ty := "string", val := "y" }] twoPending none "cannot process x"
    (by decide) (by decide) (by decide)
  ⟨⟨by decide, by decide, by decide⟩, h.1, h.2.1, h.2.2.1, by decide⟩

/-- C9. When the transform returns a result `r` and a nil error and some successor `x`
of the list rejects `r`, the iteration of `work` still calls `jobReceiver(r)` on every
entry of the successor list, those after `x` included, takes the job out of `jobCh`,
and the next iteration of the worker begins with the transform of the next job. -/
theorem forward_rejection_does_not_stop_worker (nodes : α → Node α β) (a : α) (w : Nat)
    (job : Dyn β) (rest : List (Dyn β)) (s : Sys α β) (r : Option (Dyn β))
    (pre post : List α) (x : α) (e : String)
    (hq : (s.stage a).jobCh = job :: rest) (hw : w < (nodes a).workerPoolSize)
    (hok : (nodes a).workFn job = (r, none)) (hnext : (nodes a).next = pre ++ x :: post)
    (hrej : (jobReceiver nodes x r s).1 = some e) :
    (step nodes (Step.work a w) s).calls
      = s.calls ++ Ev.workFn a w job r none ::
        (pre.map (fun nx => Ev.forward a w nx r (jobReceiver nodes nx r s).1)
          ++ Ev.forward a w x r (some e) ::
            post.map (fun nx => Ev.forward a w nx r (jobReceiver nodes nx r s).1)) ∧
    forwardCalls (step nodes (Step.work a w) s).calls
      = forwardCalls s.calls ++ (pre.map (fun nx => (nx, r)) ++ (x, r) ::
          post.map (fun nx => (nx, r))) ∧
    ((step nodes (Step.work a w) s).stage a).jobCh = rest ∧
    (∀ job2 rest2, rest = job2 :: rest2 → ∃ tail,
      (step nodes (Step.work a w) (step nodes (Step.work a w) s)).calls
        = (step nodes (Step.work a w) s).calls ++
          Ev.workFn a w job2 ((nodes a).workFn job2).1 ((nodes a).workFn job2).2 :: tail) := by
  have hcalls := step_work_calls nodes a w job rest s hq hw
  rw [hok] at hcalls
  simp only at hcalls
  rw [hnext, List.map_append, List.map_cons, hrej] at hcalls
  have hjob := step_work_jobCh nodes a w job rest s hq hw
  refine ⟨hcalls, ?_, ?_, ?_⟩
  · rw [hcalls, forwardCalls_append]
    simp only [forwardCalls, forwardCalls_append]
    rw [forwardCalls_map_forward a w r (fun nx => (jobReceiver nodes nx r s).1),
      forwardCalls_map_forward a w r (fun nx => (jobReceiver nodes nx r s).1)]
  · simpa using hjob a
  · intro job2 rest2 hrest
    have hq2 : ((step nodes (Step.work a w) s).stage a).jobCh = job2 :: rest2 := by
      rw [hjob a, if_pos rfl, hrest]
    exact step_work_begins nodes a w job2 rest2 _ hq2 hw

/-- C9 (witness). In the fan-out A -> [B, C] where B is an `int` stage, B rejects the
string result "x A" of A, C is still called with "x A" and receives it, and the next
iteration of the worker of A calls the transform on "y". -/
theorem forward_rejection_does_not_stop_worker_witness :
    ((twoPending.stage 0).jobCh
        = { ty := "string", val := "x" } :: [{ ty := "string", val := "y" }] ∧
      0 < (fanOut "int" 0).workerPoolSize ∧
      (fanOut "int" 0).workFn { ty := "string", val := "x" }
        = (some { ty := "string", val := "x A" }, none) ∧
      (fanOut "int" 0).next = [] ++ 1 :: [2] ∧
      (jobReceiver (fanOut "int") 1 (some { ty := "string", val := "x A" }) twoPending).1
        = some "job type string is not accept by [B]") ∧
    (step (fanOut "int") (Step.work 0 0) twoPending).calls
      = [Ev.workFn 0 0 { ty := "string", val := "x" } (some { ty := "string", val := "x A" }) none,
          Ev.forward 0 0 1 (some { ty := "string", val := "x A" })
            (some "job type string is not accept by [B]"),
          Ev.forward 0 0 2 (some { ty := "string", val := "x A" }) none] ∧
    ((step (fanOut "int") (Step.work 0 0) twoPending).stage 1).ingestCh = [] ∧
    ((step (fanOut "int") (Step.work 0 0) twoPending).stage 2).ingestCh
      = [{ ty := "string", val := "x A" }] ∧
    transformRuns (step (fanOut "int") (Step.work 0 0)
        (step (fanOut "int") (Step.work 0 0) twoPending)).calls
      = [(0, { ty := "string", val := "x" }, some { ty := "string", val := "x A" }),
          (0, { ty := "string", val := "y" }, some { ty := "string", val := "y A" })] :=
  have h := forward_rejection_does_not_stop_worker (fanOut "int") 0 0
    { ty := "string", val := "x" } [{ ty := "string", val := "y" }] twoPending
    (some { ty := "string", val := "x A" }) [] [2] 1 "job type string is not accept by [B]"
    (by decide) (by decide) (by decide) (by decide) (by decide)
  ⟨⟨by decide, by decide, by decide, by decide, by decide⟩, h.1, by decide, by decide,
    by decide⟩

end StageProofs

section ChainProofs

variable {β : Type}

theorem chainRuns_succ (nodes : Nat → Node Nat β) (job : Dyn β) (k : Nat) (d : Dyn β)
    (h : chainInput nodes job k = some d) :
    chainRuns nodes job (k + 1) = chainRuns nodes job k ++ [(k, d, ((nodes k).workFn d).1)] := by
  simp [chainRuns, List.range_succ, List.filterMap_append, h]

theorem chainInput_succ (nodes : Nat → Node Nat β) (job : Dyn β) (k : Nat) (d : Dyn β)
    (h : chainInput nodes job k = some d) :
    chainInput nodes job (k + 1) = ((nodes k).workFn d).1 := by
  simp [chainInput, h]

theorem chainRuns_isPrefix (nodes : Nat → Node Nat β) (job : Dyn β) (k m : Nat) :
    chainRuns nodes job k <+: chainRuns nodes job (k + m) := by
  induction m with
  | zero => exact List.prefix_refl _
  | succ m ih =>
    refine ih.trans ?_
    rw [← Nat.add_assoc]
    simp only [chainRuns, List.range_succ, List.filterMap_append]
    exact List.prefix_append _ _

theorem chainRuns_stages (nodes : Nat → Node Nat β) (job : Dyn β) (n : Nat)
    (h : IsChain nodes job n) : (chainRuns nodes job n).map Prod.fst = List.range n := by
  have hgen : ∀ m, m ≤ n → (chainRuns nodes job m).map Prod.fst = List.range m := by
    intro m
    induction m with
    | zero => intro _; rfl
    | succ m ih =>
      intro hm
      obtain ⟨_, _, d, hd, _, _⟩ := h m hm
      rw [chainRuns_succ nodes job m d hd, List.map_append, ih (Nat.le_of_succ_le hm),
        List.range_succ]
      rfl
  exact hgen n (Nat.le_refl n)

theorem step_relay_idle (nodes : Nat → Node Nat β) (a : Nat) (s : Sys Nat β)
    (h : (s.stage a).ingestCh = []) : step nodes (Step.relay a) s = s := by
  simp [step, h]

theorem step_work_idle (nodes : Nat → Node Nat β) (a w : Nat) (s : Sys Nat β)
    (h : (s.stage a).jobCh = []) : step nodes (Step.work a w) s = s := by
  simp [step, h]

theorem step_work_absent (nodes : Nat → Node Nat β) (a w : Nat) (s : Sys Nat β)
    (h : ¬ w < (nodes a).workerPoolSize) : step nodes (Step.work a w) s = s := by
  simp [step, h]

theorem atIngest_relay (nodes : Nat → Node Nat β) (job : Dyn β) (n k : Nat)
    (hchain : IsChain nodes job n) (hk : k < n) (s : Sys Nat β)
    (h : AtIngest nodes job k s) : AtJob nodes job k (step nodes (Step.relay k) s) := by
  obtain ⟨hing, hjob, hruns⟩ := h
  obtain ⟨_, _, d, hd, _, _⟩ := hchain k hk
  have hk1 : (s.stage k).ingestCh = [d] := by rw [hing k, if_pos rfl, hd]; rfl
  have hstep : step nodes (Step.relay k) s
      = s.update k (fun ns => { ns with ingestCh := [], jobCh := ns.jobCh ++ [d] }) := by
    simp [step, hk1]
  rw [hstep]
  refine ⟨?_, ?_, ?_⟩
  · intro a
    by_cases ha : a = k
    · subst ha; rw [update_stage_same]
    · rw [update_stage_other _ _ _ _ ha, hing a, if_neg ha]
  · intro a
    by_cases ha : a = k
    · subst ha; rw [update_stage_same]; simp [hjob a, hd]
    · rw [update_stage_other _ _ _ _ ha, hjob a, if_neg ha]
  · exact hruns

theorem atJob_work (nodes : Nat → Node Nat β) (job : Dyn β) (n k w : Nat)
    (hchain : IsChain nodes job n) (hk : k < n) (hw : w < (nodes k).workerPoolSize)
    (s : Sys Nat β) (h : AtJob nodes job k s) :
    (k + 1 < n → AtIngest nodes job (k + 1) (step nodes (Step.work k w) s)) ∧
    (k + 1 = n → (step nodes (Step.work k w) s).quiescent ∧
      transformRuns (step nodes (Step.work k w) s).calls = chainRuns nodes job n) := by
  obtain ⟨hing, hjob, hruns⟩ := h
  obtain ⟨hnext, _, d, hd, _, herr⟩ := hchain k hk
  have hq : (s.stage k).jobCh = d :: [] := by rw [hjob k, if_pos rfl, hd]; rfl
  have hok : (nodes k).workFn d = (((nodes k).workFn d).1, none) := by
    rw [← herr]
  have hcalls : transformRuns (step nodes (Step.work k w) s).calls
      = chainRuns nodes job (k + 1) := by
    rw [step_work_calls nodes k w d [] s hq hw, herr, transformRuns_append]
    simp only [transformRuns]
    rw [transformRuns_map_forward k w _ (fun nx => (jobReceiver nodes nx _ s).1), hruns,
      chainRuns_succ nodes job k d hd]
  have hjob1 : ∀ a, ((step nodes (Step.work k w) s).stage a).jobCh = [] := by
    intro a
    rw [step_work_jobCh nodes k w d [] s hq hw a]
    by_cases ha : a = k
    · rw [if_pos ha]
    · rw [if_neg ha, hjob a, if_neg ha]
  have hupd : ∀ a, ((s.update k (fun ns => { ns with jobCh := [] })).stage a).ingestCh = [] := by
    intro a
    by_cases ha : a = k
    · subst ha; rw [update_stage_same]; exact hing a
    · rw [update_stage_other _ _ _ _ ha]; exact hing a
  have hing1 : ∀ a, ((step nodes (Step.work k w) s).stage a).ingestCh
      = ((forward nodes k w ((nodes k).workFn d).1 (nodes k).next
          { stage := (s.update k (fun ns => { ns with jobCh := [] })).stage,
            calls := (s.update k (fun ns => { ns with jobCh := [] })).calls
              ++ [Ev.workFn k w d ((nodes k).workFn d).1 none] }).stage a).ingestCh := by
    intro a
    rw [step_work_cons nodes k w d [] s hq hw]
    exact workJob_ingestCh_of_ok nodes k w d _ _ hok a
  constructor
  · intro hk1
    obtain ⟨_, _, d1, hd1, hacc1, _⟩ := hchain (k + 1) hk1
    have hr : ((nodes k).workFn d).1 = some d1 := by
      rw [← chainInput_succ nodes job k d hd, hd1]
    refine ⟨?_, hjob1, hcalls⟩
    intro a
    rw [hing1 a, hnext, if_pos hk1, hr]
    simp only [forward]
    rw [jobReceiver_ingestCh, hupd a, hd1]
    by_cases ha : a = k + 1
    · simp [ha, hacc1]
    · simp [ha]
  · intro hk1
    refine ⟨fun a => ⟨?_, hjob1 a⟩, by rw [hcalls, hk1]⟩
    rw [hing1 a, hnext, if_neg (by omega)]
    simp only [forward]
    exact hupd a

theorem chainInv_step (nodes : Nat → Node Nat β) (job : Dyn β) (n : Nat)
    (hchain : IsChain nodes job n) (st : Step Nat) (s : Sys Nat β)
    (h : ChainInv nodes job n s) : ChainInv nodes job n (step nodes st s) := by
  cases st with
  | relay a =>
    rcases h with ⟨k, hk, hat⟩ | ⟨k, hk, hat⟩ | hdone
    · by_cases ha : a = k
      · subst ha
        exact Or.inr (Or.inl ⟨a, hk, atIngest_relay nodes job n a hchain hk s hat⟩)
      · rw [step_relay_idle nodes a s (by rw [hat.1 a, if_neg ha])]
        exact Or.inl ⟨k, hk, hat⟩
    · rw [step_relay_idle nodes a s (hat.1 a)]
      exact Or.inr (Or.inl ⟨k, hk, hat⟩)
    · rw [step_relay_idle nodes a s (hdone.1 a).1]
      exact Or.inr (Or.inr hdone)
  | work a w =>
    rcases h with ⟨k, hk, hat⟩ | ⟨k, hk, hat⟩ | hdone
    · rw [step_work_idle nodes a w s (hat.2.1 a)]
      exact Or.inl ⟨k, hk, hat⟩
    · by_cases ha : a = k
      · subst ha
        by_cases hw : w < (nodes a).workerPoolSize
        · have hstep := atJob_work nodes job n a w hchain hk hw s hat
          by_cases hk1 : a + 1 < n
          · exact Or.inl ⟨a + 1, hk1, hstep.1 hk1⟩
          · exact Or.inr (Or.inr (hstep.2 (by omega)))
        · rw [step_work_absent nodes a w s hw]
          exact Or.inr (Or.inl ⟨a, hk, hat⟩)
      · rw [step_work_idle nodes a w s (by rw [hat.2.1 a, if_neg ha])]
        exact Or.inr (Or.inl ⟨k, hk, hat⟩)
    · rw [step_work_idle nodes a w s (hdone.1 a).2]
      exact Or.inr (Or.inr hdone)

theorem chainInv_run (nodes : Nat → Node Nat β) (job : Dyn β) (n : Nat)
    (hchain : IsChain nodes job n) (sch : List (Step Nat)) (s : Sys Nat β)
    (h : ChainInv nodes job n s) : ChainInv nodes job n (run nodes sch s) := by
  induction sch generalizing s with
  | nil => exact h
  | cons st rest ih => exact ih _ (chainInv_step nodes job n hchain st s h)

theorem atIngest_submit (nodes : Nat → Node Nat β) (job : Dyn β) (n : Nat)
    (hchain : IsChain nodes job n) (hn : 0 < n) :
    AtIngest nodes job 0 (jobReceiver nodes 0 (some job) Sys.init).2 := by
  obtain ⟨_, _, d, hd, hacc, _⟩ := hchain 0 hn
  have hdj : d = job := by
    simp only [chainInput, Option.some.injEq] at hd
    exact hd.symm
  subst hdj
  refine ⟨?_, ?_, ?_⟩
  · intro a
    rw [jobReceiver_ingestCh]
    by_cases ha : a = 0
    · simp [ha, hacc, Sys.init, chainInput]
    · simp [ha, Sys.init]
  · intro a
    rw [jobReceiver_jobCh]
    rfl
  · rw [jobReceiver_calls]
    rfl

theorem chainSchedule_run (nodes : Nat → Node Nat β) (job : Dyn β) (n : Nat)
    (hchain : IsChain nodes job n) :
    ∀ (m k : Nat) (s : Sys Nat β), k + m = n → 0 < m → AtIngest nodes job k s →
      (run nodes ((List.range' k m).flatMap (fun i => [Step.relay i, Step.work i 0])) s).quiescent ∧
      transformRuns (run nodes ((List.range' k m).flatMap
        (fun i => [Step.relay i, Step.work i 0])) s).calls = chainRuns nodes job n := by
  intro m
  induction m with
  | zero => intro k s _ hm; exact absurd hm (Nat.lt_irrefl 0)
  | succ m ih =>
    intro k s hkm _ hat
    have hk : k < n := by omega
    have hjob := atIngest_relay nodes job n k hchain hk s hat
    have hw : 0 < (nodes k).workerPoolSize := (hchain k hk).2.1
    have hstep := atJob_work nodes job n k 0 hchain hk hw _ hjob
    simp only [List.range'_succ, List.flatMap_cons, List.cons_append, List.nil_append, run]
    by_cases hm : m = 0
    · subst hm
      simpa [run] using hstep.2 (by omega)
    · exact ih (k + 1) _ (by omega) (Nat.pos_of_ne_zero hm) (hstep.1 (by omega))

/-- C10. In a linear chain of `n` stages on which the submitted job never fails, after
the job is submitted to stage 0 every schedule of relay and worker actions yields
transform calls that are an initial part of: stage 0 on the job, stage 1 on the result
of stage 0, ..., stage `k` on the composition of the transforms of the stages before
it; once every channel is empty the calls are exactly that list, in which each stage
occurs once; and the schedule that lets each stage relay and work in turn reaches it. -/
theorem chain_runs_each_stage_once (nodes : Nat → Node Nat β) (job : Dyn β) (n : Nat)
    (hn : 0 < n) (hchain : IsChain nodes job n) :
    (∀ sch, transformRuns (run nodes sch (jobReceiver nodes 0 (some job) Sys.init).2).calls
      <+: chainRuns nodes job n) ∧
    (∀ sch, (run nodes sch (jobReceiver nodes 0 (some job) Sys.init).2).quiescent →
      transformRuns (run nodes sch (jobReceiver nodes 0 (some job) Sys.init).2).calls
        = chainRuns nodes job n) ∧
    (run nodes (chainSchedule n) (jobReceiver nodes 0 (some job) Sys.init).2).quiescent ∧
    transformRuns (run nodes (chainSchedule n)
      (jobReceiver nodes 0 (some job) Sys.init).2).calls = chainRuns nodes job n ∧
    (chainRuns nodes job n).map Prod.fst = List.range n ∧
    (jobReceiver nodes 0 (some job) Sys.init).1 = none := by
  have h0 := atIngest_submit nodes job n hchain hn
  have hinv : ∀ sch, ChainInv nodes job n
      (run nodes sch (jobReceiver nodes 0 (some job) Sys.init).2) :=
    fun sch => chainInv_run nodes job n hchain sch _ (Or.inl ⟨0, hn, h0⟩)
  have hpre : ∀ k, k < n → chainRuns nodes job k <+: chainRuns nodes job n := by
    intro k hk
    have := chainRuns_isPrefix nodes job k (n - k)
    rwa [Nat.add_sub_cancel' (Nat.le_of_lt hk)] at this
  have hsched := chainSchedule_run nodes job n hchain n 0 _ (Nat.zero_add n) hn h0
  rw [← List.range_eq_range'] at hsched
  refine ⟨?_, ?_, hsched.1, hsched.2, chainRuns_stages nodes job n hchain, ?_⟩
  · intro sch
    rcases hinv sch with ⟨k, hk, hat⟩ | ⟨k, hk, hat⟩ | hdone
    · rw [hat.2.2]; exact hpre k hk
    · rw [hat.2.2]; exact hpre k hk
    · rw [hdone.2]
  · intro sch hq
    rcases hinv sch with ⟨k, hk, hat⟩ | ⟨k, hk, hat⟩ | hdone
    · obtain ⟨_, _, d, hd, _, _⟩ := hchain k hk
      have := (hq k).1
      rw [hat.1 k, if_pos rfl, hd] at this
      exact absurd this (by simp)
    · obtain ⟨_, _, d, hd, _, _⟩ := hchain k hk
      have := (hq k).2
      rw [hat.2.1 k, if_pos rfl, hd] at this
      exact absurd this (by simp)
    · exact hdone.2
  · obtain ⟨_, _, d, hd, hacc, _⟩ := hchain 0 hn
    simp only [chainInput, Option.some.injEq] at hd
    subst hd
    simp [jobReceiver, hacc]

theorem isChain_abcd : IsChain abcdChain { ty := "string", val := "x" } 4 := by
  intro k hk
  have hcases : k = 0 ∨ k = 1 ∨ k = 2 ∨ k = 3 := by omega
  rcases hcases with h | h | h | h <;> subst h <;>
    exact ⟨by decide, by decide, _, rfl, by decide, by decide⟩

/-- C10 (witness). In the chain A -> B -> C -> D of string stages, after "x" is
submitted to A the transforms run once each, A on "x", B on "x A", C on "x A B" and D
on "x A B C", and D produces "x A B C D". -/
theorem chain_runs_each_stage_once_witness :
    (0 < 4 ∧ IsChain abcdChain { ty := "string", val := "x" } 4) ∧
    (∀ sch, (run abcdChain sch
        (jobReceiver abcdChain 0 (some { ty := "string", val := "x" }) Sys.init).2).quiescent →
      transformRuns (run abcdChain sch
        (jobReceiver abcdChain 0 (some { ty := "string", val := "x" }) Sys.init).2).calls
        = [(0, { ty := "string", val := "x" }, some { ty := "string", val := "x A" }),
            (1, { ty := "string", val := "x A" }, some { ty := "string", val := "x A B" }),
            (2, { ty := "string", val := "x A B" }, some { ty := "string", val := "x A B C" }),
            (3, { ty := "string", val := "x A B C" },
              some { ty := "string", val := "x A B C D" })]) ∧
    (run abcdChain (chainSchedule 4)
      (jobReceiver abcdChain 0 (some { ty := "string", val := "x" }) Sys.init).2).quiescent :=
  have h := chain_runs_each_stage_once abcdChain { ty := "string", val := "x" } 4
    (by decide) isChain_abcd
  ⟨⟨by decide, isChain_abcd⟩, h.2.1, h.2.2.1⟩

end ChainProofs

section CoordinatorProofs

variable {α : Type} [DecidableEq α]

/-- The traversal of the code with the action `nodes = append(nodes, node)` and the
pre-order of the specification agree, as long as the `visited` map marks exactly the
stages listed so far. -/
theorem preorderLoop_refines (next : α → List α) (fuel : Nat)
    (IH : ∀ (node : α) (V : α → Bool) (L acc : List α), (∀ x, V x = true ↔ x ∈ acc) →
      (dfsHelper next (fun n l => l ++ [n]) fuel node (V, L, acc) = none ∧
        preorderFrom next fuel acc node = none) ∨
      ∃ W L1 l, dfsHelper next (fun n l => l ++ [n]) fuel node (V, L, acc) = some (W, L1, l) ∧
        preorderFrom next fuel acc node = some l ∧ ∀ x, W x = true ↔ x ∈ l) :
    ∀ (succs : List α) (V : α → Bool) (L acc : List α), (∀ x, V x = true ↔ x ∈ acc) →
      (dfsLoop (dfsHelper next (fun n l => l ++ [n]) fuel) succs (V, L, acc) = none ∧
        preorderLoop (preorderFrom next fuel) succs acc = none) ∨
      ∃ W L1 l,
        dfsLoop (dfsHelper next (fun n l => l ++ [n]) fuel) succs (V, L, acc)
          = some (W, L1, l) ∧
        preorderLoop (preorderFrom next fuel) succs acc = some l ∧ ∀ x, W x = true ↔ x ∈ l := by
  intro succs
  induction succs with
  | nil =>
    intro V L acc h
    exact Or.inr ⟨V, L, acc, rfl, rfl, h⟩
  | cons nx rest ih =>
    intro V L acc h
    rcases IH nx V L acc h with ⟨h1, h2⟩ | ⟨W, L1, l, h1, h2, hW⟩
    · left
      simp [dfsLoop, preorderLoop, h1, h2]
    · rcases ih W L1 l hW with ⟨h3, h4⟩ | ⟨W2, L2, l2, h3, h4, hW2⟩
      · left
        simp [dfsLoop, preorderLoop, h1, h2, h3, h4]
      · right
        exact ⟨W2, L2, l2, by simp [dfsLoop, h1, h3], by simp [preorderLoop, h2, h4], hW2⟩

theorem preorderFrom_refines (next : α → List α) :
    ∀ (fuel : Nat) (node : α) (V : α → Bool) (L acc : List α),
      (∀ x, V x = true ↔ x ∈ acc) →
      (dfsHelper next (fun n l => l ++ [n]) fuel node (V, L, acc) = none ∧
        preorderFrom next fuel acc node = none) ∨
      ∃ W L1 l, dfsHelper next (fun n l => l ++ [n]) fuel node (V, L, acc) = some (W, L1, l) ∧
        preorderFrom next fuel acc node = some l ∧ ∀ x, W x = true ↔ x ∈ l := by
  intro fuel
  induction fuel with
  | zero =>
    intro node V L acc _
    exact Or.inl ⟨rfl, rfl⟩
  | succ fuel ih =>
    intro node V L acc h
    by_cases hmem : node ∈ acc
    · have hV : V node = true := (h node).2 hmem
      right
      exact ⟨V, L ++ [node], acc, by simp [dfsHelper, hV], by simp [preorderFrom, hmem], h⟩
    · have hV : V node = false := by
        cases hv : V node with
        | false => rfl
        | true => exact absurd ((h node).1 hv) hmem
      have h1 : ∀ x, setKey V node true x = true ↔ x ∈ acc ++ [node] := by
        intro x
        rw [setKey_true_iff, List.mem_append, List.mem_singleton, h x]
        tauto
      have := preorderLoop_refines next fuel ih (next node) (setKey V node true)
        (L ++ [node]) (acc ++ [node]) h1
      simpa [dfsHelper, hV, preorderFrom, hmem] using this

omit [DecidableEq α] in
theorem foldl_append_singleton (l acc : List α) :
    l.foldl (fun t x => t ++ [x]) acc = acc ++ l := by
  induction l generalizing acc with
  | nil => simp
  | cons a t ih => simp [ih]

/-- The order in which `dfs` applies its action is the depth-first pre-order. -/
theorem dfs_order_preorder [Fintype α] (next : α → List α) (root : α) :
    ∃ (W : α → Bool) (order entries : List α),
      (∀ (σ : Type) (fn : α → σ → σ) (s : σ),
        dfsHelper next fn (depthBudget α) root (emptyMap, [], s)
          = some (W, entries, order.foldl (fun t x => fn x t) s)) ∧
      order.Nodup ∧ (∀ x, x ∈ order ↔ Reach next root x) ∧
      preorder next (depthBudget α) root = some order := by
  obtain ⟨W, order, entries, hrun, hnd, hmem, _, _, _⟩ :=
    dfs_order next (depthBudget α) (Nat.lt_succ_self _) root
  refine ⟨W, order, entries, hrun, hnd, hmem, ?_⟩
  have h1 := hrun (List α) (fun n l => l ++ [n]) []
  rw [foldl_append_singleton, List.nil_append] at h1
  rcases preorderFrom_refines next (depthBudget α) root emptyMap [] []
      (by intro x; simp [emptyMap]) with ⟨h2, _⟩ | ⟨W2, L2, l, h2, h3, _⟩
  · rw [h1] at h2; exact absurd h2 (by simp)
  · rw [h1] at h2
    simp only [Option.some.injEq, Prod.mk.injEq] at h2
    rw [preorder, h3, h2.2.2]

omit [DecidableEq α] in
theorem shutdownSequence_index (order : List α) (i : Nat) :
    (shutdownSequence order)[2 * i + 1]? = (order[i]?).map Call.stop ∧
    (shutdownSequence order)[2 * i + 2]? = (order[i]?).map Call.wait := by
  have h : ∀ (l : List α) (j : Nat),
      (l.flatMap (fun n => [Call.stop n, Call.wait n]))[2 * j]? = (l[j]?).map Call.stop ∧
      (l.flatMap (fun n => [Call.stop n, Call.wait n]))[2 * j + 1]? = (l[j]?).map Call.wait := by
    intro l
    induction l with
    | nil => intro j; simp
    | cons a t ih =>
      intro j
      cases j with
      | zero => simp [List.flatMap_cons]
      | succ j =>
        simpa [List.flatMap_cons, Nat.mul_succ] using ih j
  constructor
  · simpa [shutdownSequence] using (h order i).1
  · simpa [shutdownSequence] using (h order i).2

theorem shutdownSequence_count (order : List α) (x : α) :
    (shutdownSequence order).count Call.signalDone = 1 ∧
    (shutdownSequence order).count (Call.stop x) = order.count x ∧
    (shutdownSequence order).count (Call.wait x) = order.count x := by
  have h : ∀ l : List α,
      (l.flatMap (fun n => [Call.stop n, Call.wait n])).count Call.signalDone = 0 ∧
      (l.flatMap (fun n => [Call.stop n, Call.wait n])).count (Call.stop x) = l.count x ∧
      (l.flatMap (fun n => [Call.stop n, Call.wait n])).count (Call.wait x) = l.count x := by
    intro l
    induction l with
    | nil => simp
    | cons a t ih =>
      obtain ⟨ih1, ih2, ih3⟩ := ih
      by_cases hax : a = x
      · subst hax
        simp [List.flatMap_cons, List.count_cons, ih1, ih2, ih3]
      · simp [List.flatMap_cons, List.count_cons, ih1, ih2, ih3, hax]
  obtain ⟨h1, h2, h3⟩ := h order
  simp [shutdownSequence, List.count_cons, h1, h2, h3]

theorem stop_done (next : α → List α) (fuel : Nat) (root : α) (d : Nat)
    (calls : List (Call α)) :
    Stop next fuel { root := root, onceDone := true, doneCh := d } calls
      = some ({ root := root, onceDone := true, doneCh := d }, calls) := by
  simp [Stop]

theorem stopTimes_done (next : α → List α) (fuel : Nat) (root : α) (d : Nat)
    (calls : List (Call α)) (n : Nat) :
    StopTimes next fuel n { root := root, onceDone := true, doneCh := d } calls
      = some ({ root := root, onceDone := true, doneCh := d }, calls) := by
  induction n with
  | zero => rfl
  | succ n ih => simp [StopTimes, stop_done, ih]

/-- C12. The guarded body of `Stop` makes, after the calls made before it, exactly the
shutdown sequence of the depth-first pre-order of the stages reachable from the root
(successors in list order): one signal on `doneCh`, then at the positions 2i+1 and
2i+2 the `stop` and the `wait` of the i-th stage of that order. -/
theorem stop_sequence_is_preorder [Fintype α] (next : α → List α) (root : α) :
    ∃ order : List α, preorder next (depthBudget α) root = some order ∧
      order.Nodup ∧ (∀ x, x ∈ order ↔ Reach next root x) ∧
      (∀ d calls, Stop next (depthBudget α) { root := root, onceDone := false, doneCh := d }
        calls = some ({ root := root, onceDone := true, doneCh := d + 1 },
          calls ++ shutdownSequence order)) ∧
      (shutdownSequence order)[0]? = some Call.signalDone ∧
      (∀ i, (shutdownSequence order)[2 * i + 1]? = (order[i]?).map Call.stop ∧
        (shutdownSequence order)[2 * i + 2]? = (order[i]?).map Call.wait) ∧
      (shutdownSequence order).length = 2 * order.length + 1 := by
  obtain ⟨W, order, entries, hrun, hnd, hmem, hpre⟩ := dfs_order_preorder next root
  refine ⟨order, hpre, hnd, hmem, ?_, by simp [shutdownSequence],
    shutdownSequence_index order, ?_⟩
  · intro d calls
    exact stop_run next root W order entries hrun d calls
  · have h : ∀ l : List α,
        (l.flatMap (fun n => [Call.stop n, Call.wait n])).length = 2 * l.length := by
      intro l
      induction l with
      | nil => rfl
      | cons a t ih => simp [List.flatMap_cons, ih]; ring
    simp [shutdownSequence, h]

/-- C13. However many times (at least once) `Stop` is called on a pipeline, the result
is that of one call: one signal on `doneCh`, one `stop` call for each reachable stage
and none for any other stage; a call on a pipeline whose `once` has fired changes
nothing. -/
theorem stop_is_one_time [Fintype α] (next : α → List α) (root : α) (n : Nat)
    (hn : 1 ≤ n) : ∃ calls : List (Call α),
      (∀ d, StopTimes next (depthBudget α) n { root := root, onceDone := false, doneCh := d } []
        = some ({ root := root, onceDone := true, doneCh := d + 1 }, calls)) ∧
      (∀ d, Stop next (depthBudget α) { root := root, onceDone := false, doneCh := d } []
        = some ({ root := root, onceDone := true, doneCh := d + 1 }, calls)) ∧
      calls.count Call.signalDone = 1 ∧
      (∀ x, Reach next root x → calls.count (Call.stop x) = 1) ∧
      (∀ x, ¬ Reach next root x → calls.count (Call.stop x) = 0) ∧
      (∀ d cs, Stop next (depthBudget α) { root := root, onceDone := true, doneCh := d } cs
        = some ({ root := root, onceDone := true, doneCh := d }, cs)) := by
  obtain ⟨W, order, entries, hrun, hnd, hmem, _⟩ := dfs_order_preorder next root
  have hstop : ∀ d, Stop next (depthBudget α)
      { root := root, onceDone := false, doneCh := d } []
      = some ({ root := root, onceDone := true, doneCh := d + 1 }, shutdownSequence order) := by
    intro d
    simpa [shutdownSequence] using stop_run next root W order entries hrun d []
  refine ⟨shutdownSequence order, ?_, hstop, (shutdownSequence_count order root).1, ?_, ?_,
    ?_⟩
  · intro d
    obtain ⟨m, rfl⟩ : ∃ m, n = m + 1 := ⟨n - 1, by omega⟩
    simp only [StopTimes, hstop]
    exact stopTimes_done next (depthBudget α) root (d + 1) _ m
  · intro x hx
    rw [(shutdownSequence_count order x).2.1]
    exact List.count_eq_one_of_mem hnd ((hmem x).2 hx)
  · intro x hx
    rw [(shutdownSequence_count order x).2.1]
    exact List.count_eq_zero_of_not_mem (fun h => hx ((hmem x).1 h))
  · intro d cs
    exact stop_done next (depthBudget α) root d cs

/-- C13 (witness). Three calls of `Stop` on the graph 0 → 1, 0 → 2, 2 → 1 make the
seven calls of one shutdown sequence. -/
theorem stop_is_one_time_witness :
    1 ≤ 3 ∧
    StopTimes sharedSuccGraph (depthBudget (Fin 3)) 3
        { root := 0, onceDone := false, doneCh := 0 } []
      = some ({ root := 0, onceDone := true, doneCh := 1 },
          [Call.signalDone, Call.stop 0, Call.wait 0, Call.stop 1, Call.wait 1,
            Call.stop 2, Call.wait 2]) ∧
    ∃ calls : List (Call (Fin 3)),
      (∀ d, StopTimes sharedSuccGraph (depthBudget (Fin 3)) 3
          { root := 0, onceDone := false, doneCh := d } []
        = some ({ root := 0, onceDone := true, doneCh := d + 1 }, calls)) ∧
      (∀ d, Stop sharedSuccGraph (depthBudget (Fin 3))
          { root := 0, onceDone := false, doneCh := d } []
        = some ({ root := 0, onceDone := true, doneCh := d + 1 }, calls)) ∧
      calls.count Call.signalDone = 1 ∧
      (∀ x, Reach sharedSuccGraph 0 x → calls.count (Call.stop x) = 1) ∧
      (∀ x, ¬ Reach sharedSuccGraph 0 x → calls.count (Call.stop x) = 0) ∧
      (∀ d cs, Stop sharedSuccGraph (depthBudget (Fin 3))
          { root := 0, onceDone := true, doneCh := d } cs
        = some ({ root := 0, onceDone := true, doneCh := d }, cs)) :=
  ⟨by decide, by decide, stop_is_one_time sharedSuccGraph 0 3 (by decide)⟩

/-- C14. `NewPipeline` on a nil root returns the error "nil root node"; on every root
it returns, and its error is non-nil exactly when its pipeline is nil, which happens
exactly for a nil root or a root from which a cycle is reachable. -/
theorem newPipeline_error_gives_nil [Fintype α] (next : α → List α) :
    (∀ fuel, NewPipeline next fuel none = some (none, some "nil root node")) ∧
    (∀ root : Option α, ∃ r, NewPipeline next (depthBudget α) root = some r ∧
      (r.2 ≠ none ↔ r.1 = none) ∧
      (r.2 ≠ none ↔ (root = none ∨ ∃ x, root = some x ∧ HasReachableCycle next x))) := by
  refine ⟨fun _ => rfl, ?_⟩
  intro root
  cases root with
  | none => exact ⟨_, rfl, by simp, by simp⟩
  | some x =>
    obtain ⟨b, entered, hrun, hb, _⟩ :=
      hasCycle_spec next (depthBudget α) (Nat.lt_succ_self _) x
    cases b with
    | true =>
      refine ⟨(none, some "cycle not allowed in pipeline"), by simp [NewPipeline, hrun],
        by simp, ?_⟩
      simpa using hb.1 rfl
    | false =>
      have hc : ¬ HasReachableCycle next x := fun h => by simpa using hb.2 h
      refine ⟨(some { root := x, onceDone := false, doneCh := 0 }, none),
        by simp [NewPipeline, hrun], by simp, ?_⟩
      simpa using hc

end CoordinatorProofs

section StageMethodProofs

variable {α β : Type} [DecidableEq α]

/-- C16. After `SetNext(s)` on stage `a` the successor list of `a` is the old list
followed by `s`; a second `SetNext` adds a second successor after it; the name, type,
transform and pool size of `a` and every other stage stay as they were. -/
theorem setNext_appends (nodes : α → Node α β) (a s : α) :
    getNext (SetNext nodes a s) a = getNext nodes a ++ [s] ∧
    getNext nodes a <+: getNext (SetNext nodes a s) a ∧
    (∀ s2, getNext (SetNext (SetNext nodes a s) a s2) a = getNext nodes a ++ [s, s2]) ∧
    (SetNext nodes a s a).name = (nodes a).name ∧
    (SetNext nodes a s a).T = (nodes a).T ∧
    (SetNext nodes a s a).workFn = (nodes a).workFn ∧
    (SetNext nodes a s a).workerPoolSize = (nodes a).workerPoolSize ∧
    (∀ x, x ≠ a → SetNext nodes a s x = nodes x) := by
  refine ⟨?_, ?_, ?_, ?_, ?_, ?_, ?_, ?_⟩
  · simp [getNext, SetNext]
  · simp [getNext, SetNext]
  · intro s2
    simp [getNext, SetNext]
  · simp [SetNext]
  · simp [SetNext]
  · simp [SetNext]
  · simp [SetNext]
  · intro x hx
    simp [SetNext, hx]

theorem jobReceiver_lastJob (nodes : α → Node α β) (a : α) (job : Option (Dyn β))
    (s : Sys α β) (x : α) :
    ((jobReceiver nodes a job s).2.stage x).lastJob = (s.stage x).lastJob := by
  cases job with
  | none => rfl
  | some d =>
    simp only [jobReceiver]
    split
    · by_cases hx : x = a
      · subst hx; rw [update_stage_same]
      · rw [update_stage_other _ _ _ _ hx]
    · rfl

theorem forward_lastJob (nodes : α → Node α β) (a : α) (w : Nat) (r : Option (Dyn β))
    (l : List α) (s : Sys α β) (x : α) :
    ((forward nodes a w r l s).stage x).lastJob = (s.stage x).lastJob := by
  induction l generalizing s with
  | nil => rfl
  | cons y t ih =>
    simp only [forward, ih]
    exact jobReceiver_lastJob nodes y r s x

/-- An iteration of `work` leaves the job it received in `lastJob`, whatever the
transform returns. -/
theorem workJob_lastJob (nodes : α → Node α β) (a : α) (w : Nat) (job : Dyn β)
    (s : Sys α β) : ((workJob nodes a w job s).stage a).lastJob = some job := by
  simp only [workJob]
  cases h : ((nodes a).workFn job).2 with
  | some e => simp [Sys.update]
  | none => simp [forward_lastJob, Sys.update]

theorem run_work_lastJob (nodes : α → Node α β) (a : α) (w : Nat)
    (hw : w < (nodes a).workerPoolSize) (rest : List (Dyn β)) :
    ∀ (js : List (Dyn β)) (s : Sys α β), (s.stage a).jobCh = js ++ rest →
      ((run nodes (List.replicate js.length (Step.work a w)) s).stage a).jobCh = rest ∧
      ((run nodes (List.replicate js.length (Step.work a w)) s).stage a).lastJob
        = (match js.getLast? with
          | some j => some j
          | none => (s.stage a).lastJob) := by
  intro js
  induction js with
  | nil =>
    intro s hq
    exact ⟨by simpa [run] using hq, rfl⟩
  | cons j t ih =>
    intro s hq
    have hq1 : (s.stage a).jobCh = j :: (t ++ rest) := by simpa using hq
    have hjob : ((step nodes (Step.work a w) s).stage a).jobCh = t ++ rest := by
      rw [step_work_jobCh nodes a w j (t ++ rest) s hq1 hw a, if_pos rfl]
    have hlast : ((step nodes (Step.work a w) s).stage a).lastJob = some j := by
      rw [step_work_cons nodes a w j (t ++ rest) s hq1 hw]
      exact workJob_lastJob nodes a w j _
    obtain ⟨h1, h2⟩ := ih (step nodes (Step.work a w) s) hjob
    refine ⟨by simpa [List.replicate_succ, run] using h1, ?_⟩
    simp only [List.length_cons, List.replicate_succ, run]
    rw [h2, hlast]
    cases t with
    | nil => rfl
    | cons j2 t2 =>
      rw [List.getLast?_cons_cons]
      cases hl : (j2 :: t2).getLast? with
      | some x => rfl
      | none => simp at hl

/-- C17. `LatestJob` returns the field `lastJob` of the root stage, and after one worker
of the root has run its loop on the jobs `js` (one at least) taken from `jobCh` in
order, that field holds the last job of `js`, whatever the transform returned on it. -/
theorem latestJob_is_last_dequeued (nodes : α → Node α β) (p : PipelineState α) (w : Nat)
    (js rest : List (Dyn β)) (s : Sys α β)
    (hq : (s.stage p.root).jobCh = js ++ rest)
    (hw : w < (nodes p.root).workerPoolSize) (hne : js ≠ []) :
    LatestJob p s = (s.stage p.root).lastJob ∧
    LatestJob p (run nodes (List.replicate js.length (Step.work p.root w)) s)
      = js.getLast? ∧
    ((run nodes (List.replicate js.length (Step.work p.root w)) s).stage p.root).jobCh
      = rest := by
  obtain ⟨h1, h2⟩ := run_work_lastJob nodes p.root w hw rest js s hq
  refine ⟨rfl, ?_, h1⟩
  rw [LatestJob, latestJob, h2]
  cases hl : js.getLast? with
  | some j => rfl
  | none => exact absurd (List.getLast?_eq_none_iff.1 hl) hne

/-- C17 (witness). In `failing`, whose stage A fails on every job, after the worker of
A has taken "x" and "y" the latest job is "y". -/
theorem latestJob_is_last_dequeued_witness :
    ((twoPending.stage 0).jobCh
        = [{ ty := "string", val := "x" }, { ty := "string", val := "y" }] ++ [] ∧
      0 < (failing 0).workerPoolSize ∧
      [({ ty := "string", val := "x" } : Dyn String), { ty := "string", val := "y" }] ≠ []) ∧
    LatestJob { root := 0, onceDone := false, doneCh := 0 }
        (run failing [Step.work 0 0, Step.work 0 0] twoPending)
      = some { ty := "string", val := "y" } ∧
    LatestJob { root := 0, onceDone := false, doneCh := 0 }
        (run (fanOut "string") [Step.work 0 0, Step.work 0 0] twoPending)
      = some { ty := "string", val := "y" } :=
  have h := latestJob_is_last_dequeued failing { root := 0, onceDone := false, doneCh := 0 }
    0 [{ ty := "string", val := "x" }, { ty := "string", val := "y" }] [] twoPending
    (by decide) (by decide) (by decide)
  ⟨⟨by decide, by decide, by decide⟩, h.2.1, by decide⟩

theorem invokedOn_append (a : α) (l1 l2 : List (Ev α β)) :
    invokedOn a (l1 ++ l2) = invokedOn a l1 ++ invokedOn a l2 := by
  induction l1 with
  | nil => rfl
  | cons e t ih =>
    cases e with
    | workFn n w job r err =>
      by_cases hn : n = a <;> simp [invokedOn, hn, ih]
    | forward n w t2 job err => simp [invokedOn, ih]

theorem invokedOn_map_forward (a b : α) (w : Nat) (r : Option (Dyn β))
    (err : α → Option String) (l : List α) :
    invokedOn a (l.map (fun nx => Ev.forward b w nx r (err nx))) = [] := by
  induction l with
  | nil => rfl
  | cons x t ih => simp [invokedOn, ih]

theorem workJob_invokedOn (nodes : α → Node α β) (a b : α) (w : Nat) (job : Dyn β)
    (s : Sys α β) :
    invokedOn a (workJob nodes b w job s).calls
      = invokedOn a s.calls ++ (if b = a then [job] else []) := by
  rw [workJob_calls, invokedOn_append]
  congr 1
  cases h : ((nodes b).workFn job).2 with
  | some e => by_cases hb : b = a <;> simp [invokedOn, hb]
  | none =>
    have hf := invokedOn_map_forward a b w ((nodes b).workFn job).1
      (fun nx => (jobReceiver nodes nx ((nodes b).workFn job).1 s).1) (nodes b).next
    simp only [invokedOn, hf]

/-- The invariant of a stage with one worker: no worker other than worker 0 holds a job. -/
theorem act_single_worker (nodes : α → Node α β) (a : α)
    (hpool : (nodes a).workerPoolSize = 1) (x : Action α) (p : Pool α β)
    (hidle : ∀ w, 1 ≤ w → p.holding a w = none) :
    (∀ w, 1 ≤ w → (act nodes x p).holding a w = none) ∧
    invokedOn a (act nodes x p).sys.calls ++ ((act nodes x p).holding a 0).toList
        ++ ((act nodes x p).sys.stage a).jobCh
      = invokedOn a p.sys.calls ++ (p.holding a 0).toList ++ (p.sys.stage a).jobCh
        ++ acceptedDuring nodes a [x] p := by
  cases x with
  | relay b =>
    refine ⟨hidle, ?_⟩
    simp only [act, acceptedDuring, List.append_nil]
    by_cases hb : b = a
    · subst hb
      cases hing : (p.sys.stage b).ingestCh with
      | nil => simp [step, hing]
      | cons job r => simp [step, hing, Sys.update]
    · cases hing : (p.sys.stage b).ingestCh with
      | nil => simp [step, hing, hb]
      | cons job r => simp [step, hing, Sys.update, hb, Ne.symm hb]
  | receive b w =>
    simp only [act, acceptedDuring, List.append_nil]
    by_cases hc : w < (nodes b).workerPoolSize ∧ (p.holding b w).isNone = true
    · rw [if_pos hc]
      cases hq : (p.sys.stage b).jobCh with
      | nil => exact ⟨hidle, rfl⟩
      | cons job r =>
        by_cases hb : b = a
        · subst hb
          have hw0 : w = 0 := by omega
          subst hw0
          have hnone : p.holding b 0 = none := by simpa using hc.2
          refine ⟨?_, ?_⟩
          · intro v hv
            have : ¬ v = 0 := by omega
            simp [this, hidle v hv]
          · simp [Sys.update, hnone, hq]
        · refine ⟨?_, ?_⟩
          · intro v hv
            simp [Ne.symm hb, hidle v hv]
          · simp [Sys.update, Ne.symm hb]
    · rw [if_neg hc]
      exact ⟨hidle, rfl⟩
  | process b w =>
    simp only [act, acceptedDuring, List.append_nil]
    cases hh : p.holding b w with
    | none => exact ⟨hidle, rfl⟩
    | some job =>
      by_cases hb : b = a
      · subst hb
        have hw0 : w = 0 := by
          by_contra hne
          have := hidle w (by omega)
          rw [hh] at this
          exact absurd this (by simp)
        subst hw0
        refine ⟨?_, ?_⟩
        · intro v hv
          have : ¬ v = 0 := by omega
          simp [this, hidle v hv]
        · simp [workJob_invokedOn, workJob_jobCh, hh]
      · refine ⟨?_, ?_⟩
        · intro v hv
          simp [Ne.symm hb, hidle v hv]
        · simp [workJob_invokedOn, workJob_jobCh, hb, Ne.symm hb]

theorem acceptedDuring_cons (nodes : α → Node α β) (a : α) (x : Action α)
    (rest : List (Action α)) (p : Pool α β) :
    acceptedDuring nodes a (x :: rest) p
      = acceptedDuring nodes a [x] p ++ acceptedDuring nodes a rest (act nodes x p) := by
  cases x <;> simp [acceptedDuring]

/-- C15. In a stage with one worker, under every schedule, the jobs on which the
transform has been called, followed by the job the worker holds and by the jobs
waiting in `jobCh`, are the jobs accepted into `jobCh` in the order of their
acceptance: the transform is called on the accepted jobs in that order. -/
theorem single_worker_fifo (nodes : α → Node α β) (a : α)
    (hpool : (nodes a).workerPoolSize = 1) (sch : List (Action α)) (p : Pool α β)
    (hidle : ∀ w, 1 ≤ w → p.holding a w = none) :
    invokedOn a (actAll nodes sch p).sys.calls ++ ((actAll nodes sch p).holding a 0).toList
        ++ ((actAll nodes sch p).sys.stage a).jobCh
      = invokedOn a p.sys.calls ++ (p.holding a 0).toList ++ (p.sys.stage a).jobCh
        ++ acceptedDuring nodes a sch p := by
  induction sch generalizing p with
  | nil => simp [actAll, acceptedDuring]
  | cons x rest ih =>
    obtain ⟨hidle1, hstep⟩ := act_single_worker nodes a hpool x p hidle
    rw [acceptedDuring_cons]
    simp only [actAll]
    rw [ih (act nodes x p) hidle1, hstep]
    simp [List.append_assoc]

/-- A worker that receives a job and then processes it does what one `Step.work` does:
the two models of `work` agree when no other action comes between the two halves. -/
theorem act_receive_process (nodes : α → Node α β) (a : α) (w : Nat) (p : Pool α β)
    (hw : w < (nodes a).workerPoolSize) (hnone : p.holding a w = none) :
    (act nodes (Action.process a w) (act nodes (Action.receive a w) p)).sys
      = step nodes (Step.work a w) p.sys := by
  cases hq : (p.sys.stage a).jobCh with
  | nil => simp [act, step, hw, hnone, hq]
  | cons job rest => simp [act, step, hw, hnone, hq]

/-- With two workers the order of the transform calls can differ from the order of
acceptance: worker 0 receives "x", worker 1 receives "y" and processes it first. -/
theorem two_workers_reorder :
    (twoPendingPool.sys.stage 0).jobCh
      = [{ ty := "string", val := "x" }, { ty := "string", val := "y" }] ∧
    invokedOn 0 (actAll twoWorkers [Action.receive 0 0, Action.receive 0 1,
        Action.process 0 1, Action.process 0 0] twoPendingPool).sys.calls
      = [{ ty := "string", val := "y" }, { ty := "string", val := "x" }] := by
  refine ⟨by decide, by decide⟩

/-- C15 (witness). In the string stage A with one worker, "x" and "y" are submitted, the
relay accepts them in that order, and the transform is called on "x" and then on "y". -/
theorem single_worker_fifo_witness :
    ((abcdChain 0).workerPoolSize = 1 ∧ ∀ w, 1 ≤ w → submittedPool.holding 0 w = none) ∧
    acceptedDuring abcdChain 0 [Action.relay 0, Action.receive 0 0, Action.relay 0,
        Action.process 0 0, Action.receive 0 0, Action.process 0 0] submittedPool
      = [{ ty := "string", val := "x" }, { ty := "string", val := "y" }] ∧
    invokedOn 0 (actAll abcdChain [Action.relay 0, Action.receive 0 0, Action.relay 0,
        Action.process 0 0, Action.receive 0 0, Action.process 0 0] submittedPool).sys.calls
      = [{ ty := "string", val := "x" }, { ty := "string", val := "y" }] ∧
    invokedOn 0 (actAll abcdChain [Action.relay 0, Action.receive 0 0, Action.relay 0,
          Action.process 0 0, Action.receive 0 0, Action.process 0 0] submittedPool).sys.calls
        ++ ((actAll abcdChain [Action.relay 0, Action.receive 0 0, Action.relay 0,
          Action.process 0 0, Action.receive 0 0, Action.process 0 0]
            submittedPool).holding 0 0).toList
        ++ ((actAll abcdChain [Action.relay 0, Action.receive 0 0, Action.relay 0,
          Action.process 0 0, Action.receive 0 0, Action.process 0 0]
            submittedPool).sys.stage 0).jobCh
      = invokedOn 0 submittedPool.sys.calls ++ (submittedPool.holding 0 0).toList
        ++ (submittedPool.sys.stage 0).jobCh
        ++ acceptedDuring abcdChain 0 [Action.relay 0, Action.receive 0 0, Action.relay 0,
          Action.process 0 0, Action.receive 0 0, Action.process 0 0] submittedPool :=
  ⟨⟨rfl, fun _ _ => rfl⟩, by decide, by decide,
    single_worker_fifo abcdChain 0 rfl [Action.relay 0, Action.receive 0 0, Action.relay 0,
      Action.process 0 0, Action.receive 0 0, Action.process 0 0] submittedPool
      (fun _ _ => rfl)⟩

end StageMethodProofs

section TraversalEntries

variable {α : Type} [DecidableEq α]

/-- C22. On a graph with no cycle reachable from `root`, the cycle detection that
`NewPipeline` runs returns false, and the record of the entries of `hasCycleHelper`
that `hasCycle` returns holds every stage reachable from `root` exactly once and no
other stage: no stage is entered a second time, neither from another predecessor nor
from the outer loop of `hasCycle`. -/
theorem hasCycleHelper_entered_once_if_acyclic [Fintype α] (next : α → List α) (root : α)
    (hacyclic : ¬ HasReachableCycle next root) : ∃ entered : List α,
      hasCycle next (depthBudget α) root = some (false, entered) ∧
      NewPipeline next (depthBudget α) (some root)
        = some (some { root := root, onceDone := false, doneCh := 0 }, none) ∧
      entered.Nodup ∧ (∀ x, x ∈ entered ↔ Reach next root x) ∧
      (∀ x, Reach next root x → entered.count x = 1) ∧
      (∀ x, ¬ Reach next root x → entered.count x = 0) := by
  obtain ⟨b, entered, hrun, hiff, hnd, hsub, hall⟩ :=
    hasCycle_spec next (depthBudget α) (Nat.lt_succ_self _) root
  cases b with
  | true => exact absurd (hiff.1 rfl) hacyclic
  | false =>
    have hmem : ∀ x, x ∈ entered ↔ Reach next root x :=
      fun x => ⟨hsub x, hall rfl x⟩
    refine ⟨entered, hrun, by simp only [NewPipeline, hrun], hnd, hmem, ?_, ?_⟩
    · intro x hx
      exact List.count_eq_one_of_mem hnd ((hmem x).2 hx)
    · intro x hx
      exact List.count_eq_zero_of_not_mem (fun h => hx ((hmem x).1 h))

/-- C22 (witness). In the graph 0 -> [1, 2], 2 -> [1], which has no cycle, `hasCycle`
enters `hasCycleHelper` on 0, on 1 and on 2, once each: stage 1 is met again as the
successor of 2 and again by the outer loop, and is not entered again. -/
theorem hasCycleHelper_entered_once_if_acyclic_witness :
    ¬ HasReachableCycle sharedSuccGraph 0 ∧
    hasCycle sharedSuccGraph (depthBudget (Fin 3)) 0 = some (false, [0, 1, 2]) ∧
    ∃ entered : List (Fin 3),
      hasCycle sharedSuccGraph (depthBudget (Fin 3)) 0 = some (false, entered) ∧
      NewPipeline sharedSuccGraph (depthBudget (Fin 3)) (some 0)
        = some (some { root := 0, onceDone := false, doneCh := 0 }, none) ∧
      entered.Nodup ∧ (∀ x, x ∈ entered ↔ Reach sharedSuccGraph 0 x) ∧
      (∀ x, Reach sharedSuccGraph 0 x → entered.count x = 1) ∧
      (∀ x, ¬ Reach sharedSuccGraph 0 x → entered.count x = 0) :=
  have hacyclic : ¬ HasReachableCycle sharedSuccGraph 0 :=
    not_hasReachableCycle_of_hasCycle sharedSuccGraph (depthBudget (Fin 3))
      (Nat.lt_succ_self _) 0 (by decide)
  ⟨hacyclic, by decide, hasCycleHelper_entered_once_if_acyclic sharedSuccGraph 0 hacyclic⟩

/-- C23 (counterexample). In the graph 0 -> [1, 2], 2 -> [1] the call of `dfsHelper`
that `getAllNodes` makes enters the method on 0, 1, 2 and on 1 again: the reachable
stage 1 has two entries, both recursive, the second one returning at the test of
`visited`.  In the graph 0 -> 1 -> 2 -> 3 -> 1 with a cycle, stage 1 has two entries
as well. -/
theorem dfsHelper_entries_counterexample :
    (dfsHelper sharedSuccGraph (fun node nodes => nodes ++ [node]) (depthBudget (Fin 3)) 0
        (emptyMap, [], [])).map Prod.snd = some ([0, 1, 2, 1], [0, 1, 2]) ∧
    getAllNodes sharedSuccGraph (depthBudget (Fin 3)) 0 = some [0, 1, 2] ∧
    ([0, 1, 2, 1] : List (Fin 3)).count 1 = 2 ∧
    ¬ (∀ x : Fin 3, ([0, 1, 2, 1] : List (Fin 3)).count x ≤ 1) ∧
    (dfsHelper cycleGraph (fun node nodes => nodes ++ [node]) (depthBudget (Fin 4)) 0
        (emptyMap, [], [])).map Prod.snd = some ([0, 1, 2, 3, 1], [0, 1, 2, 3]) := by
  refine ⟨by decide, by decide, by decide, by decide, by decide⟩

/-- C23 (amended). On every finite graph, with or without cycles, the traversals of
`NewPipeline` return within a nesting depth of one more than the number of stages.
The run of `dfsHelper` from the root enters the method once for the root and once for
each element of the successor list of each reachable stage, and no more: the record of
its entries is a rearrangement of `root` followed by the successor lists of the
reachable stages; the part after the test of `visited` (mark, action, loop) runs once
per reachable stage, which is how `getAllNodes` lists each reachable stage once.
`hasCycle` returns with `hasCycleHelper` entered at most once per stage and on
reachable stages only.  `NewPipeline` returns, and on a graph with a reachable cycle it
returns the error "cycle not allowed in pipeline". -/
theorem newPipeline_traversals_terminate [Fintype α] (next : α → List α) (root : α) :
    (∃ (W : α → Bool) (nodes entries : List α),
      (∀ (σ : Type) (fn : α → σ → σ) (s : σ),
        dfsHelper next fn (depthBudget α) root (emptyMap, [], s)
          = some (W, entries, nodes.foldl (fun t x => fn x t) s)) ∧
      getAllNodes next (depthBudget α) root = some nodes ∧ nodes.Nodup ∧
      (∀ x, x ∈ nodes ↔ Reach next root x) ∧ nodes.length ≤ Fintype.card α ∧
      List.Perm entries (root :: nodes.flatMap next) ∧
      (∀ x, entries.count x = (if x = root then 1 else 0) + (nodes.flatMap next).count x) ∧
      entries.length = 1 + (nodes.map (fun u => (next u).length)).sum) ∧
    (∃ (b : Bool) (entered : List α),
      hasCycle next (depthBudget α) root = some (b, entered) ∧
      entered.Nodup ∧ (∀ x ∈ entered, Reach next root x) ∧
      (∀ x, entered.count x ≤ 1) ∧ entered.length ≤ Fintype.card α) ∧
    (∃ r, NewPipeline next (depthBudget α) (some root) = some r) ∧
    (HasReachableCycle next root →
      NewPipeline next (depthBudget α) (some root)
        = some (none, some "cycle not allowed in pipeline")) := by
  obtain ⟨W, order, entries, hrun, hnd, hmem, _, _, hperm⟩ :=
    dfs_order next (depthBudget α) (Nat.lt_succ_self _) root
  obtain ⟨b, entered, hcyc, hiff, hend, hsub, _⟩ :=
    hasCycle_spec next (depthBudget α) (Nat.lt_succ_self _) root
  have hfold : ∀ (l acc : List α), l.foldl (fun t x => t ++ [x]) acc = acc ++ l := by
    intro l
    induction l with
    | nil => intro acc; simp
    | cons a t ih => intro acc; simp [ih]
  have hlen : ∀ l : List α, (l.flatMap next).length = (l.map (fun u => (next u).length)).sum := by
    intro l
    induction l with
    | nil => rfl
    | cons a t ih => simp [List.flatMap_cons, ih]
  refine ⟨⟨W, order, entries, hrun, ?_, hnd, hmem, hnd.length_le_card, hperm, ?_, ?_⟩,
    ⟨b, entered, hcyc, hend, hsub, ?_, hend.length_le_card⟩, ?_, ?_⟩
  · simp only [getAllNodes, hrun, hfold, List.nil_append]
  · intro x
    rw [hperm.count_eq, List.count_cons]
    by_cases hx : x = root
    · subst hx; simp; omega
    · have hx2 : ¬ root = x := fun e => hx e.symm
      simp [hx, hx2]
  · rw [hperm.length_eq, List.length_cons, hlen]
    omega
  · intro x
    exact List.nodup_iff_count_le_one.1 hend x
  · cases b <;> simp [NewPipeline, hcyc]
  · intro hc
    have hb := hiff.2 hc
    subst hb
    simp only [NewPipeline, hcyc]

/-- C23 (witness). On the graph 0 -> 1 -> 2 -> 3 -> 1 of the tests, which has a cycle,
`NewPipeline` returns, with the error "cycle not allowed in pipeline", and `hasCycle`
returns with a duplicate-free record of entries. -/
theorem newPipeline_traversals_terminate_witness :
    HasReachableCycle cycleGraph 0 ∧
    NewPipeline cycleGraph (depthBudget (Fin 4)) (some 0)
      = some (none, some "cycle not allowed in pipeline") ∧
    (∃ (b : Bool) (entered : List (Fin 4)),
      hasCycle cycleGraph (depthBudget (Fin 4)) 0 = some (b, entered) ∧
      entered.Nodup ∧ (∀ x ∈ entered, Reach cycleGraph 0 x) ∧
      (∀ x, entered.count x ≤ 1) ∧ entered.length ≤ Fintype.card (Fin 4)) :=
  have hcyc : HasReachableCycle cycleGraph 0 :=
    hasReachableCycle_of_hasCycle cycleGraph (depthBudget (Fin 4)) (Nat.lt_succ_self _) 0
      (by decide)
  ⟨hcyc, (newPipeline_traversals_terminate cycleGraph 0).2.2.2 hcyc,
    (newPipeline_traversals_terminate cycleGraph 0).2.1⟩

/-- The cyclic graphs of the tests and a graph with the cycle 0 -> 1 -> 0: the cycle
detection returns true after entering `hasCycleHelper` once on each stage it met, and
`getAllNodes` lists every reachable stage once. -/
theorem traversal_examples :
    hasCycle cycleGraph (depthBudget (Fin 4)) 0 = some (true, [0, 1, 2, 3]) ∧
    getAllNodes cycleGraph (depthBudget (Fin 4)) 0 = some [0, 1, 2, 3] ∧
    hasCycle backEdgeGraph (depthBudget (Fin 3)) 0 = some (true, [0, 1]) ∧
    getAllNodes backEdgeGraph (depthBudget (Fin 3)) 0 = some [0, 1, 2] ∧
    hasCycle (fun _ : Fin 1 => [0]) (depthBudget (Fin 1)) 0 = some (true, [0]) := by
  refine ⟨by decide, by decide, by decide, by decide, by decide⟩

end TraversalEntries

section LifecycleProofs

variable {α β : Type} [DecidableEq α]

theorem opsOn_append (a : α) (l1 l2 : List (α × ChanOp β)) :
    opsOn a (l1 ++ l2) = opsOn a l1 ++ opsOn a l2 := by
  induction l1 with
  | nil => rfl
  | cons x t ih =>
    obtain ⟨b, op⟩ := x
    by_cases hb : b = a <;> simp [opsOn, hb, ih]

theorem opsOn_single (a b : α) (op : ChanOp β) :
    opsOn a [(b, op)] = if b = a then [op] else [] := by
  simp only [opsOn]

omit [DecidableEq α] in
theorem sendsThenClose_snoc (l : List (ChanOp β)) (op : ChanOp β)
    (h : sendsThenClose l = true) (hno : ChanOp.close ∉ l) :
    sendsThenClose (l ++ [op]) = true := by
  induction l with
  | nil => cases op <;> rfl
  | cons x t ih =>
    cases x with
    | send job =>
      simp only [List.cons_append, sendsThenClose]
      exact ih h (fun hc => hno (List.mem_cons_of_mem _ hc))
    | close => exact absurd (List.mem_cons_self _ _) hno

theorem lifeInv_started (p : Pool α β) : LifeInv (Life.started p) := by
  intro a
  simp [Life.started, opsOn, sendsThenClose]

/-- What a move does to the record of the operations on `jobCh`: nothing, or the relay
task of a stage that has not returned sends a job, or it closes `jobCh` in the branch
`done` and has returned afterwards. -/
theorem move_jobChOps (nodes : α → Node α β) (m : Move α β) (s : Life α β) :
    (move nodes m s).jobChOps = s.jobChOps ∧ (move nodes m s).relayExited = s.relayExited ∧
      (move nodes m s).closed = s.closed ∨
    (∃ a job, m = Move.task (Action.relay a) ∧ s.relayExited a = false ∧
      (move nodes m s).jobChOps = s.jobChOps ++ [(a, ChanOp.send job)] ∧
      (move nodes m s).relayExited = s.relayExited ∧ (move nodes m s).closed = s.closed) ∨
    (∃ a, m = Move.done a ∧ s.relayExited a = false ∧
      (move nodes m s).jobChOps = s.jobChOps ++ [(a, ChanOp.close)] ∧
      (move nodes m s).relayExited = setKey s.relayExited a true ∧
      (move nodes m s).closed = setKey s.closed a true) := by
  cases m with
  | task x =>
    cases x with
    | relay a =>
      simp only [move]
      cases hex : s.relayExited a with
      | true => exact Or.inl ⟨rfl, rfl, rfl⟩
      | false =>
        cases hq : (s.pool.sys.stage a).ingestCh with
        | nil => exact Or.inl ⟨rfl, rfl, rfl⟩
        | cons job rest =>
          exact Or.inr (Or.inl ⟨a, job, rfl, hex, rfl, rfl, rfl⟩)
    | receive a w => exact Or.inl ⟨rfl, rfl, rfl⟩
    | process a w => exact Or.inl ⟨rfl, rfl, rfl⟩
  | done a =>
    simp only [move]
    cases hex : s.relayExited a with
    | true => exact Or.inl ⟨rfl, rfl, rfl⟩
    | false => exact Or.inr (Or.inr ⟨a, rfl, hex, rfl, rfl, rfl⟩)
  | submit a job => exact Or.inl ⟨rfl, rfl, rfl⟩

theorem lifeInv_move (nodes : α → Node α β) (m : Move α β) (s : Life α β)
    (h : LifeInv s) : LifeInv (move nodes m s) := by
  rcases move_jobChOps nodes m s with ⟨h1, h2, h3⟩ | ⟨a, job, _, hex, h1, h2, h3⟩ |
      ⟨a, _, hex, h1, h2, h3⟩
  · intro x; rw [h1, h2, h3]; exact h x
  · intro x
    obtain ⟨hc, hiff, hsc⟩ := h x
    rw [h1, h2, h3, opsOn_append, opsOn_single]
    refine ⟨hc, ?_, ?_⟩
    · by_cases hx : a = x
      · subst hx
        simp only [if_true, List.mem_append, List.mem_singleton]
        rw [hiff]
        constructor
        · exact Or.inl
        · rintro (hm | hm)
          · exact hm
          · cases hm
      · simp only [if_neg hx, List.append_nil]; exact hiff
    · by_cases hx : a = x
      · subst hx
        rw [if_pos rfl]
        apply sendsThenClose_snoc _ _ hsc
        intro hm
        have := hiff.2 hm
        rw [hex] at this
        cases this
      · simp only [if_neg hx, List.append_nil]; exact hsc
  · intro x
    obtain ⟨hc, hiff, hsc⟩ := h x
    rw [h1, h2, h3, opsOn_append, opsOn_single]
    by_cases hx : a = x
    · subst hx
      have hno : ChanOp.close ∉ opsOn a s.jobChOps := by
        intro hm
        have := hiff.2 hm
        rw [hex] at this
        cases this
      refine ⟨by simp [setKey], by simp [setKey], ?_⟩
      rw [if_pos rfl]
      exact sendsThenClose_snoc _ _ hsc hno
    · have hx2 : x ≠ a := fun e => hx e.symm
      simp only [if_neg hx, List.append_nil, setKey, if_neg hx2]
      exact ⟨hc, hiff, hsc⟩

theorem lifeInv_moves (nodes : α → Node α β) (ms : List (Move α β)) (s : Life α β)
    (h : LifeInv s) : LifeInv (moves nodes ms s) := by
  induction ms generalizing s with
  | nil => exact h
  | cons m rest ih => exact ih _ (lifeInv_move nodes m s h)

theorem close_needs_done (nodes : α → Node α β) (a : α) (ms : List (Move α β))
    (s : Life α β) (h : ChanOp.close ∈ opsOn a (moves nodes ms s).jobChOps) :
    ChanOp.close ∈ opsOn a s.jobChOps ∨ 0 < doneMoves a ms := by
  induction ms generalizing s with
  | nil => exact Or.inl h
  | cons m rest ih =>
    rcases ih (move nodes m s) h with hm | hd
    · rcases move_jobChOps nodes m s with ⟨h1, _, _⟩ | ⟨b, job, _, _, h1, _, _⟩ |
          ⟨b, hmv, _, h1, _, _⟩
      · rw [h1] at hm; exact Or.inl hm
      · rw [h1, opsOn_append, opsOn_single] at hm
        rcases List.mem_append.1 hm with hm | hm
        · exact Or.inl hm
        · split at hm
          · rw [List.mem_singleton] at hm; cases hm
          · cases hm
      · rw [h1, opsOn_append, opsOn_single] at hm
        rcases List.mem_append.1 hm with hm | hm
        · exact Or.inl hm
        · by_cases hb : b = a
          · right
            rw [hmv]
            simp [doneMoves, hb]
          · rw [if_neg hb] at hm; cases hm
    · right
      cases m with
      | task x => simpa [doneMoves] using hd
      | done b => simp only [doneMoves]; omega
      | submit b job => simpa [doneMoves] using hd

/-- C21. In every schedule of a graph whose stages have been started once, for every
stage: the only move that closes `jobCh` is the branch `done` of the relay task, taken
while the relay task has not returned, and the relay task has returned afterwards; the
only move that sends on `jobCh` is the relay task before it has returned.  Hence the
operations on `jobCh` are sends followed by at most one close, which is the last
operation: no send happens after the close, `jobCh` is closed exactly when the relay
task has returned, and it is closed only if the schedule holds a move `done` of that
stage. -/
theorem jobCh_closed_only_by_relay_on_done (nodes : α → Node α β) (p : Pool α β)
    (ms : List (Move α β)) :
    (∀ (m : Move α β) (s : Life α β),
      (move nodes m s).jobChOps = s.jobChOps ∧ (move nodes m s).closed = s.closed ∨
      (∃ a job, m = Move.task (Action.relay a) ∧ s.relayExited a = false ∧
        (move nodes m s).jobChOps = s.jobChOps ++ [(a, ChanOp.send job)] ∧
        (move nodes m s).closed = s.closed) ∨
      (∃ a, m = Move.done a ∧ s.relayExited a = false ∧
        (move nodes m s).jobChOps = s.jobChOps ++ [(a, ChanOp.close)] ∧
        (move nodes m s).closed = setKey s.closed a true ∧
        (move nodes m s).relayExited a = true)) ∧
    (∀ a, sendsThenClose (opsOn a (moves nodes ms (Life.started p)).jobChOps) = true) ∧
    (∀ a, (moves nodes ms (Life.started p)).closed a = true ↔
      ChanOp.close ∈ opsOn a (moves nodes ms (Life.started p)).jobChOps) ∧
    (∀ a, (moves nodes ms (Life.started p)).closed a
      = (moves nodes ms (Life.started p)).relayExited a) ∧
    (∀ a, (moves nodes ms (Life.started p)).closed a = true → 0 < doneMoves a ms) := by
  have hinv := lifeInv_moves nodes ms _ (lifeInv_started p)
  refine ⟨?_, fun a => (hinv a).2.2, ?_, fun a => (hinv a).1, ?_⟩
  · intro m s
    rcases move_jobChOps nodes m s with ⟨h1, _, h3⟩ | ⟨a, job, hm, hex, h1, _, h3⟩ |
        ⟨a, hm, hex, h1, h2, h3⟩
    · exact Or.inl ⟨h1, h3⟩
    · exact Or.inr (Or.inl ⟨a, job, hm, hex, h1, h3⟩)
    · exact Or.inr (Or.inr ⟨a, hm, hex, h1, h3, by rw [h2]; simp [setKey]⟩)
  · intro a
    rw [(hinv a).1]
    exact (hinv a).2.1
  · intro a hc
    rw [(hinv a).1] at hc
    rcases close_needs_done nodes a ms _ ((hinv a).2.1.1 hc) with h | h
    · simp [Life.started, opsOn] at h
    · exact h

/-- An execution of the string stage A with "x" and then "y" submitted: the relay task
sends "x", takes the branch `done` and closes `jobCh`; its later move does nothing, so
"y" stays in `ingestCh` and the record ends with the close. -/
theorem relay_examples :
    (moves abcdChain [Move.task (Action.relay 0), Move.done 0, Move.task (Action.relay 0),
        Move.done 0] (Life.started submittedPool)).jobChOps
      = [(0, ChanOp.send { ty := "string", val := "x" }), (0, ChanOp.close)] ∧
    ((moves abcdChain [Move.task (Action.relay 0), Move.done 0, Move.task (Action.relay 0),
        Move.done 0] (Life.started submittedPool)).pool.sys.stage 0).ingestCh
      = [{ ty := "string", val := "y" }] ∧
    ((moves abcdChain [Move.task (Action.relay 0), Move.done 0, Move.task (Action.relay 0),
        Move.done 0] (Life.started submittedPool)).pool.sys.stage 0).jobCh
      = [{ ty := "string", val := "x" }] := by
  refine ⟨by decide, by decide, by decide⟩

end LifecycleProofs

section NilResultProofs

variable {α β : Type} [DecidableEq α]

theorem step_idle (nodes : α → Node α β) (s : Sys α β) (hquiet : s.quiescent)
    (st : Step α) : step nodes st s = s := by
  cases st with
  | relay a => simp only [step, (hquiet a).1]
  | work a w =>
    simp only [step, (hquiet a).2]
    split <;> rfl

theorem run_idle (nodes : α → Node α β) (s : Sys α β) (hquiet : s.quiescent)
    (sch : List (Step α)) : run nodes sch s = s := by
  induction sch with
  | nil => rfl
  | cons st rest ih => rw [run, step_idle nodes s hquiet, ih]

theorem step_work_ingestCh_of_nil (nodes : α → Node α β) (a : α) (w : Nat) (job : Dyn β)
    (rest : List (Dyn β)) (s : Sys α β) (hq : (s.stage a).jobCh = job :: rest)
    (hw : w < (nodes a).workerPoolSize) (hnil : (nodes a).workFn job = (none, none))
    (x : α) : ((step nodes (Step.work a w) s).stage x).ingestCh = (s.stage x).ingestCh := by
  have hfw : ∀ (l : List α) (t : Sys α β),
      ((forward nodes a w none l t).stage x).ingestCh = (t.stage x).ingestCh := by
    intro l
    induction l with
    | nil => intro t; rfl
    | cons z r ih => intro t; simp only [forward, jobReceiver]; rw [ih]
  rw [step_work_cons nodes a w job rest s hq hw,
    workJob_ingestCh_of_ok nodes a w job _ none hnil x, hfw]
  by_cases hx : x = a
  · subst hx; simp [Sys.update]
  · simp [Sys.update, hx]

/-- C24. When the transform of stage `a` returns a nil result with a nil error on the
job that worker `w` takes from `jobCh`, the worker calls `jobReceiver(nil)` once on
each successor; each of these calls returns nil and leaves the whole state as it was,
so the `ingestCh` of every stage is what it was before the iteration and `jobCh` only
loses the job taken.  If that job was the only one in the graph, every channel is empty
afterwards and no later action changes anything: the propagation of the job has ended. -/
theorem nil_result_ends_propagation (nodes : α → Node α β) (a : α) (w : Nat)
    (job : Dyn β) (rest : List (Dyn β)) (s : Sys α β)
    (hq : (s.stage a).jobCh = job :: rest) (hw : w < (nodes a).workerPoolSize)
    (hnil : (nodes a).workFn job = (none, none)) :
    (step nodes (Step.work a w) s).calls
      = s.calls ++ Ev.workFn a w job none none ::
        (nodes a).next.map (fun nx => Ev.forward a w nx none none) ∧
    (∀ (nx : α) (t : Sys α β), jobReceiver nodes nx none t = (none, t)) ∧
    (∀ x, ((step nodes (Step.work a w) s).stage x).ingestCh = (s.stage x).ingestCh) ∧
    (∀ x, ((step nodes (Step.work a w) s).stage x).jobCh
      = if x = a then rest else (s.stage x).jobCh) ∧
    (rest = [] → (∀ x, (s.stage x).ingestCh = []) → (∀ x, x ≠ a → (s.stage x).jobCh = []) →
      (step nodes (Step.work a w) s).quiescent ∧
      ∀ sch, run nodes sch (step nodes (Step.work a w) s) = step nodes (Step.work a w) s) := by
  have hcalls := step_work_calls nodes a w job rest s hq hw
  rw [hnil] at hcalls
  have hing := step_work_ingestCh_of_nil nodes a w job rest s hq hw hnil
  have hjob := step_work_jobCh nodes a w job rest s hq hw
  refine ⟨?_, fun _ _ => rfl, hing, hjob, ?_⟩
  · simpa [jobReceiver] using hcalls
  · intro hrest hi hj
    have hquiet : (step nodes (Step.work a w) s).quiescent := by
      intro x
      refine ⟨by rw [hing, hi], ?_⟩
      rw [hjob]
      by_cases hx : x = a
      · rw [if_pos hx, hrest]
      · rw [if_neg hx, hj x hx]
    exact ⟨hquiet, run_idle nodes _ hquiet⟩

/-- C24 (witness). In the fan-out A -> [B, C] whose stage A returns a nil result with a
nil error, the worker of A that takes "x" calls `jobReceiver(nil)` on B and on C, both
return nil, and the inbound channels of B and C stay empty. -/
theorem nil_result_ends_propagation_witness :
    ((twoPending.stage 0).jobCh
        = { ty := "string", val := "x" } :: [{ ty := "string", val := "y" }] ∧
      0 < (nilResult 0).workerPoolSize ∧
      (nilResult 0).workFn { ty := "string", val := "x" } = (none, none)) ∧
    (step nilResult (Step.work 0 0) twoPending).calls
      = [Ev.workFn 0 0 { ty := "string", val := "x" } none none,
          Ev.forward 0 0 1 none none, Ev.forward 0 0 2 none none] ∧
    ((step nilResult (Step.work 0 0) twoPending).stage 1).ingestCh = [] ∧
    ((step nilResult (Step.work 0 0) twoPending).stage 2).ingestCh = [] :=
  have h := nil_result_ends_propagation nilResult 0 0 { ty := "string", val := "x" }
    [{ ty := "string", val := "y" }] twoPending (by decide) (by decide) (by decide)
  ⟨⟨by decide, by decide, by decide⟩, h.1, h.2.2.1 1, h.2.2.1 2⟩

end NilResultProofs

end Pipeline

namespace Orderedmap

variable {K V : Type}

theorem eq_congr_left (c : Comparable K) {a b : K} (h : c.eq a b = true) (x : K) :
    c.eq a x = c.eq b x := by
  cases hb : c.eq b x with
  | true => exact c.trans a b x h hb
  | false =>
    cases ha : c.eq a x with
    | false => rfl
    | true =>
      have h1 : c.eq b a = true := by rw [c.symm]; exact h
      have := c.trans b a x h1 ha
      rw [hb] at this
      exact absurd this (by simp)

theorem eq_congr_right (c : Comparable K) {a b : K} (h : c.eq a b = true) (x : K) :
    c.eq x a = c.eq x b := by
  rw [c.symm x a, c.symm x b]
  exact eq_congr_left c h x

theorem eq_self_left (c : Comparable K) {a b : K} (h : c.eq a b = true) : c.eq a a = true := by
  have h1 : c.eq b a = true := by rw [c.symm]; exact h
  exact c.trans a b a h h1

theorem eq_self_right (c : Comparable K) {a b : K} (h : c.eq a b = true) : c.eq b b = true := by
  have h1 : c.eq b a = true := by rw [c.symm]; exact h
  exact c.trans b a b h1 h

theorem removeKey_sublist (c : Comparable K) (key : K) (l : List K) :
    List.Sublist (removeKey c key l) l := by
  induction l with
  | nil => exact List.Sublist.slnil
  | cons k rest ih =>
    cases hk : c.eq k key with
    | true =>
      simp only [removeKey, hk, if_true]
      exact List.sublist_cons_self _ _
    | false =>
      simp only [removeKey, hk, Bool.false_eq_true, if_false]
      exact List.Sublist.cons₂ _ ih

theorem filter_eq_self_of_none (c : Comparable K) (key : K) (l : List K)
    (h : ∀ x ∈ l, c.eq x key = false) : l.filter (fun k => !c.eq k key) = l := by
  rw [List.filter_eq_self]
  intro x hx
  simp [h x hx]

/-- When no two keys of the list are equal, removing the first key equal to `key`
removes every key equal to `key`. -/
theorem removeKey_eq_filter (c : Comparable K) (key : K) (l : List K)
    (h : l.Pairwise (fun a b => c.eq a b = false)) :
    removeKey c key l = l.filter (fun k => !c.eq k key) := by
  induction l with
  | nil => rfl
  | cons k rest ih =>
    rw [List.pairwise_cons] at h
    cases hk : c.eq k key with
    | true =>
      have hrest : ∀ x ∈ rest, c.eq x key = false := by
        intro x hx
        have h1 := h.1 x hx
        rw [eq_congr_left c hk x, c.symm] at h1
        exact h1
      simp only [removeKey, hk, if_true]
      rw [List.filter_cons_of_neg (by simp [hk]), filter_eq_self_of_none c key rest hrest]
    | false =>
      simp only [removeKey, hk, Bool.false_eq_true, if_false]
      rw [List.filter_cons_of_pos (by simp [hk]), ih h.2]

/-- Keys at different insertion positions are not equal, when equal keys have the same
position. -/
theorem pairwise_ne_of_insertedBefore (c : Comparable K) (time : K → Option Nat)
    (hresp : ∀ a b, c.eq a b = true → time a = time b) (l : List K)
    (h : l.Pairwise (InsertedBefore time)) : l.Pairwise (fun a b => c.eq a b = false) := by
  refine List.Pairwise.imp ?_ h
  intro a b hab
  obtain ⟨ta, tb, ha, hb, hlt⟩ := hab
  cases he : c.eq a b with
  | false => rfl
  | true =>
    have := hresp a b he
    rw [ha, hb] at this
    have := Option.some.inj this
    omega

theorem mapInv_applyOp (c : Comparable K) (o : OrderedMap K V) (time : K → Option Nat)
    (t : Nat) (h : MapInv c o time t) (op : Op K V)
    (hop : ∀ key value, op = Op.set key value → c.eq key key = true) :
    MapInv c (applyOp c o op) (stamp c time t op) (t + 1) := by
  obtain ⟨hself, hmem, htime, hpw, hlt, hresp⟩ := h
  cases op with
  | set key value =>
    have hkk : c.eq key key = true := hop key value rfl
    have hvals : ∀ k, (applyOp c o (Op.set key value)).values k
        = if c.eq key k then some value else o.values k := fun k => rfl
    cases hpres : (o.values key).isSome with
    | true =>
      have hkeys : (applyOp c o (Op.set key value)).keys = o.keys := by
        simp [applyOp, Set, hpres]
      have hst : stamp c time t (Op.set key value) = time := by
        funext k
        cases hk : c.eq key k with
        | false => simp [stamp, hk]
        | true =>
          have h1 : (time k).isSome = true := by
            rw [htime k, ← (hresp key k hk).1]; exact hpres
          simp [stamp, hk, h1]
      rw [hst]
      refine ⟨?_, ?_, ?_, ?_, ?_, ?_⟩
      · rw [hkeys]; exact hself
      · intro k
        rw [hkeys, hvals]
        cases hk : c.eq key k with
        | false => simpa using hmem k
        | true =>
          simp only [if_true, Option.isSome_some, iff_true]
          obtain ⟨k1, hk1, he⟩ := (hmem key).2 hpres
          exact ⟨k1, hk1, c.trans k1 key k he hk⟩
      · intro k
        rw [hvals]
        cases hk : c.eq key k with
        | false => simpa using htime k
        | true =>
          simp only [if_true, Option.isSome_some]
          rw [htime k, ← (hresp key k hk).1]; exact hpres
      · rw [hkeys]; exact hpw
      · intro k tk hk
        exact Nat.lt_succ_of_lt (hlt k tk hk)
      · intro a b hab
        refine ⟨?_, (hresp a b hab).2⟩
        rw [hvals, hvals, eq_congr_right c hab key, (hresp a b hab).1]
    | false =>
      have hkeys : (applyOp c o (Op.set key value)).keys = o.keys ++ [key] := by
        simp [applyOp, Set, hpres]
      have hnot : ∀ k1 ∈ o.keys, c.eq k1 key = false := by
        intro k1 hk1
        cases he : c.eq k1 key with
        | false => rfl
        | true =>
          have := (hmem key).1 ⟨k1, hk1, he⟩
          rw [hpres] at this
          exact absurd this (by simp)
      have hnot2 : ∀ k1 ∈ o.keys, c.eq key k1 = false := by
        intro k1 hk1
        rw [c.symm]; exact hnot k1 hk1
      have hst_eq : ∀ k, c.eq key k = true → stamp c time t (Op.set key value) k = some t := by
        intro k hk
        have h1 : (time k).isSome = false := by
          rw [htime k, ← (hresp key k hk).1]; exact hpres
        simp [stamp, hk, h1]
      have hst_ne : ∀ k, c.eq key k = false → stamp c time t (Op.set key value) k = time k := by
        intro k hk
        simp [stamp, hk]
      refine ⟨?_, ?_, ?_, ?_, ?_, ?_⟩
      · intro k hk
        rw [hkeys, List.mem_append, List.mem_singleton] at hk
        rcases hk with hk | hk
        · exact hself k hk
        · rw [hk]; exact hkk
      · intro k
        rw [hkeys, hvals]
        cases hk : c.eq key k with
        | true =>
          simp only [if_true, Option.isSome_some, iff_true]
          exact ⟨key, by simp, hk⟩
        | false =>
          simp only [Bool.false_eq_true, if_false]
          rw [← hmem k]
          constructor
          · rintro ⟨k1, hk1, he⟩
            rw [List.mem_append, List.mem_singleton] at hk1
            rcases hk1 with hk1 | hk1
            · exact ⟨k1, hk1, he⟩
            · rw [hk1, hk] at he; exact absurd he (by simp)
          · rintro ⟨k1, hk1, he⟩
            exact ⟨k1, List.mem_append_left _ hk1, he⟩
      · intro k
        rw [hvals]
        cases hk : c.eq key k with
        | true => simp [hst_eq k hk]
        | false => simp [hst_ne k hk, htime k]
      · rw [hkeys, List.pairwise_append]
        refine ⟨?_, List.pairwise_singleton _ _, ?_⟩
        · refine List.Pairwise.imp_of_mem ?_ hpw
          intro a b ha hb hab
          obtain ⟨ta, tb, h1, h2, h3⟩ := hab
          exact ⟨ta, tb, by rw [hst_ne a (hnot2 a ha), h1], by rw [hst_ne b (hnot2 b hb), h2], h3⟩
        · intro a ha b hb
          rw [List.mem_singleton] at hb
          subst hb
          have hsome : (time a).isSome = true := by
            rw [htime a]; exact (hmem a).1 ⟨a, ha, hself a ha⟩
          obtain ⟨ta, hta⟩ := Option.isSome_iff_exists.1 hsome
          exact ⟨ta, t, by rw [hst_ne a (hnot2 a ha), hta], hst_eq b hkk, hlt a ta hta⟩
      · intro k tk hk
        cases he : c.eq key k with
        | true =>
          rw [hst_eq k he] at hk
          have := Option.some.inj hk
          omega
        | false =>
          rw [hst_ne k he] at hk
          exact Nat.lt_succ_of_lt (hlt k tk hk)
      · intro a b hab
        have hcg := eq_congr_right c hab key
        refine ⟨?_, ?_⟩
        · rw [hvals, hvals, hcg, (hresp a b hab).1]
        · cases he : c.eq key a with
          | true => rw [hst_eq a he, hst_eq b (by rw [← hcg]; exact he)]
          | false => rw [hst_ne a he, hst_ne b (by rw [← hcg]; exact he), (hresp a b hab).2]
  | delete key =>
    cases hpres : (o.values key).isSome with
    | false =>
      have hst : stamp c time t (Op.delete key : Op K V) = time := by
        funext k
        cases hk : c.eq key k with
        | false => simp [stamp, hk]
        | true =>
          have h1 : (time k).isSome = false := by
            rw [htime k, ← (hresp key k hk).1]; exact hpres
          have h2 : time k = none := by simpa using h1
          simp [stamp, hk, h2]
      rw [hst]
      have ho : applyOp c o (Op.delete key) = o := by
        simp [applyOp, Delete, hpres]
      rw [ho]
      exact ⟨hself, hmem, htime, hpw, fun k tk hk => Nat.lt_succ_of_lt (hlt k tk hk), hresp⟩
    | true =>
      have hdist : o.keys.Pairwise (fun a b => c.eq a b = false) :=
        pairwise_ne_of_insertedBefore c time (fun a b hab => (hresp a b hab).2) _ hpw
      have hkeys : (applyOp c o (Op.delete key)).keys
          = o.keys.filter (fun k => !c.eq k key) := by
        simp only [applyOp, Delete, hpres, if_true]
        exact removeKey_eq_filter c key _ hdist
      have hvals : ∀ k, (applyOp c o (Op.delete key)).values k
          = if c.eq key k then none else o.values k := by
        intro k
        simp [applyOp, Delete, hpres]
      have hst : ∀ k, stamp c time t (Op.delete key : Op K V) k
          = if c.eq key k then none else time k := fun k => rfl
      have hin : ∀ a, a ∈ o.keys.filter (fun k => !c.eq k key) →
          a ∈ o.keys ∧ c.eq key a = false := by
        intro a ha
        rw [List.mem_filter] at ha
        refine ⟨ha.1, ?_⟩
        rw [c.symm]
        simpa using ha.2
      refine ⟨?_, ?_, ?_, ?_, ?_, ?_⟩
      · intro k hk
        rw [hkeys] at hk
        exact hself k (hin k hk).1
      · intro k
        rw [hkeys, hvals]
        cases hk : c.eq key k with
        | true =>
          simp only [if_true, Option.isSome_none, Bool.false_eq_true, iff_false]
          rintro ⟨k1, hk1, he⟩
          have h1 := (hin k1 hk1).2
          rw [c.symm, eq_congr_right c hk k1, he] at h1
          exact absurd h1 (by simp)
        | false =>
          simp only [Bool.false_eq_true, if_false]
          rw [← hmem k]
          constructor
          · rintro ⟨k1, hk1, he⟩
            exact ⟨k1, (hin k1 hk1).1, he⟩
          · rintro ⟨k1, hk1, he⟩
            refine ⟨k1, ?_, he⟩
            rw [List.mem_filter]
            refine ⟨hk1, ?_⟩
            cases h1 : c.eq k1 key with
            | false => rfl
            | true =>
              have h2 : c.eq key k1 = true := by rw [c.symm]; exact h1
              have := c.trans key k1 k h2 he
              rw [hk] at this
              exact absurd this (by simp)
      · intro k
        rw [hvals, hst]
        cases hk : c.eq key k with
        | true => simp
        | false => simpa using htime k
      · rw [hkeys]
        refine List.Pairwise.imp_of_mem ?_ (List.Pairwise.sublist (List.filter_sublist _) hpw)
        intro a b ha hb hab
        obtain ⟨ta, tb, h1, h2, h3⟩ := hab
        refine ⟨ta, tb, ?_, ?_, h3⟩
        · rw [hst, (hin a ha).2]; simpa using h1
        · rw [hst, (hin b hb).2]; simpa using h2
      · intro k tk hk
        rw [hst] at hk
        cases he : c.eq key k with
        | true => rw [he] at hk; simp at hk
        | false =>
          rw [he] at hk
          exact Nat.lt_succ_of_lt (hlt k tk (by simpa using hk))
      · intro a b hab
        have hcg := eq_congr_right c hab key
        refine ⟨?_, ?_⟩
        · rw [hvals, hvals, hcg, (hresp a b hab).1]
        · rw [hst, hst, hcg, (hresp a b hab).2]

theorem insertedAtFrom_cons (c : Comparable K) (k : K) (op : Op K V) (rest : List (Op K V))
    (t : Nat) (time : K → Option Nat) :
    insertedAtFrom c k (op :: rest) t (time k)
      = insertedAtFrom c k rest (t + 1) (stamp c time t op k) := by
  cases op <;> simp [insertedAtFrom, stamp]

theorem mapInv_applyOps (c : Comparable K) (ops : List (Op K V)) :
    ∀ (o : OrderedMap K V) (time : K → Option Nat) (t : Nat), MapInv c o time t →
      (∀ key value, Op.set key value ∈ ops → c.eq key key = true) →
      MapInv c (applyOps c o ops) (fun k => insertedAtFrom c k ops t (time k))
        (t + ops.length) := by
  induction ops with
  | nil => intro o time t h _; exact h
  | cons op rest ih =>
    intro o time t h hset
    have h1 := ih (applyOp c o op) (stamp c time t op) (t + 1)
      (mapInv_applyOp c o time t h op
        (fun key value e => hset key value (e ▸ List.mem_cons_self _ _)))
      (fun key value hm => hset key value (List.mem_cons_of_mem _ hm))
    have hfun : (fun k => insertedAtFrom c k (op :: rest) t (time k))
        = fun k => insertedAtFrom c k rest (t + 1) (stamp c time t op k) := by
      funext k
      exact insertedAtFrom_cons c k op rest t time
    rw [hfun]
    have hlen : t + (op :: rest).length = t + 1 + rest.length := by
      simp only [List.length_cons]; omega
    rw [hlen]
    exact h1

theorem mapInv_new (c : Comparable K) : MapInv c (New : OrderedMap K V) (fun _ => none) 0 := by
  refine ⟨?_, ?_, ?_, ?_, ?_, ?_⟩
  · intro k hk; simp [New] at hk
  · intro k; simp [New]
  · intro k; simp [New]
  · simp [New]
  · intro k tk hk; exact absurd hk (by simp)
  · intro a b _; exact ⟨rfl, rfl⟩

/-- The flag returned by `Get` says whether the lookup in `values` finds the key. -/
theorem get_snd [Inhabited V] (o : OrderedMap K V) (k : K) :
    (Get o k).2 = (o.values k).isSome := by
  simp only [Get]
  cases o.values k <;> rfl

/-- C18 (counterexample). With float64 keys, after `Set(NaN, 1)` and `Set(NaN, 2)` on a
new map `Iterate` returns NaN twice while `Get(NaN)` reports false: the list holds a
key twice, and it holds a key for which `Get` does not report true. -/
theorem iterate_nan_counterexample :
    Iterate (applyOps float64 (New : OrderedMap Float64Key Nat)
      [Op.set Float64Key.nan 1, Op.set Float64Key.nan 2])
      = [Float64Key.nan, Float64Key.nan] ∧
    Get (applyOps float64 (New : OrderedMap Float64Key Nat)
      [Op.set Float64Key.nan 1, Op.set Float64Key.nan 2]) Float64Key.nan = (0, false) ∧
    ¬ (Iterate (applyOps float64 (New : OrderedMap Float64Key Nat)
      [Op.set Float64Key.nan 1, Op.set Float64Key.nan 2])).Nodup ∧
    ¬ (∀ k, k ∈ Iterate (applyOps float64 (New : OrderedMap Float64Key Nat)
        [Op.set Float64Key.nan 1, Op.set Float64Key.nan 2])
      ↔ (Get (applyOps float64 (New : OrderedMap Float64Key Nat)
        [Op.set Float64Key.nan 1, Op.set Float64Key.nan 2]) k).2 = true) := by
  refine ⟨by decide, by decide, by decide, ?_⟩
  intro h
  have h1 := (h Float64Key.nan).1 (by decide)
  revert h1
  decide

/-- C18 (amended). After any sequence of `Set` and `Delete` calls on a new map in which
every key passed to `Set` is equal to itself, `Iterate` returns the keys that are
present: a lookup with `Get` reports true exactly for the keys equal to a key of the
list, no two keys of the list are equal, and the list is ordered by the position of
the `Set` that inserted each key; a further `Set` of a present key leaves the list as
it is, a `Set` of an absent key appends it, and a `Delete` removes the keys equal to
its argument and keeps the others in their order.  On a key type where only identical
values are equal the list is duplicate-free and holds exactly the keys for which `Get`
reports true. -/
theorem iterate_keys_in_insertion_order [Inhabited V] (c : Comparable K)
    (ops : List (Op K V))
    (hset : ∀ key value, Op.set key value ∈ ops → c.eq key key = true) :
    (∀ k, (∃ k1 ∈ Iterate (applyOps c New ops), c.eq k1 k = true)
      ↔ (Get (applyOps c New ops) k).2 = true) ∧
    (Iterate (applyOps c New ops)).Pairwise (fun a b => c.eq a b = false) ∧
    (Iterate (applyOps c New ops)).Nodup ∧
    (Iterate (applyOps c New ops)).Pairwise (InsertedBefore (insertedAt c ops)) ∧
    (∀ k, (insertedAt c ops k).isSome = (Get (applyOps c New ops) k).2) ∧
    (∀ key value, Iterate (Set c (applyOps c New ops) key value)
      = if (Get (applyOps c New ops) key).2 then Iterate (applyOps c New ops)
        else Iterate (applyOps c New ops) ++ [key]) ∧
    (∀ key, Iterate (Delete c (applyOps c New ops) key)
      = (Iterate (applyOps c New ops)).filter (fun k => !c.eq k key)) ∧
    ((∀ a b, c.eq a b = true → a = b) →
      ∀ k, k ∈ Iterate (applyOps c New ops) ↔ (Get (applyOps c New ops) k).2 = true) := by
  have h := mapInv_applyOps c ops New (fun _ => none) 0 (mapInv_new c) hset
  obtain ⟨hself, hmem, htime, hpw, _, hresp⟩ := h
  have hdist : (applyOps c New ops).keys.Pairwise (fun a b => c.eq a b = false) :=
    pairwise_ne_of_insertedBefore c _ (fun a b hab => (hresp a b hab).2) _ hpw
  have hnd : (applyOps c New ops).keys.Nodup := by
    refine List.Pairwise.imp_of_mem ?_ hdist
    intro a b ha _ hab heq
    rw [← heq, hself a ha] at hab
    exact absurd hab (by simp)
  refine ⟨?_, hdist, hnd, hpw, ?_, ?_, ?_, ?_⟩
  · intro k
    rw [get_snd]
    exact hmem k
  · intro k
    rw [get_snd]
    exact htime k
  · intro key value
    rw [get_snd]
    simp [Iterate, Set]
  · intro key
    simp only [Iterate, Delete]
    cases hpres : ((applyOps c New ops).values key).isSome with
    | true =>
      simp only [if_true]
      exact removeKey_eq_filter c key _ hdist
    | false =>
      simp only [Bool.false_eq_true, if_false]
      symm
      apply filter_eq_self_of_none
      intro x hx
      cases he : c.eq x key with
      | false => rfl
      | true =>
        have := (hmem key).1 ⟨x, hx, he⟩
        rw [hpres] at this
        exact absurd this (by simp)
  · intro hid k
    rw [get_snd, ← hmem k]
    constructor
    · intro hk
      exact ⟨k, hk, hself k hk⟩
    · rintro ⟨k1, hk1, he⟩
      rw [← hid k1 k he]
      exact hk1

/-- C18 (witness). A map with float64 keys and no NaN: after `Set(1, 10)`, `Set(2, 20)`,
`Set(1, 30)`, `Delete(1)`, `Set(3, 1)`, `Set(1, 9)` the list of `Iterate` is 2, 3, 1. -/
theorem iterate_keys_in_insertion_order_witness :
    (∀ key value, Op.set key value ∈
        ([Op.set (Float64Key.num 1) 10, Op.set (Float64Key.num 2) 20,
          Op.set (Float64Key.num 1) 30, Op.delete (Float64Key.num 1),
          Op.set (Float64Key.num 3) 1, Op.set (Float64Key.num 1) 9] : List (Op Float64Key Nat))
      → float64.eq key key = true) ∧
    Iterate (applyOps float64 (New : OrderedMap Float64Key Nat)
      [Op.set (Float64Key.num 1) 10, Op.set (Float64Key.num 2) 20,
        Op.set (Float64Key.num 1) 30, Op.delete (Float64Key.num 1),
        Op.set (Float64Key.num 3) 1, Op.set (Float64Key.num 1) 9])
      = [Float64Key.num 2, Float64Key.num 3, Float64Key.num 1] ∧
    (Iterate (applyOps float64 (New : OrderedMap Float64Key Nat)
      [Op.set (Float64Key.num 1) 10, Op.set (Float64Key.num 2) 20,
        Op.set (Float64Key.num 1) 30, Op.delete (Float64Key.num 1),
        Op.set (Float64Key.num 3) 1, Op.set (Float64Key.num 1) 9])).Pairwise
      (fun a b => float64.eq a b = false) ∧
    (∀ k, (∃ k1 ∈ Iterate (applyOps float64 (New : OrderedMap Float64Key Nat)
        [Op.set (Float64Key.num 1) 10, Op.set (Float64Key.num 2) 20,
          Op.set (Float64Key.num 1) 30, Op.delete (Float64Key.num 1),
          Op.set (Float64Key.num 3) 1, Op.set (Float64Key.num 1) 9]), float64.eq k1 k = true)
      ↔ (Get (applyOps float64 (New : OrderedMap Float64Key Nat)
        [Op.set (Float64Key.num 1) 10, Op.set (Float64Key.num 2) 20,
          Op.set (Float64Key.num 1) 30, Op.delete (Float64Key.num 1),
          Op.set (Float64Key.num 3) 1, Op.set (Float64Key.num 1) 9]) k).2 = true) :=
  have hset : ∀ key value, Op.set key value ∈
      ([Op.set (Float64Key.num 1) 10, Op.set (Float64Key.num 2) 20,
        Op.set (Float64Key.num 1) 30, Op.delete (Float64Key.num 1),
        Op.set (Float64Key.num 3) 1, Op.set (Float64Key.num 1) 9] : List (Op Float64Key Nat))
      → float64.eq key key = true := by
    intro key value hm
    simp only [List.mem_cons, Op.set.injEq, List.mem_singleton, List.not_mem_nil,
      or_false, false_or, reduceCtorEq] at hm
    rcases hm with h | h | h | h | h <;> rw [h.1] <;> decide
  have h := iterate_keys_in_insertion_order float64
    ([Op.set (Float64Key.num 1) 10, Op.set (Float64Key.num 2) 20,
      Op.set (Float64Key.num 1) 30, Op.delete (Float64Key.num 1),
      Op.set (Float64Key.num 3) 1, Op.set (Float64Key.num 1) 9] : List (Op Float64Key Nat))
    hset
  ⟨hset, by decide, h.2.1, h.1⟩

theorem values_congr_applyOp (c : Comparable K) (o : OrderedMap K V) (op : Op K V)
    (hresp : ∀ a b, c.eq a b = true → o.values a = o.values b) :
    ∀ a b, c.eq a b = true → (applyOp c o op).values a = (applyOp c o op).values b := by
  intro a b hab
  have hcg := eq_congr_right c hab
  cases op with
  | set key value =>
    simp only [applyOp, Set]
    rw [hcg key, hresp a b hab]
  | delete key =>
    simp only [applyOp, Delete]
    split
    · simp only
      rw [hcg key, hresp a b hab]
    · exact hresp a b hab

/-- What a lookup finds after one operation. -/
theorem applyOp_values (c : Comparable K) (o : OrderedMap K V) (op : Op K V) (k : K)
    (hresp : ∀ a b, c.eq a b = true → o.values a = o.values b) :
    (applyOp c o op).values k
      = if c.eq op.key k then
          (match op with
            | Op.set _ v => some v
            | Op.delete _ => none)
        else o.values k := by
  cases op with
  | set key value => simp only [applyOp, Set, Op.key]
  | delete key =>
    simp only [applyOp, Delete, Op.key]
    cases hpres : (o.values key).isSome with
    | true => simp
    | false =>
      simp only [Bool.false_eq_true, if_false]
      cases hk : c.eq key k with
      | false => simp
      | true =>
        simp only [if_true]
        rw [← hresp key k hk]
        simpa using hpres

theorem lastOpOn_cons (c : Comparable K) (k : K) (op : Op K V) (rest : List (Op K V)) :
    lastOpOn c k (op :: rest)
      = match lastOpOn c k rest with
        | some x => some x
        | none => if c.eq op.key k then some op else none := by
  simp only [lastOpOn]
  cases hk : c.eq op.key k with
  | true =>
    rw [List.filter_cons_of_pos (by simpa using hk)]
    cases hf : rest.filter (fun op => c.eq op.key k) with
    | nil => simp
    | cons y ys =>
      rw [List.getLast?_cons_cons]
      cases hl : (y :: ys).getLast? with
      | none => simp at hl
      | some z => simp
  | false =>
    rw [List.filter_cons_of_neg (by simp [hk])]
    cases hl : (rest.filter (fun op => c.eq op.key k)).getLast? with
    | none => simp
    | some z => simp

theorem applyOps_values (c : Comparable K) (k : K) (ops : List (Op K V)) :
    ∀ o : OrderedMap K V, (∀ a b, c.eq a b = true → o.values a = o.values b) →
      (applyOps c o ops).values k
        = (match lastOpOn c k ops with
          | some (Op.set _ v) => some v
          | some (Op.delete _) => none
          | none => o.values k) := by
  induction ops with
  | nil => intro o _; rfl
  | cons op rest ih =>
    intro o hresp
    have hstep : applyOps c o (op :: rest) = applyOps c (applyOp c o op) rest := rfl
    rw [hstep, ih (applyOp c o op) (values_congr_applyOp c o op hresp), lastOpOn_cons]
    cases hrest : lastOpOn c k rest with
    | some x => cases x <;> rfl
    | none =>
      simp only
      rw [applyOp_values c o op k hresp]
      cases hk : c.eq op.key k with
      | false => simp
      | true => cases op <;> simp

/-- C19 (counterexample). With float64 keys, the last operation on the key NaN in the
sequence `Set(NaN, 1)` is that `Set`, yet `Get(NaN)` returns the zero value and false;
and `Delete(NaN)` after it removes nothing: `Iterate` still returns NaN. -/
theorem get_nan_counterexample :
    lastOpOnSame Float64Key.nan [Op.set Float64Key.nan (1 : Nat)]
      = some (Op.set Float64Key.nan 1) ∧
    Get (applyOps float64 (New : OrderedMap Float64Key Nat) [Op.set Float64Key.nan 1])
      Float64Key.nan = (0, false) ∧
    Iterate (applyOps float64 (New : OrderedMap Float64Key Nat)
      [Op.set Float64Key.nan 1, Op.delete Float64Key.nan]) = [Float64Key.nan] := by
  refine ⟨by decide, by decide, by decide⟩

/-- C19 (amended). After any sequence of `Set` and `Delete` calls on a new map, `Get(k)`
returns `(v, true)` when the last operation on a key equal to `k` was a `Set` with the
value `v`, and the zero value with `false` when no operation was on a key equal to `k`
or the last one was a `Delete`; an operation on a key not equal to `k` leaves the
result of `Get(k)` as it was.  For a key that is not equal to itself `Get` returns the
zero value and `false` after every sequence; for a key that is equal to itself and to
no other value the operations on a key equal to `k` are the operations on `k`. -/
theorem get_is_last_operation [Inhabited V] [DecidableEq K] (c : Comparable K)
    (ops : List (Op K V)) (k : K) :
    Get (applyOps c New ops) k
      = (match lastOpOn c k ops with
        | some (Op.set _ v) => (v, true)
        | some (Op.delete _) => (default, false)
        | none => (default, false)) ∧
    (∀ (ops1 : List (Op K V)) (op : Op K V), c.eq op.key k = false →
      Get (applyOp c (applyOps c New ops1) op) k = Get (applyOps c New ops1) k) ∧
    (c.eq k k = false → Get (applyOps c New ops) k = (default, false)) ∧
    ((∀ key, c.eq key k = true ↔ key = k) →
      Get (applyOps c New ops) k
        = (match lastOpOnSame k ops with
          | some (Op.set _ v) => (v, true)
          | some (Op.delete _) => (default, false)
          | none => (default, false))) := by
  have hnew : ∀ a b, c.eq a b = true → (New : OrderedMap K V).values a = New.values b :=
    fun _ _ _ => rfl
  have hresp : ∀ (l : List (Op K V)) (a b : K), c.eq a b = true →
      (applyOps c New l).values a = (applyOps c New l).values b := by
    intro l
    induction l using List.reverseRecOn with
    | nil => exact hnew
    | append_singleton l op ih =>
      have : applyOps c New (l ++ [op]) = applyOp c (applyOps c New l) op := by
        simp [applyOps, List.foldl_append]
      rw [this]
      exact values_congr_applyOp c _ op ih
  have hget : Get (applyOps c New ops) k
      = (match lastOpOn c k ops with
        | some (Op.set _ v) => (v, true)
        | some (Op.delete _) => (default, false)
        | none => (default, false)) := by
    simp only [Get]
    rw [applyOps_values c k ops New hnew]
    cases lastOpOn c k ops with
    | none => rfl
    | some x => cases x <;> rfl
  refine ⟨hget, ?_, ?_, ?_⟩
  · intro ops1 op hk
    simp only [Get]
    rw [applyOp_values c _ op k (hresp ops1), hk]
    simp
  · intro hk
    have hnone : lastOpOn c k ops = none := by
      simp only [lastOpOn]
      have : ops.filter (fun op => c.eq op.key k) = [] := by
        rw [List.filter_eq_nil_iff]
        intro op _ he
        rw [eq_self_right c he] at hk
        exact absurd hk (by simp)
      rw [this]
      rfl
    rw [hget, hnone]
  · intro hid
    have hsame : lastOpOn c k ops = lastOpOnSame k ops := by
      simp only [lastOpOn, lastOpOnSame]
      congr 1
      apply List.filter_congr
      intro op _
      by_cases h : op.key = k
      · simp [h, (hid k).2 rfl]
      · have : c.eq op.key k = false := by
          cases he : c.eq op.key k with
          | false => rfl
          | true => exact absurd ((hid op.key).1 he) h
        simp [h, this]
    rw [hget, hsame]

/-- C19 (witness). The tests `TestSetAndGet` and `TestDelete` on string keys, and a
lookup of NaN in a map with float64 keys. -/
theorem get_is_last_operation_witness :
    Get (applyOps (Comparable.identity String) (New : OrderedMap String Nat)
      [Op.set "key1" 10, Op.set "key2" 20]) "key1" = (10, true) ∧
    Get (applyOps (Comparable.identity String) (New : OrderedMap String Nat)
      [Op.set "key1" 10, Op.delete "key1"]) "key1" = (0, false) ∧
    Get (applyOps float64 (New : OrderedMap Float64Key Nat)
      [Op.set Float64Key.nan 1, Op.set (Float64Key.num 2) 5]) Float64Key.nan = (0, false) :=
  ⟨(get_is_last_operation (Comparable.identity String)
      ([Op.set "key1" 10, Op.set "key2" 20] : List (Op String Nat)) "key1").1.trans
      (by decide),
    (get_is_last_operation (Comparable.identity String)
      ([Op.set "key1" 10, Op.delete "key1"] : List (Op String Nat)) "key1").1.trans
      (by decide),
    (get_is_last_operation float64
      ([Op.set Float64Key.nan 1, Op.set (Float64Key.num 2) 5] : List (Op Float64Key Nat))
      Float64Key.nan).2.2.1 (by decide)⟩

/-- The tests `TestSetAndGet`, `TestDelete` and `TestIterate`. -/
theorem orderedmap_tests :
    Get (applyOps (Comparable.identity String) (New : OrderedMap String Nat)
      [Op.set "key1" 10, Op.set "key2" 20]) "key1" = (10, true) ∧
    Get (applyOps (Comparable.identity String) (New : OrderedMap String Nat)
      [Op.set "key1" 10, Op.set "key2" 20]) "key2" = (20, true) ∧
    Get (applyOps (Comparable.identity String) (New : OrderedMap String Nat)
      [Op.set "key1" 10, Op.delete "key1"]) "key1" = (0, false) ∧
    Iterate (applyOps (Comparable.identity String) (New : OrderedMap String Nat)
      [Op.set "key1" 10, Op.set "key2" 20]) = ["key1", "key2"] ∧
    Iterate (applyOps (Comparable.identity String) (New : OrderedMap String Nat)
      [Op.set "a" 1, Op.set "b" 2, Op.set "a" 3, Op.delete "a", Op.set "c" 1, Op.set "a" 9])
      = ["b", "c", "a"] := by
  refine ⟨by decide, by decide, by decide, by decide, by decide⟩

end Orderedmap

namespace Config

variable {φ : Type}

/-- What a successful `overrideWithEnvRecursive` does to the first field when it is not
a struct: the field keeps its description, the remaining fields are processed with
success, and the value is the one parsed from the variable when the field has an env
tag, is settable and the variable is set, and the old value otherwise. -/
theorem override_leaf (lib : Lib φ) (env : String → Option String) (info : FieldInfo)
    (v : Value φ) (rest fs1 : Fields φ)
    (h : overrideWithEnvRecursive lib env (Fields.leaf info v rest) = (fs1, none)) :
    ∃ w rest1, fs1 = Fields.leaf info w rest1 ∧
      overrideWithEnvRecursive lib env rest = (rest1, none) ∧
      (∀ tag s, info.envTag = some tag → info.canSet = true → env tag = some s →
        setField lib info.kind s = Except.ok w) ∧
      ((info.envTag = none ∨ info.canSet = false ∨
        ∃ tag, info.envTag = some tag ∧ env tag = none) → w = v) := by
  obtain ⟨rest1, err, hrest⟩ : ∃ rest1 err,
      overrideWithEnvRecursive lib env rest = (rest1, err) := ⟨_, _, rfl⟩
  cases htag : info.envTag with
  | none =>
    simp only [overrideWithEnvRecursive, htag, hrest, Prod.mk.injEq] at h
    obtain ⟨h1, h2⟩ := h
    subst h2
    exact ⟨v, rest1, h1.symm, hrest, by intro tag s ht; simp at ht, fun _ => rfl⟩
  | some tag =>
    cases hcan : info.canSet with
    | false =>
      simp only [overrideWithEnvRecursive, htag, hcan, hrest, Prod.mk.injEq,
        Bool.false_eq_true, if_false] at h
      obtain ⟨h1, h2⟩ := h
      subst h2
      exact ⟨v, rest1, h1.symm, hrest, by intro tag s _ hc; simp at hc, fun _ => rfl⟩
    | true =>
      cases henv : env tag with
      | none =>
        simp only [overrideWithEnvRecursive, htag, hcan, henv, hrest, Prod.mk.injEq,
          if_true] at h
        obtain ⟨h1, h2⟩ := h
        subst h2
        refine ⟨v, rest1, h1.symm, hrest, ?_, fun _ => rfl⟩
        intro tag2 s ht _ hs
        simp only [Option.some.injEq] at ht
        subst ht
        rw [henv] at hs
        exact absurd hs (by simp)
      | some envVal =>
        cases hset : setField lib info.kind envVal with
        | error e =>
          simp [overrideWithEnvRecursive, htag, hcan, henv, hset] at h
        | ok w =>
          simp only [overrideWithEnvRecursive, htag, hcan, henv, hset, hrest, Prod.mk.injEq,
            if_true] at h
          obtain ⟨h1, h2⟩ := h
          subst h2
          refine ⟨w, rest1, h1.symm, hrest, ?_, ?_⟩
          · intro tag2 s ht _ hs
            simp only [Option.some.injEq] at ht
            subst ht
            rw [henv] at hs
            simp only [Option.some.injEq] at hs
            subst hs
            exact hset
          · rintro (h3 | h3 | ⟨tag2, h3, h4⟩)
            · simp at h3
            · simp at h3
            · simp only [Option.some.injEq] at h3
              subst h3
              rw [henv] at h4
              exact absurd h4 (by simp)

/-- What a successful `overrideWithEnvRecursive` does to the first field when it is a
struct: both the inner fields and the remaining fields are processed with success. -/
theorem override_nested (lib : Lib φ) (env : String → Option String) (info : FieldInfo)
    (inner rest fs1 : Fields φ)
    (h : overrideWithEnvRecursive lib env (Fields.nested info inner rest) = (fs1, none)) :
    ∃ inner1 rest1, fs1 = Fields.nested info inner1 rest1 ∧
      overrideWithEnvRecursive lib env inner = (inner1, none) ∧
      overrideWithEnvRecursive lib env rest = (rest1, none) := by
  obtain ⟨inner1, err1, hinner⟩ : ∃ inner1 err,
      overrideWithEnvRecursive lib env inner = (inner1, err) := ⟨_, _, rfl⟩
  obtain ⟨rest1, err2, hrest⟩ : ∃ rest1 err,
      overrideWithEnvRecursive lib env rest = (rest1, err) := ⟨_, _, rfl⟩
  cases err1 with
  | some e => simp [overrideWithEnvRecursive, hinner] at h
  | none =>
    simp only [overrideWithEnvRecursive, hinner, hrest, Prod.mk.injEq] at h
    obtain ⟨h1, h2⟩ := h
    subst h2
    exact ⟨inner1, rest1, h1.symm, hinner, hrest⟩

/-- After a successful `overrideWithEnvRecursive` every non-struct field, at any depth,
holds the value parsed from its variable when it has an env tag, is settable and the
variable is set, and the value it had before otherwise. -/
theorem override_leafAt (lib : Lib φ) (env : String → Option String) :
    ∀ (fs fs1 : Fields φ), overrideWithEnvRecursive lib env fs = (fs1, none) →
      ∀ (path : List Nat) (info : FieldInfo) (v : Value φ),
        fs.leafAt path = some (info, v) →
        ∃ w, fs1.leafAt path = some (info, w) ∧
          (∀ tag s, info.envTag = some tag → info.canSet = true → env tag = some s →
            setField lib info.kind s = Except.ok w) ∧
          ((info.envTag = none ∨ info.canSet = false ∨
            ∃ tag, info.envTag = some tag ∧ env tag = none) → w = v) := by
  intro fs
  induction fs with
  | nil =>
    intro fs1 _ path info v hp
    simp [Fields.leafAt] at hp
  | leaf info0 v0 rest ih =>
    intro fs1 h path info v hp
    obtain ⟨w0, rest1, hfs1, hrest, hset, hkeep⟩ := override_leaf lib env info0 v0 rest fs1 h
    subst hfs1
    match path, hp with
    | [0], hp =>
      simp only [Fields.leafAt, Option.some.injEq, Prod.mk.injEq] at hp
      obtain ⟨h1, h2⟩ := hp
      subst h1 h2
      exact ⟨w0, by simp [Fields.leafAt], hset, hkeep⟩
    | (i + 1) :: p, hp =>
      simp only [Fields.leafAt] at hp
      obtain ⟨w, hw, h1, h2⟩ := ih rest1 hrest (i :: p) info v hp
      exact ⟨w, by simpa [Fields.leafAt] using hw, h1, h2⟩
  | nested info0 inner rest ih1 ih2 =>
    intro fs1 h path info v hp
    obtain ⟨inner1, rest1, hfs1, hinner, hrest⟩ :=
      override_nested lib env info0 inner rest fs1 h
    subst hfs1
    match path, hp with
    | 0 :: p, hp =>
      simp only [Fields.leafAt] at hp
      obtain ⟨w, hw, h1, h2⟩ := ih1 inner1 hinner p info v hp
      exact ⟨w, by simpa [Fields.leafAt] using hw, h1, h2⟩
    | (i + 1) :: p, hp =>
      simp only [Fields.leafAt] at hp
      obtain ⟨w, hw, h1, h2⟩ := ih2 rest1 hrest (i :: p) info v hp
      exact ⟨w, by simpa [Fields.leafAt] using hw, h1, h2⟩

/-- The items that `parseSlice` stores for a slice of strings. -/
theorem parseSliceLoop_string (lib : Lib φ) (pieces : List String) :
    parseSliceLoop lib Kind.string pieces
      = Except.ok (pieces.map (fun x => Value.str (lib.trimSpace x))) := by
  induction pieces with
  | nil => rfl
  | cons p rest ih => simp [parseSliceLoop, ih]

/-- The entries that `parseMap` stores for a map from strings to strings when every
pair has a colon. -/
theorem parseMapLoop_string (lib : Lib φ) (pairs : List String) (kvs : List (String × String))
    (h : pairs.map (fun p => lib.splitN p ":" 2) = kvs.map (fun kv => [kv.1, kv.2])) :
    parseMapLoop lib (fun x => Except.ok (Value.str x)) (fun x => Except.ok (Value.str x)) pairs
      = Except.ok (kvs.map (fun kv => (Value.str kv.1, Value.str kv.2))) := by
  induction pairs generalizing kvs with
  | nil =>
    cases kvs with
    | nil => rfl
    | cons kv t => simp at h
  | cons p rest ih =>
    cases kvs with
    | nil => simp at h
    | cons kv t =>
      simp only [List.map_cons, List.cons.injEq] at h
      simp [parseMapLoop, h.1, ih t h.2]

/-- C20 (counterexample). A field that carries the env tag `SECRET` but is not settable:
with `SECRET` set to "from env", `Load` succeeds and the field still holds the value
"from file" read from the file, not the value "from env" parsed from the variable. -/
theorem load_env_counterexample :
    hiddenField.leafAt [0]
      = some (⟨"secret", some "SECRET", false, Kind.string⟩, Value.str "from file") ∧
    secretEnv "SECRET" = some "from env" ∧
    setField testLib Kind.string "from env" = Except.ok (Value.str "from env") ∧
    Load testLib secretEnv hiddenField none = (hiddenField, none) ∧
    (Load testLib secretEnv hiddenField none).1.leafAt [0]
      = some (⟨"secret", some "SECRET", false, Kind.string⟩, Value.str "from file") ∧
    (Value.str "from file" : Value Unit) ≠ Value.str "from env" := by
  refine ⟨rfl, rfl, rfl, rfl, rfl, ?_⟩
  intro h
  have := Value.str.inj h
  exact absurd this (by decide)

/-- C20 (amended). When the file loads and `Load` returns no error, every field that is
not a struct, at any nesting depth of structs, keeps its description and holds: the
value that `setField` parses from its variable, if the field carries an env tag, is
settable and the variable is set; the value read from the file otherwise.  For a slice
of strings the parsed value is the trimmed pieces between commas, and for a map from
strings to strings it is the key and value of each `key:value` pair between commas. -/
theorem load_env_overrides_settable_fields (lib : Lib φ) (env : String → Option String)
    (fileCfg cfg : Fields φ) (h : Load lib env fileCfg none = (cfg, none)) :
    (∀ (path : List Nat) (info : FieldInfo) (v : Value φ),
      fileCfg.leafAt path = some (info, v) →
      ∃ w, cfg.leafAt path = some (info, w) ∧
        (∀ tag s, info.envTag = some tag → info.canSet = true → env tag = some s →
          setField lib info.kind s = Except.ok w) ∧
        ((info.envTag = none ∨ info.canSet = false ∨
          ∃ tag, info.envTag = some tag ∧ env tag = none) → w = v)) ∧
    (∀ s, setField lib (Kind.slice Kind.string) s
      = Except.ok (Value.slice ((lib.split s ",").map (fun x => Value.str (lib.trimSpace x))))) ∧
    (∀ s (kvs : List (String × String)),
      (lib.split s ",").map (fun p => lib.splitN p ":" 2) = kvs.map (fun kv => [kv.1, kv.2]) →
      setField lib (Kind.map Kind.string Kind.string) s
        = Except.ok (Value.map (kvs.map (fun kv => (Value.str kv.1, Value.str kv.2))))) ∧
    (∀ e, Load lib env fileCfg (some e) = (fileCfg, some e)) := by
  refine ⟨?_, ?_, ?_, fun _ => rfl⟩
  · exact override_leafAt lib env fileCfg cfg h
  · intro s
    simp [setField, parseSlice, parseSliceLoop_string]
  · intro s kvs hk
    have hstr : setField lib Kind.string = fun x => Except.ok (Value.str x) := by
      funext x
      simp [setField]
    simp only [setField, hstr, parseMap, parseMapLoop_string lib _ kvs hk]

/-- C20 (witness). `TestLoadYAMLWithEnvOverride`: with the seven variables set, `Load`
on the sample file gives the values of the environment, among them port 5433, the
slice v4, v5 and the map foo:env_bar, baz:env_qux. -/
theorem load_env_overrides_settable_fields_witness :
    Load testLib testEnv sampleFile none
      = (sampleConfig "env_dbserver" 5433 "env_admin" "info" false ["v4", "v5"]
          [("foo", "env_bar"), ("baz", "env_qux")], none) ∧
    (∃ w, (sampleConfig "env_dbserver" 5433 "env_admin" "info" false ["v4", "v5"]
          [("foo", "env_bar"), ("baz", "env_qux")]).leafAt [0, 1]
        = some (⟨"Port", some "DATABASE_PORT", true, Kind.int 64⟩, w) ∧
      (∀ tag s, (⟨"Port", some "DATABASE_PORT", true, Kind.int 64⟩ : FieldInfo).envTag
          = some tag →
        (⟨"Port", some "DATABASE_PORT", true, Kind.int 64⟩ : FieldInfo).canSet = true →
        testEnv tag = some s →
        setField testLib (⟨"Port", some "DATABASE_PORT", true, Kind.int 64⟩ : FieldInfo).kind s
          = Except.ok w) ∧
      (((⟨"Port", some "DATABASE_PORT", true, Kind.int 64⟩ : FieldInfo).envTag = none ∨
        (⟨"Port", some "DATABASE_PORT", true, Kind.int 64⟩ : FieldInfo).canSet = false ∨
        ∃ tag, (⟨"Port", some "DATABASE_PORT", true, Kind.int 64⟩ : FieldInfo).envTag
          = some tag ∧ testEnv tag = none) → w = Value.int 5432)) ∧
    setField testLib (Kind.int 64) "5433" = Except.ok (Value.int 5433) :=
  ⟨rfl,
    (load_env_overrides_settable_fields testLib testEnv sampleFile
      (sampleConfig "env_dbserver" 5433 "env_admin" "info" false ["v4", "v5"]
        [("foo", "env_bar"), ("baz", "env_qux")]) rfl).1 [0, 1]
      ⟨"Port", some "DATABASE_PORT", true, Kind.int 64⟩ (Value.int 5432) rfl,
    rfl⟩

/-- Without the variables `Load` returns what the file gave (`TestLoadYAML`), and a value
that does not parse makes `Load` return an error. -/
theorem load_examples :
    Load testLib (fun _ => none) sampleFile none = (sampleFile, none) ∧
    (Load testLib (fun name => if name = "DATABASE_PORT" then some "abc" else none)
      sampleFile none).2
      = some "error setting field 'Port' with env variable 'DATABASE_PORT': invalid syntax" := by
  refine ⟨rfl, rfl⟩

end Config
